import Mathlib

/-!
Circular dependency detection of the Morphe SQLAlchemy plugin.

Shallow embedding of `pkg/compile/circular_detection.go`.

Go maps are embedded as association lists: the list is one enumeration
(`range`) of the map, and a well-formed map has pairwise distinct keys.
A `map[string]bool` that is only read and written by key is embedded as a
function `String → Bool` (a missing key reads as `false`).
-/

namespace Morphe

/-! ## Data model (`yaml.Model` and friends of morphe-go) -/

/-- Field of a model (`yaml.ModelField`); only the declared type is used. -/
structure ModelField where
  Type_ : String
deriving DecidableEq

/-- Identifier group of a model (`yaml.ModelIdentifier`). -/
structure ModelIdentifier where
  Fields : List String
deriving DecidableEq

/-- Relation of a model (`yaml.ModelRelation`). -/
structure ModelRelation where
  Type_ : String
  For : List String
  Through : String
  Aliased : String
deriving DecidableEq

/-- Model declaration (`yaml.Model`); the maps are given as enumerations. -/
structure Model where
  Name : String
  Fields : List (String × ModelField)
  Identifiers : List (String × ModelIdentifier)
  Related : List (String × ModelRelation)
deriving DecidableEq

/-- CircularDependency represents a circular dependency between models. -/
structure CircularDependency where
  Path : List String
deriving DecidableEq

/-- Adjacency map `map[string][]string`, as an enumeration of its entries. -/
abbrev Graph := List (String × List String)

/-- Go's `<` on strings: lexicographic comparison (bytewise in Go, by code point
here; the two orders agree on UTF-8 text). -/
def strLess (a b : String) : Bool := decide (a.data < b.data)

/-- Writing `m[k] = v` on a `map[string]bool`. -/
def setKey (m : String → Bool) (k : String) (v : Bool) : String → Bool :=
  fun x => if x = k then v else m x

/-- Reading `graph[node]`: the adjacency list, or the nil slice for a missing key. -/
def graphLookup : Graph → String → List String
  | [], _ => []
  | (k, deps) :: rest, node => if k = node then deps else graphLookup rest node

/-- Modelled from the spec: `yamlops.GetRelationTargetName` of morphe-go is not part
of the sources; the target of a relation is its alias when one is set, otherwise
the relation's own name. -/
def GetRelationTargetName (relName aliased : String) : String :=
  if aliased ≠ "" then aliased else relName

/-! ## buildDependencyGraph -/

/-- The helper `contains`: checks if a string slice contains a value. -/
def contains : List String → String → Bool
  | [], _ => false
  | v :: rest, value => if v = value then true else contains rest value

/-- Inner loop of `buildDependencyGraph` over `relation.For`. -/
def addForDeps (modelName : String) : List String → List String → List String
  | deps, [] => deps
  | deps, forModel :: rest =>
    if forModel ≠ modelName ∧ contains deps forModel = false then
      addForDeps modelName (deps ++ [forModel]) rest
    else addForDeps modelName deps rest

/-- Body of the loop of `buildDependencyGraph` over `model.Related`. -/
def relationDeps (modelName : String) (deps : List String)
    (rel : String × ModelRelation) : List String :=
  let targetName := GetRelationTargetName rel.1 rel.2.Aliased
  if rel.2.For.length > 0 then
    addForDeps modelName deps rel.2.For
  else if targetName ≠ "" ∧ targetName ≠ modelName then
    if contains deps targetName = false then deps ++ [targetName] else deps
  else deps

/-- The adjacency list `deps` computed for one model. -/
def modelDeps (modelName : String) (model : Model) : List String :=
  model.Related.foldl (relationDeps modelName) []

/-- Creates an adjacency list of model dependencies; `models` is the
enumeration of the model map. -/
def buildDependencyGraph (models : List (String × Model)) : Graph :=
  models.map fun e => (e.1, modelDeps e.1 e.2)

/-! ## dfsDetectCycles -/

/-- The two maps `visited` and `recStack` shared by all calls of the search. -/
structure DfsState where
  visited : String → Bool
  recStack : String → Bool

/-- The search for `cycleStart`: first index of `neighbor` in `path`
(`none` stands for the initial `-1`). -/
def cycleStart (neighbor : String) : List String → Option Nat
  | [] => none
  | n :: rest => if n = neighbor then some 0 else (cycleStart neighbor rest).map (· + 1)

/-- The statement `cycles = append(cycles, foundCycles...)` guarded by
`len(foundCycles) > 0`. -/
def appendFound (cycles found : List CircularDependency) : List CircularDependency :=
  if found.length > 0 then cycles ++ found else cycles

/-- The loop of `dfsDetectCycles` over the neighbours of a node; `recur` is the
recursive call, `path` already ends with the node. -/
def dfsNeighbors
    (recur : String → DfsState → List String → Option (List CircularDependency × DfsState))
    (path : List String) :
    List String → DfsState → List CircularDependency →
      Option (List CircularDependency × DfsState)
  | [], st, cycles => some (cycles, st)
  | neighbor :: rest, st, cycles =>
    if st.visited neighbor = false then
      match recur neighbor st path with
      | none => none
      | some (found, st') => dfsNeighbors recur path rest st' (appendFound cycles found)
    else if st.recStack neighbor = true then
      match cycleStart neighbor path with
      | some i =>
        dfsNeighbors recur path rest st (cycles ++ [⟨path.drop i ++ [neighbor]⟩])
      | none => dfsNeighbors recur path rest st cycles
    else dfsNeighbors recur path rest st cycles

/-- Performs DFS to detect cycles. The first argument bounds the recursion
depth; `none` means the bound was too small. The slice `path` is a value here:
a callee appends past the caller's length and never changes the entries the
caller sees, and a reported cycle is copied out of it. -/
def dfsDetectCycles : Nat → Graph → String → DfsState → List String →
    Option (List CircularDependency × DfsState)
  | 0, _, _, _, _ => none
  | fuel + 1, graph, node, st, path =>
    let st1 : DfsState :=
      { visited := setKey st.visited node true, recStack := setKey st.recStack node true }
    match dfsNeighbors (dfsDetectCycles fuel graph) (path ++ [node])
        (graphLookup graph node) st1 [] with
    | none => none
    | some (cycles, st2) =>
      some (cycles, { st2 with recStack := setKey st2.recStack node false })

/-! ## normalizeCycle and dedupeCycles -/

/-- The loop of `normalizeCycle` that finds the index of the smallest element. -/
def findMinIdx (path : List String) : Nat :=
  path.enum.foldl
    (fun minIdx e => if strLess e.2 (path.getD minIdx "") then e.1 else minIdx) 0

/-- Rotates the cycle so it starts with the lexicographically smallest node. -/
def normalizeCycle (path : List String) : List String :=
  if path.length ≤ 1 then path
  else
    let path1 := if path.head? = path.getLast? then path.dropLast else path
    let minIdx := findMinIdx path1
    (List.range path1.length).map fun i => path1.getD ((minIdx + i) % path1.length) ""

/-- The key under which `dedupeCycles` remembers a cycle:
`strings.Join(normalizeCycle(cycle.Path), ",")`. -/
def cycleKey (cycle : CircularDependency) : String :=
  ",".intercalate (normalizeCycle cycle.Path)

/-- The loop of `dedupeCycles`. -/
def dedupeLoop : List CircularDependency → (String → Bool) → List CircularDependency →
    List CircularDependency
  | [], _, unique => unique
  | cycle :: rest, seen, unique =>
    if seen (cycleKey cycle) = false then
      dedupeLoop rest (setKey seen (cycleKey cycle) true) (unique ++ [cycle])
    else dedupeLoop rest seen unique

/-- Removes duplicate cycles (same nodes in different order). -/
def dedupeCycles (cycles : List CircularDependency) : List CircularDependency :=
  dedupeLoop cycles (fun _ => false) []

/-! ## DetectCircularDependencies -/

/-- All names that occur in a graph, as key or as dependency, without repeats. -/
def graphNodes (graph : Graph) : List String :=
  (graph.map Prod.fst ++ (graph.map Prod.snd).flatten).dedup

/-- The loop of `DetectCircularDependencies` that runs the DFS from each node;
the list is the enumeration of `range models`. -/
def detectLoop (fuel : Nat) (graph : Graph) :
    List String → DfsState → List CircularDependency →
      Option (List CircularDependency × DfsState)
  | [], st, cycles => some (cycles, st)
  | modelName :: rest, st, cycles =>
    if st.visited modelName = false then
      match dfsDetectCycles fuel graph modelName st [] with
      | none => none
      | some (found, st') => detectLoop fuel graph rest st' (appendFound cycles found)
    else detectLoop fuel graph rest st cycles

/-- The empty maps `visited` and `recStack`. -/
def initState : DfsState := { visited := fun _ => false, recStack := fun _ => false }

/-- Checks for circular relationships in models. `models` enumerates the model
map as `buildDependencyGraph` ranges over it, `order` is the enumeration of the
keys in the loop that starts the searches (Go fixes neither). The recursion
bound handed to the search is the number of names in the graph. -/
def DetectCircularDependencies (models : List (String × Model)) (order : List String) :
    Option (List CircularDependency) :=
  let graph := buildDependencyGraph models
  match detectLoop (graphNodes graph).length graph order initState [] with
  | none => none
  | some (cycles, _) => some (dedupeCycles cycles)

/-- The keys of a map enumeration. -/
def keys {α : Type} (m : List (String × α)) : List String := m.map Prod.fst

/-- A model that has only relations: `rels` lists (relation name, alias, For). -/
def mkModel (name : String) (rels : List (String × String × List String)) : Model :=
  { Name := name, Fields := [], Identifiers := [],
    Related := rels.map fun r => (r.1, { Type_ := "ForOne", For := r.2.2, Through := "", Aliased := r.2.1 }) }

/-- A closed cycle path: the nodes followed by a repetition of the first one. -/
def closeCycle (nodes : List String) : List String := nodes ++ nodes.take 1

/-! ## Registry, entities and the helpers of morphe-go -/

deriving instance DecidableEq for Except

/-- Reading `m[k]` together with the `exists` flag of a Go map. -/
def mapLookup {α : Type} : List (String × α) → String → Option α
  | [], _ => none
  | (k, v) :: rest, key => if k = key then some v else mapLookup rest key

instance : Inhabited ModelField := ⟨⟨""⟩⟩

instance : Inhabited ModelRelation := ⟨⟨"", [], "", ""⟩⟩

/-- Reading `m[k]` of a Go map: the zero value for a missing key. -/
def mapGet {α : Type} [Inhabited α] (m : List (String × α)) (key : String) : α :=
  (mapLookup m key).getD default

/-- Field of an entity (`yaml.EntityField`); `Type_` is the model field path. -/
structure EntityField where
  Type_ : String
deriving DecidableEq

/-- Identifier group of an entity (`yaml.EntityIdentifier`). -/
structure EntityIdentifier where
  Fields : List String
deriving DecidableEq

/-- Relation of an entity (`yaml.EntityRelation`). -/
structure EntityRelation where
  Type_ : String
  For : List String
  Through : String
  Aliased : String
deriving DecidableEq

/-- Entity declaration (`yaml.Entity`); the maps are given as enumerations. -/
structure Entity where
  Name : String
  Fields : List (String × EntityField)
  Identifiers : List (String × EntityIdentifier)
  Related : List (String × EntityRelation)
deriving DecidableEq

/-- Modelled from the spec: the value of an enum entry of morphe-go (`any`), as
read from a declaration: a text, an integer, or another scalar by its text. -/
inductive EnumValue where
  | text (s : String)
  | integer (i : Int)
  | other (repr : String)
deriving DecidableEq

/-- Modelled from the spec: enum declaration (`yaml.Enum`) of morphe-go; the map
of entries is given as an enumeration. -/
structure YamlEnum where
  Name : String
  Type_ : String
  Entries : List (String × EnumValue)
deriving DecidableEq

/-- Modelled from the spec: structure declaration (`yaml.Structure`) of
morphe-go. -/
structure YamlStructure where
  Name : String
  Fields : List (String × ModelField)
deriving DecidableEq

/-- Modelled from the spec: the registry of morphe-go is not part of the sources;
`GetAllModels` returns the model map. -/
structure Registry where
  models : List (String × Model) := []
  enums : List (String × YamlEnum) := []
  structures : List (String × YamlStructure) := []
  entities : List (String × Entity) := []

/-- Modelled from the spec: `Registry.GetModel(name)` of morphe-go returns the
declaration stored under `name` and fails with NotFound otherwise (`none`). -/
def Registry.GetModel (r : Registry) (name : String) : Option Model :=
  mapLookup r.models name

/-- Modelled from the spec: `Registry.GetEnum(name)` of morphe-go returns the
declaration stored under `name` and fails with NotFound otherwise (`none`). -/
def Registry.GetEnum (r : Registry) (name : String) : Option YamlEnum :=
  mapLookup r.enums name

/-- Modelled from the spec: `Registry.HasEnums` of morphe-go. -/
def Registry.HasEnums (r : Registry) : Bool := r.enums.length > 0

/-- Modelled from the spec: `Registry.HasModels` of morphe-go. -/
def Registry.HasModels (r : Registry) : Bool := r.models.length > 0

/-- Modelled from the spec: `Registry.HasStructures` of morphe-go. -/
def Registry.HasStructures (r : Registry) : Bool := r.structures.length > 0

/-- Modelled from the spec: `Registry.HasEntities` of morphe-go. -/
def Registry.HasEntities (r : Registry) : Bool := r.entities.length > 0

/-- Modelled from the spec: `yamlops.IsRelationFor` of morphe-go, the relation type
tag names an owning relation (`For...`). -/
def IsRelationFor (relationType : String) : Bool :=
  "For".data.isPrefixOf relationType.data

/-- Modelled from the spec: `yamlops.IsRelationOne` of morphe-go, the relation type
tag has cardinality one (`...One` or `...OnePoly`). -/
def IsRelationOne (relationType : String) : Bool :=
  "One".data.isSuffixOf relationType.data || "OnePoly".data.isSuffixOf relationType.data

/-- Modelled from the spec: `yamlops.IsRelationMany` of morphe-go, the relation type
tag has cardinality many (`...Many` or `...ManyPoly`). -/
def IsRelationMany (relationType : String) : Bool :=
  "Many".data.isSuffixOf relationType.data || "ManyPoly".data.isSuffixOf relationType.data

/-- Modelled from the spec: `yamlops.IsRelationPoly` of morphe-go, the relation type
tag names a polymorphic relation (`...Poly`). -/
def IsRelationPoly (relationType : String) : Bool :=
  "Poly".data.isSuffixOf relationType.data

/-- Converts entities to models for circular dependency checking. The list is
the enumeration of the map that the loops of the function build. -/
def convertEntitiesToModels (entities : List (String × Entity)) : List (String × Model) :=
  entities.map fun e =>
    (e.1,
      { Name := e.2.Name,
        Fields := e.2.Fields.map (fun f => (f.1, { Type_ := f.2.Type_ })),
        Identifiers := [],
        Related := e.2.Related.map (fun rl =>
          (rl.1, { Type_ := rl.2.Type_, Aliased := rl.2.Aliased, For := rl.2.For,
                   Through := rl.2.Through })) })

/-! ## Target format types (`formatdef`) and the type map -/

/-- Type in the target format (`formatdef.Type`): a `BasicType` or an `ArrayType`. -/
inductive FormatType where
  | BasicType (Name : String) (Nullable : Bool)
  | ArrayType (ElementType : FormatType)
deriving DecidableEq

/-- The method `GetName` of `BasicType` and `ArrayType`. -/
def FormatType.GetName : FormatType → String
  | .BasicType name _ => name
  | .ArrayType elementType => "List[" ++ elementType.GetName ++ "]"

/-- The method `IsNullable` of `BasicType` and `ArrayType`. -/
def FormatType.IsNullable : FormatType → Bool
  | .BasicType _ nullable => nullable
  | .ArrayType _ => false

/-- Python basic type `str`. -/
def TypeString : FormatType := .BasicType "str" false

/-- Python basic type `int`. -/
def TypeInteger : FormatType := .BasicType "int" false

/-- Python basic type `float`. -/
def TypeFloat : FormatType := .BasicType "float" false

/-- Python basic type `bool`. -/
def TypeBoolean : FormatType := .BasicType "bool" false

/-- Python basic type `datetime`. -/
def TypeDate : FormatType := .BasicType "datetime" false

/-- Python open type `Any`. -/
def TypeAny : FormatType := .BasicType "Any" false

/-- Field represents a field in a structure. -/
structure Field where
  Name : String
  Type_ : FormatType
deriving DecidableEq

/-- Struct represents a structure/class in the target format. -/
structure Struct where
  Name : String
  Fields : List Field
deriving DecidableEq

/-- The table `MorpheModelFieldToFormatType`. Modelled from the spec: the field
kind constants `yaml.ModelFieldType...` of morphe-go are the kind names. -/
def MorpheModelFieldToFormatType : List (String × FormatType) :=
  [("String", TypeString), ("UUID", TypeString), ("Protected", TypeString),
    ("Sealed", TypeString), ("Integer", TypeInteger), ("AutoIncrement", TypeInteger),
    ("Float", TypeFloat), ("Boolean", TypeBoolean), ("Time", TypeDate), ("Date", TypeDate)]

/-- Returns the format type for a given Morphe field type. -/
def GetFieldType (fieldType : String) : FormatType :=
  match mapLookup MorpheModelFieldToFormatType fieldType with
  | some formatType => formatType
  | none => .BasicType fieldType false

/-! ## Name helpers of `formatdef` (faithful on ASCII text) -/

/-- The separator test of `ToPascalCase`. -/
def isWordSeparator (r : Char) : Bool := r == '_' || r == '-' || r == ' '

/-- The function `strings.FieldsFunc`: the maximal runs of non-separators. -/
def fieldsFunc (f : Char → Bool) (s : List Char) : List (List Char) :=
  (s.splitOnP f).filter fun w => !w.isEmpty

/-- The word rewrite `strings.ToUpper(word[:1]) + strings.ToLower(word[1:])`, for
a word that starts with an ASCII character. `Char.toUpper` and `Char.toLower`
change ASCII letters only; Go also maps the letters outside ASCII that have
another case. -/
def capitalizeWord : List Char → List Char
  | [] => []
  | c :: rest => c.toUpper :: rest.map Char.toLower

/-- Converts a string to PascalCase. -/
def ToPascalCase (s : String) : String :=
  ⟨((fieldsFunc isWordSeparator s.data).map capitalizeWord).flatten⟩

/-- Converts a string to camelCase. -/
def ToCamelCase (s : String) : String :=
  match (ToPascalCase s).data with
  | [] => ToPascalCase s
  | c :: rest => ⟨c.toLower :: rest⟩

/-! ## CompileModel -/

/-- The call `sort.Strings`: ascending order. -/
def sortStrings (names : List String) : List String :=
  names.insertionSort fun a b => strLess b a = false

/-- Looks up the model that has the polymorphic relationship: the inner loop
over the relations of one model. -/
def declaresPoly (through : String) : List (String × ModelRelation) → Bool
  | [] => false
  | (relName, rel) :: rest =>
    if relName = through ∧ IsRelationPoly rel.Type_ = true then true
    else declaresPoly through rest

/-- The outer loop of `resolvePolymorphicThrough` over the enumerated models. -/
def findPolyOwner (through : String) : List (String × Model) → Option String
  | [] => none
  | (modelName, model) :: rest =>
    if declaresPoly through model.Related = true then some modelName
    else findPolyOwner through rest

/-- Looks up the model that has the polymorphic relationship. -/
def resolvePolymorphicThrough (through : String) (r : Registry) : Except String String :=
  match findPolyOwner through r.models with
  | some modelName => .ok modelName
  | none => .error ("polymorphic relationship " ++ through ++ " not found")

/-- The fields that the first loop of `CompileModel` over the relations adds for
one relation. -/
def generatedFields (relatedName : String) (relation : ModelRelation) : List Field :=
  let relationType := relation.Type_
  if IsRelationPoly relationType && IsRelationFor relationType && IsRelationOne relationType then
    [⟨ToCamelCase (relatedName ++ "_type"), TypeString⟩,
      ⟨ToCamelCase (relatedName ++ "_id"), TypeString⟩]
  else if IsRelationPoly relationType then []
  else if IsRelationFor relationType && IsRelationOne relationType then
    [⟨ToCamelCase (relatedName ++ "_id"), TypeString⟩]
  else []

/-- The loop that builds the text of a union type, without the closing bracket. -/
def unionTypeLoop : Nat → List String → String → String
  | _, [], unionType => unionType
  | i, forModel :: rest, unionType =>
    unionTypeLoop (i + 1) rest
      ((if i > 0 then unionType ++ ", " else unionType) ++ ("\x27" ++ forModel ++ "\x27"))

/-- The text of the union type of a `For` list. -/
def unionTypeName (fors : List String) : String :=
  unionTypeLoop 0 fors "Union[" ++ "]"

/-- The navigation type that the second loop of `CompileModel` gives a relation. -/
def navigationType (relatedName : String) (relation : ModelRelation) (r : Registry) :
    FormatType :=
  let relationType := relation.Type_
  let targetModelName := GetRelationTargetName relatedName relation.Aliased
  let navType : FormatType :=
    if IsRelationPoly relationType then
      if relation.For.length > 0 then .BasicType (unionTypeName relation.For) false
      else if relation.Through ≠ "" then
        match resolvePolymorphicThrough relation.Through r with
        | .error _ => TypeAny
        | .ok throughModel => .BasicType throughModel false
      else TypeAny
    else .BasicType targetModelName false
  if IsRelationMany relationType then .ArrayType navType else navType

/-- The navigation field that the second loop of `CompileModel` adds for a relation. -/
def navigationField (relatedName : String) (relation : ModelRelation) (r : Registry) : Field :=
  ⟨"_nav_" ++ relatedName, navigationType relatedName relation r⟩

/-- The fields of the declared fields of a model, in sorted order. -/
def declaredFields (model : Model) : List Field :=
  (sortStrings (keys model.Fields)).map fun fieldName =>
    ⟨fieldName, GetFieldType (mapGet model.Fields fieldName).Type_⟩

/-- The fields that the block `if len(model.Related) > 0` of `CompileModel` adds. -/
def relationFields (model : Model) (r : Registry) : List Field :=
  if model.Related.length > 0 then
    let relatedNames := sortStrings (keys model.Related)
    (relatedNames.flatMap fun relatedName =>
        generatedFields relatedName (mapGet model.Related relatedName)) ++
      relatedNames.map fun relatedName =>
        navigationField relatedName (mapGet model.Related relatedName) r
  else []

/-- Converts a Morphe model to the target format. -/
def CompileModel (model : Model) (r : Registry) : Except String Struct :=
  .ok { Name := model.Name, Fields := declaredFields model ++ relationFields model r }

/-! ## resolveEntityFieldType -/

/-- The call `strings.Split(path, ".")`. -/
def splitDots (s : String) : List String :=
  (s.data.splitOn '.').map String.mk

/-- The loop of `resolveEntityFieldType` over the intermediate segments. -/
def walkRelations (r : Registry) : Model → List String → Except String Model
  | currentModel, [] => .ok currentModel
  | currentModel, part :: rest =>
    match mapLookup currentModel.Related part with
    | none => .error ("relation " ++ part ++ " not found in model " ++ currentModel.Name)
    | some relation =>
      let targetModelName := GetRelationTargetName part relation.Aliased
      match r.GetModel targetModelName with
      | none => .error ("related model " ++ targetModelName ++ " not found")
      | some next => walkRelations r next rest

/-- Resolves a model field path to a concrete type. -/
def resolveEntityFieldType (fieldPath : String) (r : Registry) : Except String FormatType :=
  let parts := splitDots fieldPath
  if parts.length < 2 then .error ("invalid field path: " ++ fieldPath)
  else
    match r.GetModel (parts.getD 0 "") with
    | none => .error ("model " ++ parts.getD 0 "" ++ " not found")
    | some root =>
      match walkRelations r root (parts.drop 1).dropLast with
      | .error e => .error e
      | .ok currentModel =>
        match mapLookup currentModel.Fields (parts.getLastD "") with
        | none =>
          .error ("field " ++ parts.getLastD "" ++ " not found in model " ++ currentModel.Name)
        | some field => .ok (GetFieldType field.Type_)

/-! ## ToSnakeCase -/

/-- The test that a rune is an ASCII lower-case letter. -/
def isLowerAscii (r : Char) : Bool := decide ('a' ≤ r) && decide (r ≤ 'z')

/-- The test that a rune is an ASCII upper-case letter. -/
def isUpperAscii (r : Char) : Bool := decide ('A' ≤ r) && decide (r ≤ 'Z')

/-- The loop of `ToSnakeCase`: `prev` is the rune before the current one (`none`
at index 0). The byte `s[i-1]` before an ASCII letter is an ASCII lower-case
letter exactly when the rune before it is one, and likewise for `s[i+1]`. -/
def snakeLoop : Option Char → List Char → List Char
  | _, [] => []
  | prev, r :: rest =>
    let prevIsLower := match prev with
      | some p => isLowerAscii p
      | none => false
    let nextIsLower := match rest with
      | n :: _ => isLowerAscii n
      | [] => false
    let underscore := prev.isSome && isUpperAscii r && (prevIsLower || (prev.isSome && nextIsLower))
    (if underscore then ['_', r] else [r]) ++ snakeLoop (some r) rest

/-- Converts a string to snake_case. The last step, `strings.ToLower`, is
`Char.toLower` on every character, which changes ASCII letters only; Go also
lowers the upper-case letters outside ASCII. -/
def ToSnakeCase (s : String) : String :=
  if s = "ID" then "id"
  else if s = "TaxID" then "tax_id"
  else if s = "ContactInfo" then "contact_info"
  else ⟨(snakeLoop none s.data).map Char.toLower⟩

/-! ## CompileEntity -/

instance : Inhabited EntityField := ⟨⟨""⟩⟩

instance : Inhabited EntityRelation := ⟨⟨"", [], "", ""⟩⟩

/-- The loop of `CompileEntity` over the sorted field names; `fields` is
`formatStruct.Fields` so far. -/
def entityFieldsLoop (entity : Entity) (r : Registry) :
    List String → List Field → Except String (List Field)
  | [], fields => .ok fields
  | fieldName :: rest, fields =>
    match resolveEntityFieldType (mapGet entity.Fields fieldName).Type_ r with
    | .error err => .error ("failed to resolve field type for " ++ fieldName ++ ": " ++ err)
    | .ok fieldType => entityFieldsLoop entity r rest (fields ++ [⟨fieldName, fieldType⟩])

/-- The fields that the first part of the relation loop of `CompileEntity` adds
for one relation. -/
def entityGeneratedFields (relatedName : String) (relation : EntityRelation) : List Field :=
  let relationType := relation.Type_
  if IsRelationPoly relationType && IsRelationFor relationType && IsRelationOne relationType then
    [⟨ToSnakeCase (relatedName ++ "_type"), TypeString⟩,
      ⟨ToSnakeCase (relatedName ++ "_id"), TypeString⟩]
  else if IsRelationPoly relationType then []
  else if IsRelationFor relationType && IsRelationOne relationType then
    [⟨ToSnakeCase (relatedName ++ "_id"), TypeString⟩]
  else []

/-- The navigation field that the second part of the relation loop of
`CompileEntity` builds for one relation. -/
def entityNavigationField (relatedName : String) (relation : EntityRelation) : Field :=
  let relationType := relation.Type_
  let targetName := GetRelationTargetName relatedName relation.Aliased
  let navType : FormatType :=
    if IsRelationPoly relationType then
      if relation.For.length > 0 then .BasicType (unionTypeName relation.For) false
      else TypeAny
    else .BasicType targetName false
  if IsRelationMany relationType then
    ⟨ToSnakeCase relatedName ++ "s",
      match navType with
      | .BasicType _ _ => .ArrayType navType
      | .ArrayType _ => navType⟩
  else ⟨ToSnakeCase relatedName, navType⟩

/-- One pass of the relation loop of `CompileEntity`: the fields appended for the
relation `relatedName`. A polymorphic relation that is not owning-one leaves the
pass by `continue`. -/
def entityRelationFields (relatedName : String) (relation : EntityRelation) : List Field :=
  let relationType := relation.Type_
  if IsRelationPoly relationType && IsRelationFor relationType && IsRelationOne relationType then
    entityGeneratedFields relatedName relation ++ [entityNavigationField relatedName relation]
  else if IsRelationPoly relationType then []
  else entityGeneratedFields relatedName relation ++ [entityNavigationField relatedName relation]

/-- The fields that the block `if len(entity.Related) > 0` of `CompileEntity` adds. -/
def entityRelatedFields (entity : Entity) : List Field :=
  if entity.Related.length > 0 then
    (sortStrings (keys entity.Related)).flatMap fun relatedName =>
      entityRelationFields relatedName (mapGet entity.Related relatedName)
  else []

/-- Converts a Morphe entity to the target format. -/
def CompileEntity (entity : Entity) (r : Registry) : Except String Struct :=
  match entityFieldsLoop entity r (sortStrings (keys entity.Fields)) [] with
  | .error err => .error err
  | .ok fields => .ok { Name := entity.Name, Fields := fields ++ entityRelatedFields entity }

/-! ## ContentBuilder and ImportTracker -/

/-- ContentBuilder helps generate formatted code with proper indentation. -/
structure ContentBuilder where
  lines : List String
  indentLevel : Nat
  indentStr : String
deriving DecidableEq

/-- Creates a new content builder. -/
def NewContentBuilder (indentStr : String) : ContentBuilder :=
  { lines := [], indentLevel := 0, indentStr := if indentStr = "" then "    " else indentStr }

/-- The call `strings.Repeat`. -/
def stringsRepeat (s : String) (count : Nat) : String :=
  String.join (List.replicate count s)

/-- Adds a line with current indentation; `line` is the formatted text. -/
def ContentBuilder.Line (b : ContentBuilder) (line : String) : ContentBuilder :=
  if line = "" then { b with lines := b.lines ++ [""] }
  else { b with lines := b.lines ++ [stringsRepeat b.indentStr b.indentLevel ++ line] }

/-- Increases indentation level. -/
def ContentBuilder.Indent (b : ContentBuilder) : ContentBuilder :=
  { b with indentLevel := b.indentLevel + 1 }

/-- Decreases indentation level. -/
def ContentBuilder.Dedent (b : ContentBuilder) : ContentBuilder :=
  if b.indentLevel > 0 then { b with indentLevel := b.indentLevel - 1 } else b

/-- Writing `m[k] = v` on a Go map given as an enumeration: an existing key keeps
its place, a new key is enumerated last. -/
def mapSet {α : Type} : List (String × α) → String → α → List (String × α)
  | [], key, v => [(key, v)]
  | (k, w) :: rest, key, v =>
    if k = key then (k, v) :: rest else (k, w) :: mapSet rest key v

/-- ImportTracker tracks required imports for Python code generation. -/
structure ImportTracker where
  sqlalchemy : List String
  typing : List String
  datetime : Bool
  enums : List (String × Bool)
  models : List (String × Bool)
  registry : Registry
  fromImports : List (String × List String)

/-- Creates a new import tracker. -/
def NewImportTracker (r : Registry) : ImportTracker :=
  { sqlalchemy := [], typing := [], datetime := false, enums := [], models := [],
    registry := r, fromImports := [] }

/-- The helper `containsString`. -/
def containsString : List String → String → Bool
  | [], _ => false
  | s :: rest, item => if s = item then true else containsString rest item

/-- The helper `isBasicType`. -/
def isBasicType (typeName : String) : Bool :=
  containsString ["str", "int", "float", "bool", "datetime", "Any", "None"] typeName

/-- Adds a sqlalchemy import. -/
def ImportTracker.AddSQLAlchemy (it : ImportTracker) (imports : List String) : ImportTracker :=
  imports.foldl
    (fun it imp =>
      if !containsString it.sqlalchemy imp then { it with sqlalchemy := it.sqlalchemy ++ [imp] }
      else it)
    it

/-- Adds a typing import. -/
def ImportTracker.AddTyping (it : ImportTracker) (imports : List String) : ImportTracker :=
  imports.foldl
    (fun it imp =>
      if !containsString it.typing imp then { it with typing := it.typing ++ [imp] } else it)
    it

/-- Adds a from module import. -/
def ImportTracker.AddFrom (it : ImportTracker) (module : String) (imports : List String) :
    ImportTracker :=
  let it : ImportTracker :=
    if (mapLookup it.fromImports module).isNone then
      { it with fromImports := mapSet it.fromImports module [] }
    else it
  imports.foldl
    (fun it imp =>
      if !containsString (mapGet it.fromImports module) imp then
        { it with fromImports := mapSet it.fromImports module (mapGet it.fromImports module ++ [imp]) }
      else it)
    it

/-- Checks if a type name is an enum, model, or basic type. -/
def resolveFieldType (typeName : String) (r : Registry) : String :=
  if (r.GetEnum typeName).isSome then "enum"
  else if (r.GetModel typeName).isSome then "model"
  else "basic"

/-- The search of `strings.Contains` on lists of characters. -/
def containsChars : List Char → List Char → Bool
  | [], substr => substr.isEmpty
  | c :: rest, substr => substr.isPrefixOf (c :: rest) || containsChars rest substr

/-- The call `strings.Contains`. -/
def stringsContains (s substr : String) : Bool := containsChars s.data substr.data

/-- The white space of `strings.Fields` (`unicode.IsSpace`). -/
def isSpace (r : Char) : Bool :=
  let n := r.toNat
  (decide (9 ≤ n) && decide (n ≤ 13)) || n == 32 || n == 0x85 || n == 0xA0 || n == 0x1680 ||
    (decide (0x2000 ≤ n) && decide (n ≤ 0x200A)) || n == 0x2028 || n == 0x2029 || n == 0x202F ||
    n == 0x205F || n == 0x3000

/-- The call `strings.Trim(part, cutset)` with the cutset as a test. -/
def trimChars (cut : Char → Bool) (part : List Char) : List Char :=
  ((part.dropWhile cut).reverse.dropWhile cut).reverse

/-- Extracts all type names from complex type expressions. -/
def extractAllInnerTypes (typeName : String) : List String :=
  let cleaned := typeName.data.map fun r => if r = '[' ∨ r = ']' ∨ r = ',' then ' ' else r
  let parts := fieldsFunc isSpace cleaned
  (parts.map fun part => String.mk (trimChars (fun r => r == '\x27' || r == '"') part)).filter
    fun part => part ≠ "" && !stringsContains part "|"

/-- One pass of the loop of `TrackFieldType` over the inner types. -/
def trackInnerType (it : ImportTracker) (innerType : String) : ImportTracker :=
  if innerType ≠ "" && !isBasicType innerType then
    let kind := resolveFieldType innerType it.registry
    if kind = "enum" then { it with enums := mapSet it.enums innerType true }
    else if kind = "model" then
      ImportTracker.AddTyping { it with models := mapSet it.models innerType true }
        ["TYPE_CHECKING"]
    else it
  else it

/-- The typing imports that `TrackFieldType` adds for the wrappers named in the
type expression. -/
def trackTyping (it : ImportTracker) (typeName : String) : ImportTracker :=
  let it := if stringsContains typeName "Optional[" then it.AddTyping ["Optional"] else it
  let it := if stringsContains typeName "List[" then it.AddTyping ["List"] else it
  let it := if stringsContains typeName "Union[" then it.AddTyping ["Union"] else it
  let it := if stringsContains typeName "Dict[" then it.AddTyping ["Dict"] else it
  let it := if stringsContains typeName "Any" then it.AddTyping ["Any"] else it
  if stringsContains typeName "Literal[" then it.AddTyping ["Literal"] else it

/-- Analyzes a field type and tracks necessary imports. -/
def ImportTracker.TrackFieldType (it : ImportTracker) (typeName : String) : ImportTracker :=
  let it := trackTyping it typeName
  let it : ImportTracker :=
    if typeName = "datetime" || stringsContains typeName "datetime" then
      { it with datetime := true }
    else it
  (extractAllInnerTypes typeName).foldl trackInnerType it

/-- The lines of the from imports that `Generate` emits. -/
def generateFromImports (it : ImportTracker) (cb : ContentBuilder) : ContentBuilder :=
  if it.fromImports.length > 0 then
    (sortStrings (keys it.fromImports)).foldl
      (fun cb module =>
        cb.Line ("from " ++ module ++ " import " ++
          ", ".intercalate (sortStrings (mapGet it.fromImports module))))
      cb
  else cb

/-- The lines of the enum imports that `Generate` emits. -/
def generateEnumImports (it : ImportTracker) (cb : ContentBuilder) : ContentBuilder :=
  if it.enums.length > 0 then
    (sortStrings (keys it.enums)).foldl
      (fun cb enumName =>
        cb.Line ("from ..enums." ++ ToSnakeCase enumName ++ " import " ++ enumName))
      cb
  else cb

/-- The block of the model imports under `TYPE_CHECKING` that `Generate` emits. -/
def generateModelImports (it : ImportTracker) (cb : ContentBuilder) : ContentBuilder :=
  if it.models.length > 0 then
    let cb := (cb.Line "if TYPE_CHECKING:").Indent
    let cb := (sortStrings (keys it.models)).foldl
      (fun cb modelName =>
        cb.Line ("from ." ++ ToSnakeCase modelName ++ " import " ++ modelName))
      cb
    cb.Dedent
  else cb

/-- Generates the import statements. The calls of `sort.Strings` on the slices of
the tracker sort them in place: the tracker is returned with them sorted. -/
def ImportTracker.Generate (it : ImportTracker) (cb : ContentBuilder) :
    ImportTracker × ContentBuilder :=
  let cb := generateFromImports it cb
  let cb :=
    if it.sqlalchemy.length > 0 then
      cb.Line ("from sqlalchemy import " ++ ", ".intercalate it.sqlalchemy)
    else cb
  let cb :=
    if it.typing.length > 0 then
      cb.Line ("from typing import " ++ ", ".intercalate (sortStrings it.typing))
    else cb
  let cb := if it.datetime then cb.Line "from datetime import datetime" else cb
  let cb := generateEnumImports it cb
  let cb := cb.Line ""
  let cb := generateModelImports it cb
  ({ it with typing := sortStrings it.typing,
             fromImports := it.fromImports.map (fun e => (e.1, sortStrings e.2)) }, cb)

/-- A call on an import tracker. -/
inductive TrackerCall where
  | AddTyping (imports : List String)
  | AddSQLAlchemy (imports : List String)
  | AddFrom (module : String) (imports : List String)
  | TrackFieldType (typeName : String)

/-- Makes one call on the tracker. -/
def ImportTracker.call (it : ImportTracker) : TrackerCall → ImportTracker
  | .AddTyping imports => it.AddTyping imports
  | .AddSQLAlchemy imports => it.AddSQLAlchemy imports
  | .AddFrom module imports => it.AddFrom module imports
  | .TrackFieldType typeName => it.TrackFieldType typeName

/-- Makes a sequence of calls on a new tracker. -/
def runCalls (r : Registry) (calls : List TrackerCall) : ImportTracker :=
  calls.foldl ImportTracker.call (NewImportTracker r)

/-! ## Python keywords -/

/-- The table `pythonKeywords`: all Python 3.8+ reserved keywords. -/
def pythonKeywords : List (String × Bool) :=
  [("False", true), ("None", true), ("True", true),
    ("break", true), ("continue", true), ("elif", true), ("else", true), ("for", true),
    ("if", true), ("pass", true), ("while", true),
    ("class", true), ("def", true), ("lambda", true), ("return", true), ("yield", true),
    ("assert", true), ("except", true), ("finally", true), ("raise", true), ("try", true),
    ("as", true), ("from", true), ("import", true),
    ("with", true),
    ("and", true), ("in", true), ("is", true), ("not", true), ("or", true),
    ("async", true), ("await", true), ("del", true), ("global", true), ("nonlocal", true)]

/-- The table `pythonBuiltins`: common built-in names that should be avoided. -/
def pythonBuiltins : List (String × Bool) :=
  [("bool", true), ("bytes", true), ("dict", true), ("float", true), ("int", true),
    ("list", true), ("set", true), ("str", true), ("tuple", true),
    ("filter", true), ("format", true), ("id", true), ("input", true), ("len", true),
    ("map", true), ("open", true), ("print", true), ("range", true), ("type", true),
    ("zip", true)]

/-- The test `len(name) > 0 && name[0] >= '0' && name[0] <= '9'`: the first byte
of a text is a digit exactly when its first character is one. -/
def startsWithDigit (name : String) : Bool :=
  match name.data with
  | [] => false
  | c :: _ => decide ('0' ≤ c) && decide (c ≤ '9')

/-- Ensures a name is safe to use as a Python identifier. -/
def SanitizePythonIdentifier (name : String) : String :=
  if mapGet pythonKeywords name then name ++ "_"
  else if mapGet pythonBuiltins name then name ++ "_"
  else if startsWithDigit name then "_" ++ name
  else name

/-- Checks if a string is a Python keyword. -/
def IsPythonKeyword (name : String) : Bool := mapGet pythonKeywords name

/-- Checks if a string is a Python builtin. -/
def IsPythonBuiltin (name : String) : Bool := mapGet pythonBuiltins name

/-! ## CompileEnum -/

instance : Inhabited EnumValue := ⟨.other "<nil>"⟩

/-- EnumEntry represents a single enum value. -/
structure EnumEntry where
  Name : String
  Value : EnumValue
deriving DecidableEq

/-- Enum represents an enum definition in the target format. -/
structure Enum where
  Name : String
  Type_ : FormatType
  Entries : List EnumEntry
deriving DecidableEq

/-- Maps Morphe enum types to format-specific types. Modelled from the spec: the
constants `yaml.EnumTypeInteger`, `yaml.EnumTypeFloat` and `yaml.EnumTypeString` of
morphe-go are the type names. -/
def mapEnumType (morpheType : String) : FormatType :=
  if morpheType = "Integer" then TypeInteger
  else if morpheType = "Float" then TypeFloat
  else if morpheType = "String" then TypeString
  else TypeString

/-- Converts a Morphe enum to the target format. -/
def CompileEnum (enum : YamlEnum) : Except String Enum :=
  .ok { Name := enum.Name, Type_ := mapEnumType enum.Type_,
        Entries := (sortStrings (keys enum.Entries)).map fun entryName =>
          ⟨entryName, mapGet enum.Entries entryName⟩ }

/-! ## Calls on a tracker, with `Generate` -/

/-- An operation on an import tracker: one of the calls that add imports, or
`Generate` on some builder. -/
inductive TrackerOp where
  | call (c : TrackerCall)
  | Generate (cb : ContentBuilder)

/-- Applies one operation to the tracker. -/
def ImportTracker.apply (it : ImportTracker) : TrackerOp → ImportTracker
  | .call c => it.call c
  | .Generate cb => (it.Generate cb).1

/-- Applies a sequence of operations to a new tracker. -/
def runOps (r : Registry) (ops : List TrackerOp) : ImportTracker :=
  ops.foldl ImportTracker.apply (NewImportTracker r)

/-! ## Words of a name -/

/-- A capitalised ASCII word: one upper-case letter followed by one or more
lower-case letters. -/
def isCapWord : List Char → Bool
  | [] => false
  | u :: rest => isUpperAscii u && !rest.isEmpty && rest.all isLowerAscii

/-- A lower-case ASCII word: one or more lower-case letters. -/
def isLowerWord (w : List Char) : Bool := !w.isEmpty && w.all isLowerAscii

/-- The words in lower case, joined by single underscores. -/
def joinLower (ws : List (List Char)) : String :=
  ⟨List.intercalate ['_'] (ws.map fun w => w.map Char.toLower)⟩

/-! ## The search with a log of its calls -/

/-- The maps of the search together with a log: the nodes on which
`dfsDetectCycles` has been called so far, in the order of the calls. The log is
not part of the program; it records what the program does. -/
structure LoggedState where
  st : DfsState
  calls : List String

/-- The loop of `dfsDetectCycles` over the neighbours of a node, on a logged state. -/
def dfsNeighborsLogged
    (recur : String → LoggedState → List String →
      Option (List CircularDependency × LoggedState))
    (path : List String) :
    List String → LoggedState → List CircularDependency →
      Option (List CircularDependency × LoggedState)
  | [], ls, cycles => some (cycles, ls)
  | neighbor :: rest, ls, cycles =>
    if ls.st.visited neighbor = false then
      match recur neighbor ls path with
      | none => none
      | some (found, ls') => dfsNeighborsLogged recur path rest ls' (appendFound cycles found)
    else if ls.st.recStack neighbor = true then
      match cycleStart neighbor path with
      | some i =>
        dfsNeighborsLogged recur path rest ls (cycles ++ [⟨path.drop i ++ [neighbor]⟩])
      | none => dfsNeighborsLogged recur path rest ls cycles
    else dfsNeighborsLogged recur path rest ls cycles

/-- The function `dfsDetectCycles` on a logged state: every call appends its node
to the log. -/
def dfsDetectCyclesLogged : Nat → Graph → String → LoggedState → List String →
    Option (List CircularDependency × LoggedState)
  | 0, _, _, _, _ => none
  | fuel + 1, graph, node, ls, path =>
    let ls1 : LoggedState :=
      { st := { visited := setKey ls.st.visited node true,
                recStack := setKey ls.st.recStack node true },
        calls := ls.calls ++ [node] }
    match dfsNeighborsLogged (dfsDetectCyclesLogged fuel graph) (path ++ [node])
        (graphLookup graph node) ls1 [] with
    | none => none
    | some (cycles, ls2) =>
      some (cycles,
        { ls2 with st := { ls2.st with recStack := setKey ls2.st.recStack node false } })

/-- The loop of `DetectCircularDependencies` on a logged state. -/
def detectLoopLogged (fuel : Nat) (graph : Graph) :
    List String → LoggedState → List CircularDependency →
      Option (List CircularDependency × LoggedState)
  | [], ls, cycles => some (cycles, ls)
  | modelName :: rest, ls, cycles =>
    if ls.st.visited modelName = false then
      match dfsDetectCyclesLogged fuel graph modelName ls [] with
      | none => none
      | some (found, ls') => detectLoopLogged fuel graph rest ls' (appendFound cycles found)
    else detectLoopLogged fuel graph rest ls cycles

/-- Forgets the log of a result. -/
def eraseLog (o : List CircularDependency × LoggedState) : List CircularDependency × DfsState :=
  (o.1, o.2.st)

/-- The invariant of the log: no node occurs twice in it and every node in it
is marked visited. -/
def LogInv (ls : LoggedState) : Prop :=
  ls.calls.Nodup ∧ ∀ x ∈ ls.calls, ls.st.visited x = true

/-! ## Text helpers of the generators -/

/-- The call `strings.HasPrefix`. -/
def hasPrefix (s pre : String) : Bool := pre.data.isPrefixOf s.data

/-- The call `strings.HasSuffix`. -/
def hasSuffix (s suf : String) : Bool := suf.data.isSuffixOf s.data

/-- The call `strings.TrimPrefix`. -/
def trimPrefix (s pre : String) : String :=
  if hasPrefix s pre then ⟨s.data.drop pre.data.length⟩ else s

/-- The call `strings.TrimSuffix`. -/
def trimSuffix (s suf : String) : String :=
  if hasSuffix s suf then ⟨s.data.take (s.data.length - suf.data.length)⟩ else s

/-- The call `strings.Trim(s, "'\"")`. -/
def trimQuotes (s : String) : String :=
  ⟨trimChars (fun r => r == '\x27' || r == '"') s.data⟩

/-- The index of the first occurrence of a character (`strings.Index` with a
text of one character). -/
def indexOfChar (c : Char) : List Char → Option Nat
  | [] => none
  | d :: rest => if d = c then some 0 else (indexOfChar c rest).map (· + 1)

/-- The index of the last occurrence of a character (`strings.LastIndex`). -/
def lastIndexOfChar (c : Char) (l : List Char) : Option Nat :=
  (indexOfChar c l.reverse).map fun i => l.length - 1 - i

/-- Extracts the inner type from Optional[X], List[X], etc. -/
def extractInnerType (typeName : String) : String :=
  match indexOfChar '[' typeName.data with
  | some start =>
    match lastIndexOfChar ']' typeName.data with
    | some stop =>
      if stop > start then
        let inner := trimQuotes ⟨(typeName.data.drop (start + 1)).take (stop - (start + 1))⟩
        if stringsContains inner "," then "" else inner
      else typeName
    | none => typeName
  | none => typeName

/-- The flags of a verb in a format of package `fmt`. -/
def isFormatFlag (c : Char) : Bool := c == '#' || c == '0' || c == '+' || c == '-' || c == ' '

/-- The function `parsenum` of package `fmt` on the text from `start` on: whether
a number was read, and the text after it. `num` is the value read so far; when
it exceeds 1e6 and another digit follows, the scan gives up and moves to the
end of the text. -/
def parsenum : Nat → Bool → List Char → Bool × List Char
  | _, isnum, [] => (isnum, [])
  | num, isnum, c :: rest =>
    if decide ('0' ≤ c) && decide (c ≤ '9') then
      if num > 1000000 then (false, [])
      else parsenum (num * 10 + (c.toNat - 48)) true rest
    else (isnum, c :: rest)

/-- The function `parseArgNumber` of package `fmt` on a text that starts with
`[`: the text after the index and whether the index is a number in brackets.
With less than 3 bytes or without a closing bracket only the `[` is skipped. -/
def parseArgNumber (format : List Char) : List Char × Bool :=
  if (format.map Char.utf8Size).sum < 3 then (format.drop 1, false)
  else
    match indexOfChar ']' (format.drop 1) with
    | none => (format.drop 1, false)
    | some k =>
      let r := parsenum 0 false ((format.drop 1).take k)
      (format.drop (k + 2), r.1 && r.2.isEmpty)

/-- The state of `doPrintf` of package `fmt` inside one verb, for a call without
arguments: the text written, the format from index `i` on, and the two flags. -/
structure VerbState where
  out : String
  rest : List Char
  afterIndex : Bool
  goodArgNum : Bool
deriving DecidableEq

/-- The method `argNumber` of package `fmt` for a call without arguments: no index
is in range, so every `[` clears `goodArgNum`. -/
def argNumber (s : VerbState) : VerbState :=
  match s.rest with
  | '[' :: _ =>
    let r := parseArgNumber s.rest
    { s with rest := r.1, afterIndex := r.2, goodArgNum := false }
  | _ => { s with afterIndex := false }

/-- The width of a verb in `doPrintf`: a `*` finds no argument to read. -/
def verbWidth (s : VerbState) : VerbState :=
  match s.rest with
  | '*' :: rest => { s with out := s.out ++ "%!(BADWIDTH)", rest := rest, afterIndex := false }
  | _ =>
    let r := parsenum 0 false s.rest
    { s with rest := r.2, goodArgNum := s.goodArgNum && !(s.afterIndex && r.1) }

/-- The precision of a verb in `doPrintf`: a `*` finds no argument to read. -/
def verbPrecision (s : VerbState) : VerbState :=
  match s.rest with
  | '.' :: rest =>
    let s1 := argNumber { s with rest := rest, goodArgNum := s.goodArgNum && !s.afterIndex }
    match s1.rest with
    | '*' :: rest1 =>
      { s1 with out := s1.out ++ "%!(BADPREC)", rest := rest1, afterIndex := false }
    | _ => { s1 with rest := (parsenum 0 false s1.rest).2 }
  | _ => s

/-- The verb itself in `doPrintf`, after the flags, the width and the precision:
`%%` gives `%`; with no argument to print, every other verb gives an error text. -/
def verbText (s : VerbState) : String × List Char :=
  match s.rest with
  | [] => (s.out ++ "%!(NOVERB)", [])
  | verb :: rest =>
    if verb = '%' then (s.out ++ "%", rest)
    else if !s.goodArgNum then (s.out ++ "%!" ++ verb.toString ++ "(BADINDEX)", rest)
    else (s.out ++ "%!" ++ verb.toString ++ "(MISSING)", rest)

/-- One verb of a format in `doPrintf` of package `fmt`, for a call without
arguments; `format` is the text after the `%`. Returns the text written for
the verb and the format after it. -/
def formatVerb (format : List Char) : String × List Char :=
  let s := argNumber
    { out := "", rest := format.dropWhile isFormatFlag, afterIndex := false, goodArgNum := true }
  let s := verbPrecision (verbWidth s)
  verbText (if s.afterIndex then s else argNumber s)

/-- The loop of `doPrintf` of package `fmt` for a call without arguments; every
round with a verb moves forward in the format, so that one round more than
the format has characters is enough. -/
def sprintfLoop : Nat → List Char → String → String
  | 0, _, out => out
  | fuel + 1, format, out =>
    let out := out ++ ⟨format.takeWhile (· != '%')⟩
    match format.dropWhile (· != '%') with
    | [] => out
    | _ :: rest => sprintfLoop fuel (formatVerb rest).2 (out ++ (formatVerb rest).1)

/-- The call `fmt.Sprintf(format)` without arguments: text is copied, `%%` gives
`%`, every other verb gives an error text such as `%!d(MISSING)`. -/
def Sprintf (format : String) : String := sprintfLoop (format.length + 1) format.data ""

/-- Adds a multi-line comment; every line is passed to `Line` as a format without
arguments, so a `%` in it is read as the start of a verb. -/
def ContentBuilder.BlockComment (b : ContentBuilder) (lines : List String) : ContentBuilder :=
  (lines.foldl (fun b line => b.Line (Sprintf line)) (b.Line "\"\"\"")).Line "\"\"\""

/-- Returns the final content: the lines joined by line feeds. -/
def ContentBuilder.Build (b : ContentBuilder) : String := "\n".intercalate b.lines

/-- SQLAlchemy-specific configuration options. -/
structure SQLAlchemyConfig where
  UseDeclarative : Bool
  UseDataclass : Bool
  AddTypeHints : Bool
  GenerateInit : Bool
  IndentSize : Int
  PythonVersion : String
  TableNamePrefix : String
  TableNameSuffix : String

/-- The format configuration of `DefaultMorpheCompileConfig`. -/
def defaultFormatConfig : SQLAlchemyConfig :=
  { UseDeclarative := true, UseDataclass := false, AddTypeHints := true, GenerateInit := true,
    IndentSize := 4, PythonVersion := "3.8", TableNamePrefix := "", TableNameSuffix := "" }

/-! ## generateEntityContent -/

/-- The relation name that the generators derive from the name of a type field:
`strings.TrimSuffix(strings.TrimSuffix(name, "_type"), "_Type")`. -/
def polyRelName (fieldName : String) : String :=
  trimSuffix (trimSuffix fieldName "_type") "_Type"

/-- One pass of the loop of `generateEntityContent` that scans the fields for
imports; the state is the tracker and `hasPolymorphicTypeField`. -/
def scanEntityField (morpheEntity : Entity) (acc : ImportTracker × Bool) (field : Field) :
    ImportTracker × Bool :=
  let typeName := field.Type_.GetName
  let imports := acc.1.TrackFieldType typeName
  if hasSuffix field.Name "_type" && typeName == "str" then
    if (mapLookup morpheEntity.Related (polyRelName field.Name)).isSome then (imports, true)
    else (imports, acc.2)
  else (imports, acc.2)

/-- The map `identifierFields` of `generateEntityContent`: the loops over the
identifier groups, in the order of the enumeration, and over their fields. -/
def entityIdentifierFields (ids : List (String × EntityIdentifier)) : List (String × String) :=
  ids.foldl (fun m e => e.2.Fields.foldl (fun m fieldName => mapSet m fieldName e.1) m) []

/-- One pass of the loop of `generateEntityContent` that adds the fields. -/
def entityFieldLines (morpheEntity : Entity) (config : SQLAlchemyConfig)
    (identifierFields : List (String × String)) (cb : ContentBuilder) (field : Field) :
    ContentBuilder :=
  let fieldName := SanitizePythonIdentifier (ToSnakeCase field.Name)
  let fieldType := field.Type_.GetName
  let cb :=
    match mapLookup identifierFields field.Name with
    | some idType => cb.Line ("# " ++ idType ++ " identifier")
    | none => cb
  if config.AddTypeHints then
    if hasSuffix field.Name "_type" && fieldType == "str" then
      match mapLookup morpheEntity.Related (polyRelName field.Name) with
      | some relation =>
        if relation.For.length > 0 then
          cb.Line (fieldName ++ ": Literal[" ++
            ", ".intercalate (relation.For.map fun forModel => "\"" ++ forModel ++ "\"") ++ "]")
        else cb.Line (fieldName ++ ": str")
      | none => cb.Line (fieldName ++ ": str")
    else if hasPrefix fieldType "Optional[" || hasPrefix fieldType "List[" ||
        stringsContains fieldType "Union[" then
      cb.Line (fieldName ++ ": " ++ fieldType ++ " = None")
    else if hasSuffix fieldName "_id" || hasSuffix fieldName "_type" then
      cb.Line (fieldName ++ ": Optional[" ++ fieldType ++ "] = None")
    else cb.Line (fieldName ++ ": " ++ fieldType)
  else cb.Line (fieldName ++ " = None")

/-- The identifier method that `generateEntityContent` adds for the group
`primary`. -/
def entityIdentifierMethod (morpheEntity : Entity) (cb : ContentBuilder) : ContentBuilder :=
  match mapLookup morpheEntity.Identifiers "primary" with
  | some primary =>
    match primary.Fields with
    | first :: _ =>
      (((((cb.Line "").Line "def get_id(self) -> str:").Indent).Line
        "\"\"\"Get the primary identifier.\"\"\"").Line
        ("return self." ++ ToSnakeCase first)).Dedent
    | [] => cb
  | none => cb

/-- One pass of the loop of `generateEntityContent` over `morpheEntity.Related`
that adds the relationship loader methods. -/
def entityLoaderLines (cb : ContentBuilder) (rel : String × EntityRelation) : ContentBuilder :=
  let relName := rel.1
  let cb := cb.Line ""
  if rel.2.Type_ = "HasMany" ∨ rel.2.Type_ = "ForMany" then
    ((((cb.Line ("async def load_" ++ SanitizePythonIdentifier (ToSnakeCase relName) ++
        "s(self) -> List[\x27" ++ relName ++ "\x27]:")).Indent.Line
      ("\"\"\"Load related " ++ relName ++ " entities.\"\"\"")).Line
      "# TODO: Implement lazy loading").Line "return []").Dedent
  else
    ((((cb.Line ("async def load_" ++ SanitizePythonIdentifier (ToSnakeCase relName) ++
        "(self) -> Optional[\x27" ++ relName ++ "\x27]:")).Indent.Line
      ("\"\"\"Load related " ++ relName ++ " entity.\"\"\"")).Line
      "# TODO: Implement lazy loading").Line "return None").Dedent

/-- The builder of `generateEntityContent` before the call of `Build`. The
enumerations of `morpheEntity.Related` and `morpheEntity.Identifiers` are those
of the two loops that range over these maps. -/
def generateEntityBuilder (entity : Struct) (morpheEntity : Entity) (config : SQLAlchemyConfig)
    (r : Registry) : ContentBuilder :=
  let cb := NewContentBuilder "    "
  let cb := cb.Line "# Code generated by Morphe"
  let cb := cb.Line "# Entity DTO (Data Transfer Object)"
  let cb := cb.Line "# Note: Entities are DTOs/ViewModels, not SQLAlchemy ORM models"
  let cb := cb.Line ""
  let imports := NewImportTracker r
  let imports := if config.UseDataclass then imports.AddFrom "dataclasses" ["dataclass"]
    else imports
  let scanned := entity.Fields.foldl (scanEntityField morpheEntity) (imports, false)
  let imports := scanned.1.AddTyping ["Optional", "List", "TYPE_CHECKING"]
  let imports := if scanned.2 then imports.AddTyping ["Literal"] else imports
  let cb := (imports.Generate cb).2
  let cb := cb.Line ""
  let cb :=
    if config.UseDataclass then (cb.Line "@dataclass").Line ("class " ++ entity.Name ++ ":")
    else cb.Line ("class " ++ entity.Name ++ ":")
  let cb := cb.Indent
  let cb := cb.BlockComment
    [entity.Name ++ " entity.", "",
      "Identifiers: " ++ toString morpheEntity.Identifiers.length,
      "Relationships: " ++ toString morpheEntity.Related.length]
  let identifierFields := entityIdentifierFields morpheEntity.Identifiers
  let cb := entity.Fields.foldl (entityFieldLines morpheEntity config identifierFields) cb
  let cb := entityIdentifierMethod morpheEntity cb
  if morpheEntity.Related.length > 0 then morpheEntity.Related.foldl entityLoaderLines cb
  else cb

/-- Generates Python entity with relationships and identifiers. -/
def generateEntityContent (entity : Struct) (morpheEntity : Entity) (config : SQLAlchemyConfig)
    (r : Registry) : String :=
  (generateEntityBuilder entity morpheEntity config r).Build

/-! ## generateModelContent -/

/-- Converts a Python type to SQLAlchemy column type. -/
def getSQLAlchemyType (pythonType : String) : String :=
  let pythonType :=
    if hasPrefix pythonType "Optional[" && hasSuffix pythonType "]" then
      String.mk ((pythonType.data.drop 9).take (pythonType.data.length - 1 - 9))
    else pythonType
  if pythonType = "str" then "String"
  else if pythonType = "int" then "Integer"
  else if pythonType = "float" then "Float"
  else if pythonType = "bool" then "Boolean"
  else if pythonType = "datetime" then "DateTime"
  else if pythonType = "Dict[str, Any]" then "JSON"
  else if stringsContains pythonType "." then "Enum"
  else "String"

/-- Maps a format type to SQLAlchemy column type. -/
def mapFieldTypeToSQLAlchemy (fieldType : FormatType) : String :=
  let typeName := fieldType.GetName
  if typeName = "int" then "Integer" else getSQLAlchemyType typeName

/-- The state of the loop of `generateModelContent` that scans the fields for
imports. -/
structure ModelScan where
  imports : ImportTracker
  hasPolymorphicTypeField : Bool
  hasEnumField : Bool

/-- The test of `generateModelContent` that a field is an enum field. -/
def isEnumField (field : Field) (r : Registry) : Option String :=
  match field.Type_ with
  | .BasicType name _ =>
    let innerType := extractInnerType name
    if innerType ≠ "" && resolveFieldType innerType r == "enum" then some innerType else none
  | .ArrayType _ => none

/-- One pass of the first scan of `generateModelContent`: the fields that are
not navigation properties. The map `polymorphicTypeToNavMap` of the source is
written and never read. -/
def scanModelField (r : Registry) (acc : ModelScan) (field : Field) : ModelScan :=
  if hasPrefix field.Name "_nav_" then acc
  else
    let typeName := field.Type_.GetName
    let imports := acc.imports.TrackFieldType typeName
    let hasEnumField := if (isEnumField field r).isSome then true else acc.hasEnumField
    let hasPolymorphicTypeField :=
      if hasSuffix field.Name "_type" && typeName == "str" then true
      else acc.hasPolymorphicTypeField
    { imports := imports, hasPolymorphicTypeField := hasPolymorphicTypeField,
      hasEnumField := hasEnumField }

/-- One pass of the second scan of `generateModelContent`: the navigation
properties. -/
def scanNavField (imports : ImportTracker) (field : Field) : ImportTracker :=
  if !hasPrefix field.Name "_nav_" then imports
  else imports.TrackFieldType field.Type_.GetName

/-- The text `True` or `False` of a nullable flag. -/
def nullableStr (nullable : Bool) : String := if nullable then "True" else "False"

/-- The test `isPrimaryKey` of `generateModelContent`: the field is listed in the
identifier group `primary` of the model. -/
def isPrimaryKeyField (yamlModel : Model) (fieldName : String) : Bool :=
  match mapLookup yamlModel.Identifiers "primary" with
  | some primaryId => primaryId.Fields.any fun idField => idField == fieldName
  | none => false

/-- One pass of the loop of `generateModelContent` that adds the fields. -/
def modelFieldLine (yamlModel : Model) (config : SQLAlchemyConfig) (r : Registry)
    (cb : ContentBuilder) (field : Field) : ContentBuilder :=
  if hasPrefix field.Name "_nav_" then cb
  else
    let fieldName := SanitizePythonIdentifier (ToSnakeCase field.Name)
    let fieldType := field.Type_.GetName
    if config.UseDeclarative then
      let isPrimaryKey := isPrimaryKeyField yamlModel field.Name
      let isForeignKey := hasSuffix fieldName "_id" && decide (fieldName.utf8ByteSize > 3)
      let nullable := !isPrimaryKey && field.Type_.IsNullable
      if isForeignKey then
        let refFieldName := String.mk (fieldName.data.take (fieldName.data.length - 3))
        let refTableName := ToSnakeCase refFieldName
        cb.Line (fieldName ++ " = Column(Integer, ForeignKey(\x27" ++ refTableName ++
          ".id\x27), nullable=" ++ nullableStr nullable ++ ")")
      else if hasSuffix fieldName "_type" then
        cb.Line (fieldName ++ " = Column(String, nullable=" ++ nullableStr nullable ++ ")")
      else
        let sqlType := mapFieldTypeToSQLAlchemy field.Type_
        match isEnumField field r with
        | some innerType =>
          if isPrimaryKey then
            cb.Line (fieldName ++ " = Column(Enum(" ++ innerType ++ "), primary_key=True)")
          else
            cb.Line (fieldName ++ " = Column(Enum(" ++ innerType ++ "), nullable=" ++
              nullableStr nullable ++ ")")
        | none =>
          let isAutoIncrement := yamlModel.Fields.any fun orig =>
            orig.1 == field.Name && orig.2.Type_ == "AutoIncrement"
          if isPrimaryKey then
            if isAutoIncrement then
              cb.Line (fieldName ++ " = Column(" ++ sqlType ++
                ", primary_key=True, autoincrement=True)")
            else cb.Line (fieldName ++ " = Column(" ++ sqlType ++ ", primary_key=True)")
          else
            cb.Line (fieldName ++ " = Column(" ++ sqlType ++ ", nullable=" ++
              nullableStr nullable ++ ")")
    else cb.Line (fieldName ++ ": " ++ fieldType)

/-- One pass of the loop of `generateModelContent` that adds the navigation
properties. The slice `fieldType[5 : len(fieldType)-1]` panics for the text
`List[` itself: the result is then `none`. The slice drops the last byte, here
the last character (the same for a text that ends in an ASCII character, as
the name of an array type does). -/
def modelRelationshipLine (model : Struct) (cb : ContentBuilder) (field : Field) :
    Option ContentBuilder :=
  if !hasPrefix field.Name "_nav_" then some cb
  else
    let relName := trimPrefix field.Name "_nav_"
    let fieldName := SanitizePythonIdentifier (ToSnakeCase relName)
    let fieldType := field.Type_.GetName
    let hasPolyFields := model.Fields.any fun f =>
      f.Name == relName ++ "_type" || f.Name == relName ++ "_id"
    if hasPolyFields then some cb
    else if hasPrefix fieldType "List[" then
      if fieldType.utf8ByteSize < 6 then none
      else
        let targetModel := trimQuotes ⟨(fieldType.data.drop 5).dropLast⟩
        some (cb.Line (fieldName ++ " = relationship(\"" ++ targetModel ++
          "\", back_populates=\"" ++ ToSnakeCase model.Name ++ "\")"))
    else if stringsContains fieldType "Union[" then some cb
    else
      let targetModel := trimQuotes fieldType
      some (cb.Line (fieldName ++ " = relationship(\"" ++ targetModel ++
        "\", back_populates=\"" ++ ToSnakeCase model.Name ++ "\")"))

/-- The loop over the navigation properties, stopped by a panic. -/
def modelRelationshipLines (model : Struct) : List Field → ContentBuilder → Option ContentBuilder
  | [], cb => some cb
  | field :: rest, cb =>
    match modelRelationshipLine model cb field with
    | none => none
    | some cb2 => modelRelationshipLines model rest cb2

/-- The builder of `generateModelContent` before the call of `Build`; `none`
stands for a panic. The parameter `morpheConfig` of the source is not used by
it. -/
def generateModelBuilder (model : Struct) (yamlModel : Model) (config : SQLAlchemyConfig)
    (r : Registry) : Option ContentBuilder :=
  let cb := NewContentBuilder "    "
  let cb := cb.Line "# Code generated by Morphe"
  let cb := cb.Line "# SQLAlchemy model definition"
  let cb :=
    if config.UseDeclarative then
      ((cb.Line "# Note: This requires a Base class defined as:").Line
        "#   from sqlalchemy.ext.declarative import declarative_base").Line
        "#   Base = declarative_base()"
    else cb
  let cb := cb.Line ""
  let imports := NewImportTracker r
  let imports :=
    if config.UseDeclarative then
      ((imports.AddSQLAlchemy ["Column", "Integer", "String", "Text", "Float", "Boolean",
        "DateTime", "Date", "ForeignKey", "JSON"]).AddSQLAlchemy ["relationship"]).AddFrom
        ".base" ["Base"]
    else imports
  let scan := model.Fields.foldl (scanModelField r)
    { imports := imports, hasPolymorphicTypeField := false, hasEnumField := false }
  let imports := model.Fields.foldl scanNavField scan.imports
  let imports := if config.AddTypeHints then imports.AddTyping ["Optional"] else imports
  let imports := if scan.hasPolymorphicTypeField then imports.AddTyping ["Literal"] else imports
  let imports :=
    if scan.hasEnumField && config.UseDeclarative then imports.AddSQLAlchemy ["Enum"]
    else imports
  let cb := (imports.Generate cb).2
  let cb := cb.Line ""
  let cb :=
    if config.UseDeclarative then
      (((cb.Line ("class " ++ model.Name ++ "(Base):")).Indent).Line
        ("__tablename__ = \x27" ++ config.TableNamePrefix ++ ToSnakeCase model.Name ++
          config.TableNameSuffix ++ "\x27")).Line ""
    else (cb.Line ("class " ++ model.Name ++ ":")).Indent
  let cb := cb.Line ("\"\"\"" ++ model.Name ++ " model.\"\"\"")
  if model.Fields.length = 0 then some (cb.Line "pass").Dedent
  else
    let cb := model.Fields.foldl (modelFieldLine yamlModel config r) cb
    if config.UseDeclarative && decide (model.Fields.length > 0) then
      match modelRelationshipLines model model.Fields (cb.Line "") with
      | none => none
      | some cb2 => some cb2.Dedent
    else some cb.Dedent

/-- Generates SQLAlchemy model. -/
def generateModelContent (model : Struct) (yamlModel : Model) (config : SQLAlchemyConfig)
    (r : Registry) : Option String :=
  (generateModelBuilder model yamlModel config r).map ContentBuilder.Build

/-! ## MorpheToSQLAlchemy -/

/-- The results of the steps of a run that lie outside the sources: loading the
registry, the writer of the output files and `CompileAllStructures`. An error
is `some` of its text. -/
structure RunEnv where
  loadRegistry : Except String Registry
  writeAllEnums : Option String
  writeBaseFile : Option String
  writeAllModels : Option String
  compileAllStructures : Option String
  writeAllEntities : Option String

/-- The compile steps that a run can call. -/
inductive Stage where
  | enums
  | baseFile
  | models
  | structures
  | entities
deriving DecidableEq

/-- Compiles all enums and writes them using the writer: `CompileEnum` returns
no error and `generateEnumContent` always returns, so the result is that of
the writer. -/
def CompileAllEnums (env : RunEnv) : Option String := env.writeAllEnums

/-- The loop of `CompileAllModels` over the enumerated models: each model is
compiled and its content generated. The result is `none` when
`generateModelContent` panics, else the error returned, if any. -/
def compileModelsLoop (config : SQLAlchemyConfig) (r : Registry) :
    List (String × Model) → Option (Option String)
  | [] => some none
  | (modelName, model) :: rest =>
    match CompileModel model r with
    | .error err => some (some ("failed to compile model " ++ modelName ++ ": " ++ err))
    | .ok compiledModel =>
      match generateModelContent compiledModel model config r with
      | none => none
      | some _ => compileModelsLoop config r rest

/-- Compiles all models and writes them using the writer; `none` is a panic. -/
def CompileAllModels (config : SQLAlchemyConfig) (r : Registry) (env : RunEnv) :
    Option (Option String) :=
  match compileModelsLoop config r r.models with
  | none => none
  | some (some err) => some (some err)
  | some none => some env.writeAllModels

/-- The loop of `CompileAllEntities` over the enumerated entities;
`generateEntityContent` always returns. -/
def compileEntitiesLoop (r : Registry) : List (String × Entity) → Option String
  | [] => none
  | (entityName, entity) :: rest =>
    match CompileEntity entity r with
    | .error err => some ("failed to compile entity " ++ entityName ++ ": " ++ err)
    | .ok _ => compileEntitiesLoop r rest

/-- Compiles all entities and writes them using the writer. -/
def CompileAllEntities (r : Registry) (env : RunEnv) : Option String :=
  match compileEntitiesLoop r r.entities with
  | some err => some err
  | none => env.writeAllEntities

/-- The result of a part of a run that returns: the error returned, if any, and
the compile steps called, in order. -/
abbrev RunResult := Option String × List Stage

/-- Runs `next` unless `first` has panicked (`none`) or returned an error. -/
def RunResult.andThen (first next : Option RunResult) : Option RunResult :=
  match first with
  | none => none
  | some (some err, stages) => some (some err, stages)
  | some (none, stages) => next.map fun n => (n.1, stages ++ n.2)

/-- The wrapping `fmt.Errorf(prefix + ": %w", err)` of the result of one step. -/
def stageResult (stage : Stage) (errPrefix : String) (result : Option String) : RunResult :=
  match result with
  | some err => (some (errPrefix ++ ": " ++ err), [stage])
  | none => (none, [stage])

/-- The block `if r.HasEnums()` of `MorpheToSQLAlchemy`. -/
def runEnums (r : Registry) (env : RunEnv) : RunResult :=
  if r.HasEnums then stageResult .enums "failed to compile enums" (CompileAllEnums env)
  else (none, [])

/-- The block `if r.HasModels()` of `MorpheToSQLAlchemy`; the detection of
circular dependencies only prints warnings. The result is `none` when the
compilation of the models panics. -/
def runModels (config : SQLAlchemyConfig) (r : Registry) (env : RunEnv) : Option RunResult :=
  if r.HasModels then
    RunResult.andThen
      (some (if config.UseDeclarative then
          stageResult .baseFile "failed to write base.py" env.writeBaseFile
        else (none, [])))
      ((CompileAllModels config r env).map (stageResult .models "failed to compile models"))
  else some (none, [])

/-- The block `if r.HasStructures()` of `MorpheToSQLAlchemy`. -/
def runStructures (r : Registry) (env : RunEnv) : RunResult :=
  if r.HasStructures then
    stageResult .structures "failed to compile structures" env.compileAllStructures
  else (none, [])

/-- The block `if r.HasEntities()` of `MorpheToSQLAlchemy`; the detection of
circular dependencies only prints warnings. -/
def runEntities (r : Registry) (env : RunEnv) : RunResult :=
  if r.HasEntities then
    if !r.HasModels then (some "entities compilation requires models to be compiled", [])
    else stageResult .entities "failed to compile entities" (CompileAllEntities r env)
  else (none, [])

/-- Compiles a Morphe registry to Python with SQLAlchemy models; `config` is
`config.FormatConfig`. The result is `none` when the run panics, else the
error returned, if any, with the compile steps called. -/
def MorpheToSQLAlchemy (config : SQLAlchemyConfig) (env : RunEnv) : Option RunResult :=
  match env.loadRegistry with
  | .error rErr => some (some ("failed to load morphe registry: " ++ rErr), [])
  | .ok r =>
    RunResult.andThen (some (runEnums r env))
      (RunResult.andThen (runModels config r env)
        (RunResult.andThen (some (runStructures r env)) (some (runEntities r env))))

/-! ## Example model maps -/

/-- Two models, `A` depends on `B`. -/
def exampleChain : List (String × Model) :=
  [("A", mkModel "A" [("B", "", [])]), ("B", mkModel "B" [])]

/-- Two models that depend on each other. -/
def exampleTwoCycle : List (String × Model) :=
  [("A", mkModel "A" [("B", "", [])]), ("B", mkModel "B" [("A", "", [])])]

/-- The models `A depends on B, B depends on C, C depends on A`. -/
def exampleRing : List (String × Model) :=
  [("C", mkModel "C" [("A", "", [])]), ("A", mkModel "A" [("B", "", [])]),
    ("B", mkModel "B" [("C", "", [])])]

/-- The models `A depends on B and C, B depends on C, C depends on A`. -/
def exampleFork : List (String × Model) :=
  [("A", mkModel "A" [("B", "", []), ("C", "", [])]), ("B", mkModel "B" [("C", "", [])]),
    ("C", mkModel "C" [("A", "", [])])]

/-- A model with an aliased relation, a polymorphic relation and a relation to itself. -/
def exampleMixed : List (String × Model) :=
  [("Post", mkModel "Post" [("Author", "Person", []), ("Target", "", ["Post", "Photo", "Video"]),
    ("Post", "", [])])]

/-- The models of the through example: `Comment` declares the polymorphic
relation `commentable`, `Attachment` has the relation `Notes` through it. -/
def exampleThroughModels : List (String × Model) :=
  [("Comment",
      { Name := "Comment", Fields := [], Identifiers := [],
        Related := [("commentable",
          { Type_ := "HasManyPoly", For := [], Through := "", Aliased := "" })] }),
    ("Attachment",
      { Name := "Attachment", Fields := [], Identifiers := [],
        Related := [("Notes",
          { Type_ := "HasOnePoly", For := [], Through := "commentable", Aliased := "" })] })]

/-- The registry of the through example. -/
def exampleThroughRegistry : Registry := { models := exampleThroughModels }

/-- An entity map with the relations of `exampleTwoCycle`. -/
def exampleEntities : List (String × Entity) :=
  [("B",
      { Name := "B", Fields := [], Identifiers := [],
        Related := [("A", { Type_ := "ForOne", For := [], Through := "", Aliased := "" })] }),
    ("A",
      { Name := "A", Fields := [("Id", { Type_ := "A.Id" })], Identifiers := [],
        Related := [("B", { Type_ := "ForOne", For := [], Through := "", Aliased := "" })] })]

/-- The same declarations with every `Through` replaced by `t`. -/
def withThrough (t : String) (models : List (String × Model)) : List (String × Model) :=
  models.map fun e =>
    (e.1, { e.2 with Related := e.2.Related.map (fun rl => (rl.1, { rl.2 with Through := t })) })

/-- The model `Attachment` of the through example. -/
def exampleAttachment : Model :=
  { Name := "Attachment", Fields := [], Identifiers := [],
    Related := [("Notes",
      { Type_ := "HasOnePoly", For := [], Through := "commentable", Aliased := "" })] }

/-- A registry in which no model declares the relation `commentable`. -/
def exampleOrphanRegistry : Registry := { models := [("Attachment", exampleAttachment)] }

/-- A model whose only relation is the owning-one polymorphic relation `Payable`. -/
def examplePayment : Model :=
  { Name := "Payment", Fields := [("Amount", { Type_ := "Float" })], Identifiers := [],
    Related := [("Payable",
      { Type_ := "ForOnePoly", For := ["Invoice", "Order"], Through := "", Aliased := "" })] }

/-- The model `Contact` of the field path example. -/
def exampleContact : Model :=
  { Name := "Contact", Fields := [("email", { Type_ := "String" })], Identifiers := [],
    Related := [] }

/-- The model `Person` of the field path example: its relation `ContactInfo` is
aliased to `Contact`. -/
def examplePerson : Model :=
  { Name := "Person", Fields := [("Name", { Type_ := "String" })], Identifiers := [],
    Related := [("ContactInfo",
      { Type_ := "ForOne", For := [], Through := "", Aliased := "Contact" })] }

/-- The registry of the field path example. -/
def exampleContactRegistry : Registry :=
  { models := [("Person", examplePerson), ("Contact", exampleContact)] }

/-- The model `Comment` of the polymorphic hop example: its relation `Owner` is
owning-one polymorphic and aliased to `Person`. -/
def exampleComment : Model :=
  { Name := "Comment", Fields := [("Body", { Type_ := "String" })], Identifiers := [],
    Related := [("Owner",
      { Type_ := "ForOnePoly", For := ["Person", "Team"], Through := "", Aliased := "Person" })] }

/-- The registry of the polymorphic hop example. -/
def examplePolyHopRegistry : Registry :=
  { models := [("Comment", exampleComment), ("Person", examplePerson)] }

/-- The same relation with its type tag `t` replaced by `f t`. -/
def retagRelation (f : String → String) (rel : ModelRelation) : ModelRelation :=
  { rel with Type_ := f rel.Type_ }

/-- The same model with every relation type tag `t` replaced by `f t`. -/
def retagModel (f : String → String) (m : Model) : Model :=
  { m with Related := m.Related.map (fun rl => (rl.1, retagRelation f rl.2)) }

/-- The same registry with every relation type tag of its models replaced. -/
def retagRegistry (f : String → String) (r : Registry) : Registry :=
  { r with models := r.models.map (fun e => (e.1, retagModel f e.2)) }

/-- A model with two declared fields and two relations, both enumerated in
descending order of name. -/
def exampleInvoiceLine : Model :=
  { Name := "InvoiceLine",
    Fields := [("Quantity", { Type_ := "Integer" }), ("Amount", { Type_ := "Float" })],
    Identifiers := [],
    Related := [("Product", { Type_ := "ForOne", For := [], Through := "", Aliased := "" }),
      ("Invoice", { Type_ := "ForOne", For := [], Through := "", Aliased := "" })] }

/-- An entity over the field path example with an owning-one relation and an
owning-one polymorphic relation. -/
def examplePersonView : Entity :=
  { Name := "PersonView",
    Fields := [("Name", { Type_ := "Person.Name" }),
      ("Email", { Type_ := "Person.ContactInfo.email" })],
    Identifiers := [],
    Related := [("Owner",
        { Type_ := "ForOnePoly", For := ["Person", "Team"], Through := "", Aliased := "" }),
      ("Contact", { Type_ := "ForOne", For := [], Through := "", Aliased := "" })] }

/-- An entity with a field path whose root model is not in the registry. -/
def exampleBrokenView : Entity :=
  { Name := "BrokenView",
    Fields := [("Name", { Type_ := "Person.Name" }), ("Total", { Type_ := "Order.Total" })],
    Identifiers := [],
    Related := [] }

/-- A registry with an enum and an entity and without models. -/
def exampleNoModelsRegistry : Registry :=
  { enums := [("Color", ⟨"Color", "String", [("Red", .text "red")]⟩)],
    entities := [("PersonView", examplePersonView)] }

/-- A run on `exampleNoModelsRegistry` in which writing the enum files fails. -/
def exampleFailingEnumRun : RunEnv :=
  { loadRegistry := .ok exampleNoModelsRegistry, writeAllEnums := some "disk full",
    writeBaseFile := none, writeAllModels := none, compileAllStructures := none,
    writeAllEntities := none }

/-- A run on `exampleNoModelsRegistry` in which no write fails. -/
def exampleCleanRun : RunEnv :=
  { loadRegistry := .ok exampleNoModelsRegistry, writeAllEnums := none,
    writeBaseFile := none, writeAllModels := none, compileAllStructures := none,
    writeAllEntities := none }

/-- A registry with the enum `Color` and the models of the field path example. -/
def exampleTrackRegistry : Registry :=
  { models := [("Person", examplePerson), ("Contact", exampleContact)],
    enums := [("Color", ⟨"Color", "String", [("Red", .text "red")]⟩)] }

/-- A sequence of calls with repeated names, given out of order. -/
def exampleCalls : List TrackerCall :=
  [.AddTyping ["Optional", "Any", "Optional"], .AddSQLAlchemy ["String", "Column", "String"],
    .TrackFieldType "List[Person]", .TrackFieldType "Optional[Color]",
    .TrackFieldType "Contact", .TrackFieldType "Person"]

/-- A model that declares the polymorphic relation `commentable`. -/
def exampleCommentOwner : Model :=
  { Name := "Comment", Fields := [], Identifiers := [],
    Related := [("commentable",
      { Type_ := "ForOnePoly", For := ["Post", "Photo"], Through := "", Aliased := "" })] }

/-- A second model that declares a polymorphic relation `commentable`. -/
def exampleReviewOwner : Model :=
  { Name := "Review", Fields := [], Identifiers := [],
    Related := [("commentable",
      { Type_ := "ForOnePoly", For := ["Post", "Video"], Through := "", Aliased := "" })] }

/-- A registry with the models `Comment`, `Review` and `Attachment`, enumerated
with `Comment` first. -/
def exampleCommentFirst : Registry :=
  { models := [("Comment", exampleCommentOwner), ("Review", exampleReviewOwner),
      ("Attachment", exampleAttachment)] }

/-- The same registry enumerated with `Review` first. -/
def exampleReviewFirst : Registry :=
  { models := [("Review", exampleReviewOwner), ("Comment", exampleCommentOwner),
      ("Attachment", exampleAttachment)] }

/-- An entity with one relation of each kind: owning-one, owning-one polymorphic
and three polymorphic relations that are not owning-one. -/
def exampleTaskView : Entity :=
  { Name := "TaskView",
    Fields := [("Title", { Type_ := "Person.Name" })],
    Identifiers := [],
    Related := [("Assignee", { Type_ := "ForOne", For := [], Through := "", Aliased := "Person" }),
      ("Subject",
        { Type_ := "ForOnePoly", For := ["Person", "Contact"], Through := "", Aliased := "" }),
      ("Notes", { Type_ := "HasManyPoly", For := [], Through := "Subject", Aliased := "" }),
      ("Cover", { Type_ := "HasOnePoly", For := [], Through := "Subject", Aliased := "" }),
      ("Tags", { Type_ := "ForManyPoly", For := ["Contact"], Through := "", Aliased := "" })] }

/-- Operations that track a model import and call `Generate` in between. -/
def exampleOps : List TrackerOp :=
  [.call (.TrackFieldType "List[Person]"), .Generate (NewContentBuilder ""),
    .call (.AddTyping ["Optional"])]

/-- The entity `PersonView` with its relations enumerated in the other order. -/
def examplePersonViewSwapped : Entity :=
  { examplePersonView with Related := examplePersonView.Related.reverse }

/-- The struct that `CompileEntity` returns for `PersonView`. -/
def examplePersonViewStruct : Struct :=
  ⟨"PersonView",
    [⟨"Email", TypeString⟩, ⟨"Name", TypeString⟩, ⟨"contact_id", TypeString⟩,
      ⟨"contact", .BasicType "Contact" false⟩, ⟨"owner_type", TypeString⟩,
      ⟨"owner_id", TypeString⟩,
      ⟨"owner", .BasicType "Union[\x27Person\x27, \x27Team\x27]" false⟩]⟩

/-- A model whose primary identifier is the field `UserID`. -/
def exampleUser : Model :=
  { Name := "User",
    Fields := [("UserID", { Type_ := "AutoIncrement" }), ("Email", { Type_ := "String" })],
    Identifiers := [("primary", { Fields := ["UserID"] })],
    Related := [] }

/-- The struct that `CompileModel` returns for `exampleUser`. -/
def exampleUserStruct : Struct :=
  ⟨"User", [⟨"Email", TypeString⟩, ⟨"UserID", TypeInteger⟩]⟩

/-- A model whose primary identifier is the field `Code`. -/
def exampleCountry : Model :=
  { Name := "Country",
    Fields := [("Code", { Type_ := "String" })],
    Identifiers := [("primary", { Fields := ["Code"] })],
    Related := [] }

/-- The struct that `CompileModel` returns for `examplePerson`. -/
def examplePersonStruct : Struct :=
  ⟨"Person",
    [⟨"Name", TypeString⟩, ⟨"contactinfoId", TypeString⟩,
      ⟨"_nav_ContactInfo", .BasicType "Contact" false⟩]⟩

/-- The struct that `CompileModel` returns for `exampleContact`. -/
def exampleContactStruct : Struct := ⟨"Contact", [⟨"email", TypeString⟩]⟩

/-- A model with a relation `Company` that has no alias. -/
def exampleEmployee : Model :=
  { Name := "Employee", Fields := [("Name", { Type_ := "String" })], Identifiers := [],
    Related := [("Company", { Type_ := "ForOne", For := [], Through := "", Aliased := "" })] }

/-- The struct that `CompileModel` returns for `exampleEmployee`. -/
def exampleEmployeeStruct : Struct :=
  ⟨"Employee",
    [⟨"Name", TypeString⟩, ⟨"companyId", TypeString⟩,
      ⟨"_nav_Company", .BasicType "Company" false⟩]⟩

/-- A registry without declarations. -/
def exampleEmptyRegistry : Registry := {}

/-- A model with one declared field and one relation of each of the shapes
owning-one, polymorphic owning-one and owned-many. -/
def exampleTask : Model :=
  { Name := "Task",
    Fields := [("Title", { Type_ := "String" })],
    Identifiers := [],
    Related := [("Subject",
        { Type_ := "ForOnePoly", For := ["Person", "Contact"], Through := "", Aliased := "" }),
      ("Notes", { Type_ := "HasMany", For := [], Through := "", Aliased := "" }),
      ("Assignee", { Type_ := "ForOne", For := [], Through := "", Aliased := "Person" })] }

/-- A model with a relation whose alias is the text `List[`. -/
def exampleShelf : Model :=
  { Name := "Shelf", Fields := [], Identifiers := [],
    Related := [("Books", { Type_ := "HasOne", For := [], Through := "", Aliased := "List[" })] }

/-- A run on a registry with the model `Shelf` only, in which no write fails. -/
def exampleShelfRun : RunEnv :=
  { loadRegistry := .ok { models := [("Shelf", exampleShelf)] }, writeAllEnums := none,
    writeBaseFile := none, writeAllModels := none, compileAllStructures := none,
    writeAllEntities := none }

/-! ## Predicates used in the statements -/

/-- The condition under which a relation of model `m` contributes `d`. -/
def contributes (d : String) (rel : String × ModelRelation) : Prop :=
  (rel.2.For ≠ [] ∧ d ∈ rel.2.For) ∨
    (rel.2.For = [] ∧ GetRelationTargetName rel.1 rel.2.Aliased = d ∧ d ≠ "")

/-- Every node on the recursion stack has been visited. -/
def StackVisited (st : DfsState) : Prop := ∀ x, st.recStack x = true → st.visited x = true

/-- Relation between the maps before and after a call: `visited` only grows and,
when the stack was within `visited`, `recStack` is restored. -/
def Frame (st st' : DfsState) : Prop :=
  (∀ x, st.visited x = true → st'.visited x = true) ∧
    (StackVisited st → ∀ x, st'.recStack x = st.recStack x)

/-- The edge relation of an adjacency map. -/
def edge (g : Graph) (u w : String) : Prop := w ∈ graphLookup g u

/-- A closed walk `x, ..., x` along edges of `g` whose nodes before the closing
one are pairwise distinct. -/
def IsCycleOf (g : Graph) (p : List String) : Prop :=
  ∃ x body, p = x :: body ++ [x] ∧ (x :: body).Nodup ∧ List.Chain' (edge g) p

/-- The traversal invariant: `path` is a simple path of the graph, `recStack`
marks exactly its nodes, and all of them are visited. -/
def PathInv (g : Graph) (path : List String) (st : DfsState) : Prop :=
  path.Nodup ∧ List.Chain' (edge g) path ∧ (∀ x, st.recStack x = true ↔ x ∈ path) ∧
    (∀ x ∈ path, st.visited x = true)

/-- Number of names of the graph that are not yet visited. -/
def unvisitedCount (g : Graph) (st : DfsState) : Nat :=
  ((graphNodes g).filter fun x => !st.visited x).length

/-- A node whose call has returned: visited and no longer on the stack. -/
def finished (st : DfsState) (u : String) : Prop :=
  st.visited u = true ∧ st.recStack u = false

/-- The finished nodes are closed under edges and none of them lies on a cycle. -/
def Closed (g : Graph) (st : DfsState) : Prop :=
  (∀ u w, finished st u → edge g u w → finished st w) ∧
    (∀ u, finished st u → ¬ Relation.TransGen (edge g) u u)

/-- The model reached from a model by following a chain of relation names: each
hop goes from the current model, through its relation of that name, to the
model that the registry holds under the relation's alias when set and under
the relation's name otherwise. -/
inductive Reaches (r : Registry) : Model → List String → Model → Prop where
  | done (m : Model) : Reaches r m [] m
  | hop (cur next last : Model) (seg : String) (rest : List String) (rel : ModelRelation) :
      mapLookup cur.Related seg = some rel →
      r.GetModel (GetRelationTargetName seg rel.Aliased) = some next →
      Reaches r next rest last → Reaches r cur (seg :: rest) last

/-- Some intermediate segment cannot be followed: it is not a relation of the
model reached so far, or the target model of that relation is not in the
registry. -/
def BrokenHop (r : Registry) (root : Model) (inter : List String) : Prop :=
  ∃ pre seg post cur, inter = pre ++ seg :: post ∧ Reaches r root pre cur ∧
    (mapLookup cur.Related seg = none ∨
      ∃ rel, mapLookup cur.Related seg = some rel ∧
        r.GetModel (GetRelationTargetName seg rel.Aliased) = none)

/-- The failure conditions of a field path with the segments `parts`: fewer than
two segments; segment 0 names no model; a broken intermediate hop; or the final
segment is not a field of the last model reached. -/
def PathFails (r : Registry) (parts : List String) : Prop :=
  parts.length < 2 ∨ r.GetModel (parts.getD 0 "") = none ∨
    ∃ root, r.GetModel (parts.getD 0 "") = some root ∧
      (BrokenHop r root (parts.drop 1).dropLast ∨
        ∃ cur, Reaches r root (parts.drop 1).dropLast cur ∧
          mapLookup cur.Fields (parts.getLastD "") = none)

/-- The invariant of an import tracker over the registry `r`: the lists of names
have no repeats, a name is tracked as an enum only if the registry has an enum
of that name, as a model only if it has no such enum but a model of that name,
and `TYPE_CHECKING` is a typing import as soon as a model is tracked. -/
structure TrackerInv (r : Registry) (it : ImportTracker) : Prop where
  registry_eq : it.registry = r
  typing_nodup : it.typing.Nodup
  sqlalchemy_nodup : it.sqlalchemy.Nodup
  enums_nodup : (keys it.enums).Nodup
  models_nodup : (keys it.models).Nodup
  enums_sound : ∀ n ∈ keys it.enums, (r.GetEnum n).isSome = true
  models_sound : ∀ n ∈ keys it.models,
    (r.GetEnum n).isSome = false ∧ (r.GetModel n).isSome = true
  type_checking : it.models ≠ [] → "TYPE_CHECKING" ∈ it.typing

/-! ## Facts about `buildDependencyGraph` -/

theorem contains_iff (slice : List String) (value : String) :
    contains slice value = true ↔ value ∈ slice := by
  induction slice with
  | nil => simp [contains]
  | cons v rest ih =>
    by_cases h : v = value
    · simp [contains, h]
    · have h2 : ¬ value = v := fun e => h e.symm
      simp [contains, h, h2, ih]

theorem contains_eq_false_iff (slice : List String) (value : String) :
    contains slice value = false ↔ value ∉ slice := by
  rw [← contains_iff]; simp

theorem mem_addForDeps (modelName d : String) (fors deps : List String) :
    d ∈ addForDeps modelName deps fors ↔ d ∈ deps ∨ (d ∈ fors ∧ d ≠ modelName) := by
  induction fors generalizing deps with
  | nil => simp [addForDeps]
  | cons f rest ih =>
    unfold addForDeps
    split
    · rename_i h
      rw [ih]
      simp only [List.mem_append, List.mem_cons, List.not_mem_nil, or_false]
      constructor
      · rintro ((h1 | h1) | h1)
        · exact Or.inl h1
        · exact Or.inr ⟨Or.inl h1, h1 ▸ h.1⟩
        · exact Or.inr ⟨Or.inr h1.1, h1.2⟩
      · rintro (h1 | ⟨h1 | h1, h2⟩)
        · exact Or.inl (Or.inl h1)
        · exact Or.inl (Or.inr h1)
        · exact Or.inr ⟨h1, h2⟩
    · rename_i h
      rw [ih]
      simp only [List.mem_cons]
      constructor
      · rintro (h1 | h1)
        · exact Or.inl h1
        · exact Or.inr ⟨Or.inr h1.1, h1.2⟩
      · rintro (h1 | ⟨h1 | h1, h2⟩)
        · exact Or.inl h1
        · subst h1
          by_cases hc : contains deps d = false
          · exact absurd ⟨h2, hc⟩ h
          · left
            rw [← contains_iff]
            simpa using hc
        · exact Or.inr ⟨h1, h2⟩

theorem nodup_addForDeps (modelName : String) (fors deps : List String)
    (h : deps.Nodup) : (addForDeps modelName deps fors).Nodup := by
  induction fors generalizing deps with
  | nil => simpa [addForDeps] using h
  | cons f rest ih =>
    unfold addForDeps
    split
    · rename_i hc
      apply ih
      rw [List.nodup_append]
      refine ⟨h, List.nodup_singleton f, ?_⟩
      intro a ha hb
      rw [List.mem_singleton] at hb
      subst hb
      exact (contains_eq_false_iff deps a).1 hc.2 ha
    · exact ih deps h

theorem mem_relationDeps (m d : String) (deps : List String) (rel : String × ModelRelation) :
    d ∈ relationDeps m deps rel ↔ d ∈ deps ∨ (d ≠ m ∧ contributes d rel) := by
  unfold relationDeps contributes
  by_cases hF : rel.2.For = []
  · simp only [hF, List.length_nil, gt_iff_lt, lt_self_iff_false, if_false, ne_eq,
      not_true_eq_false, List.not_mem_nil, and_false, false_or, true_and]
    split
    · rename_i ht
      split
      · simp only [List.mem_append, List.mem_singleton]
        constructor
        · rintro (h | h)
          · exact Or.inl h
          · subst h; exact Or.inr ⟨ht.2, rfl, ht.1⟩
        · rintro (h | ⟨_, h2, _⟩)
          · exact Or.inl h
          · exact Or.inr h2.symm
      · rename_i hc
        constructor
        · exact Or.inl
        · rintro (h | ⟨_, h2, _⟩)
          · exact h
          · subst h2
            rw [← contains_iff]
            simpa using hc
    · rename_i ht
      constructor
      · exact Or.inl
      · rintro (h | ⟨h1, h2, h3⟩)
        · exact h
        · subst h2
          exact absurd ⟨h3, h1⟩ ht
  · have hlen : rel.2.For.length > 0 := List.length_pos.2 hF
    simp only [hlen, if_true, mem_addForDeps, hF, ne_eq, not_false_eq_true, true_and,
      false_and, or_false]
    tauto

theorem nodup_relationDeps (m : String) (deps : List String) (rel : String × ModelRelation)
    (h : deps.Nodup) : (relationDeps m deps rel).Nodup := by
  unfold relationDeps
  simp only
  split
  · exact nodup_addForDeps m _ deps h
  · split
    · split
      · rename_i hc
        rw [List.nodup_append]
        refine ⟨h, List.nodup_singleton _, ?_⟩
        intro a ha hb
        rw [List.mem_singleton] at hb
        rw [hb] at ha
        exact (contains_eq_false_iff deps _).1 hc ha
      · exact h
    · exact h

theorem mem_foldl_relationDeps (m d : String) (rels : List (String × ModelRelation))
    (deps : List String) :
    d ∈ rels.foldl (relationDeps m) deps ↔
      d ∈ deps ∨ (d ≠ m ∧ ∃ rel ∈ rels, contributes d rel) := by
  induction rels generalizing deps with
  | nil => simp
  | cons r rest ih =>
    rw [List.foldl_cons, ih, mem_relationDeps]
    simp only [List.mem_cons, exists_eq_or_imp]
    tauto

theorem nodup_foldl_relationDeps (m : String) (rels : List (String × ModelRelation))
    (deps : List String) (h : deps.Nodup) : (rels.foldl (relationDeps m) deps).Nodup := by
  induction rels generalizing deps with
  | nil => simpa using h
  | cons r rest ih =>
    rw [List.foldl_cons]
    exact ih _ (nodup_relationDeps m deps r h)

theorem mem_modelDeps (m d : String) (model : Model) :
    d ∈ modelDeps m model ↔ d ≠ m ∧ ∃ rel ∈ model.Related, contributes d rel := by
  unfold modelDeps
  rw [mem_foldl_relationDeps]
  simp

theorem nodup_modelDeps (m : String) (model : Model) : (modelDeps m model).Nodup :=
  nodup_foldl_relationDeps m _ [] List.nodup_nil

theorem graphLookup_build_cases (models : List (String × Model)) (m : String) :
    graphLookup (buildDependencyGraph models) m = [] ∨
      ∃ model, (m, model) ∈ models ∧
        graphLookup (buildDependencyGraph models) m = modelDeps m model := by
  induction models with
  | nil => left; rfl
  | cons e rest ih =>
    obtain ⟨k, model⟩ := e
    by_cases h : k = m
    · right
      refine ⟨model, ?_, ?_⟩
      · simp [h]
      · simp [buildDependencyGraph, graphLookup, h]
    · have e1 : graphLookup (buildDependencyGraph ((k, model) :: rest)) m =
          graphLookup (buildDependencyGraph rest) m := by
        simp [buildDependencyGraph, graphLookup, h]
      rw [e1]
      rcases ih with ih | ⟨model2, h1, h2⟩
      · exact Or.inl ih
      · exact Or.inr ⟨model2, List.mem_cons_of_mem _ h1, h2⟩

theorem graphLookup_build_of_mem (models : List (String × Model)) (m : String) (model : Model)
    (hnd : (keys models).Nodup) (hm : (m, model) ∈ models) :
    graphLookup (buildDependencyGraph models) m = modelDeps m model := by
  induction models with
  | nil => simp at hm
  | cons e rest ih =>
    obtain ⟨k, model2⟩ := e
    simp only [keys, List.map_cons, List.nodup_cons] at hnd
    rcases List.mem_cons.1 hm with h | h
    · injection h with h1 h2
      subst h1 h2
      simp [buildDependencyGraph, graphLookup]
    · have hk : k ≠ m := by
        intro e
        subst e
        exact hnd.1 (List.mem_map_of_mem Prod.fst h)
      have := ih hnd.2 h
      simp only [buildDependencyGraph, List.map_cons, graphLookup, hk, if_false]
      exact this
/-! ## Proof rules for the loops of the search -/

theorem appendFound_eq (cycles found : List CircularDependency) :
    appendFound cycles found = cycles ++ found := by
  unfold appendFound
  split
  · rfl
  · rename_i h
    have : found = [] := by
      cases found with
      | nil => rfl
      | cons a l => simp at h
    simp [this]

/-- Invariant rule for the loop over the neighbours: `I done st cycles` holds
after the neighbours `done` have been handled; `A` is what is known of every
neighbour. -/
theorem dfsNeighbors_rule
    (recur : String → DfsState → List String → Option (List CircularDependency × DfsState))
    (path : List String) (A : String → Prop)
    (I : List String → DfsState → List CircularDependency → Prop)
    (hrec : ∀ done n st cycles found st', A n → I done st cycles → st.visited n = false →
      recur n st path = some (found, st') → I (done ++ [n]) st' (cycles ++ found))
    (hstack : ∀ done n st cycles i, A n → I done st cycles → st.visited n = true →
      st.recStack n = true → cycleStart n path = some i →
      I (done ++ [n]) st (cycles ++ [⟨path.drop i ++ [n]⟩]))
    (hmiss : ∀ done n st cycles, A n → I done st cycles → st.visited n = true →
      st.recStack n = true → cycleStart n path = none → I (done ++ [n]) st cycles)
    (hdone : ∀ done n st cycles, A n → I done st cycles → st.visited n = true →
      st.recStack n = false → I (done ++ [n]) st cycles) :
    ∀ (nbrs done : List String) (st : DfsState) (cycles out : List CircularDependency)
      (st' : DfsState), (∀ n ∈ nbrs, A n) → I done st cycles →
      dfsNeighbors recur path nbrs st cycles = some (out, st') → I (done ++ nbrs) st' out := by
  intro nbrs
  induction nbrs with
  | nil =>
    intro done st cycles out st' _ hI h
    simp only [dfsNeighbors, Option.some.injEq, Prod.mk.injEq] at h
    obtain ⟨h1, h2⟩ := h
    subst h1 h2
    simpa using hI
  | cons n rest ih =>
    intro done st cycles out st' hA hI h
    have hAn : A n := hA n (List.mem_cons_self _ _)
    have hAr : ∀ m ∈ rest, A m := fun m hm => hA m (List.mem_cons_of_mem _ hm)
    have e : done ++ n :: rest = (done ++ [n]) ++ rest := by simp
    rw [e]
    cases hv : st.visited n with
    | false =>
      simp only [dfsNeighbors, hv, if_true] at h
      cases hr : recur n st path with
      | none => simp [hr] at h
      | some r =>
        obtain ⟨found, st1⟩ := r
        simp only [hr] at h
        rw [appendFound_eq] at h
        exact ih _ _ _ _ _ hAr (hrec done n st cycles found st1 hAn hI hv hr) h
    | true =>
      cases hs : st.recStack n with
      | true =>
        simp only [dfsNeighbors, hv, hs, if_true, Bool.true_eq_false, if_false] at h
        cases hc : cycleStart n path with
        | none =>
          simp only [hc] at h
          exact ih _ _ _ _ _ hAr (hmiss done n st cycles hAn hI hv hs hc) h
        | some i =>
          simp only [hc] at h
          exact ih _ _ _ _ _ hAr (hstack done n st cycles i hAn hI hv hs hc) h
      | false =>
        simp only [dfsNeighbors, hv, hs, Bool.true_eq_false, if_false, Bool.false_eq_true] at h
        exact ih _ _ _ _ _ hAr (hdone done n st cycles hAn hI hv hs) h

/-- Invariant rule for the loop of `DetectCircularDependencies` over the models. -/
theorem detectLoop_rule (fuel : Nat) (graph : Graph) (A : String → Prop)
    (I : List String → DfsState → List CircularDependency → Prop)
    (hrec : ∀ done n st cycles found st', A n → I done st cycles → st.visited n = false →
      dfsDetectCycles fuel graph n st [] = some (found, st') →
      I (done ++ [n]) st' (cycles ++ found))
    (hskip : ∀ done n st cycles, A n → I done st cycles → st.visited n = true →
      I (done ++ [n]) st cycles) :
    ∀ (order done : List String) (st : DfsState) (cycles out : List CircularDependency)
      (st' : DfsState), (∀ n ∈ order, A n) → I done st cycles →
      detectLoop fuel graph order st cycles = some (out, st') → I (done ++ order) st' out := by
  intro order
  induction order with
  | nil =>
    intro done st cycles out st' _ hI h
    simp only [detectLoop, Option.some.injEq, Prod.mk.injEq] at h
    obtain ⟨h1, h2⟩ := h
    subst h1 h2
    simpa using hI
  | cons n rest ih =>
    intro done st cycles out st' hA hI h
    have hAn : A n := hA n (List.mem_cons_self _ _)
    have hAr : ∀ m ∈ rest, A m := fun m hm => hA m (List.mem_cons_of_mem _ hm)
    have e : done ++ n :: rest = (done ++ [n]) ++ rest := by simp
    rw [e]
    cases hv : st.visited n with
    | false =>
      simp only [detectLoop, hv, if_true] at h
      cases hr : dfsDetectCycles fuel graph n st [] with
      | none => simp [hr] at h
      | some r =>
        obtain ⟨found, st1⟩ := r
        simp only [hr] at h
        rw [appendFound_eq] at h
        exact ih _ _ _ _ _ hAr (hrec done n st cycles found st1 hAn hI hv hr) h
    | true =>
      simp only [detectLoop, hv, Bool.true_eq_false, if_false] at h
      exact ih _ _ _ _ _ hAr (hskip done n st cycles hAn hI hv) h

/-- Unfolding of one call of the search. -/
theorem dfsDetectCycles_succ (fuel : Nat) (graph : Graph) (node : String) (st : DfsState)
    (path : List String) (out : List CircularDependency) (st' : DfsState)
    (h : dfsDetectCycles (fuel + 1) graph node st path = some (out, st')) :
    ∃ st2, dfsNeighbors (dfsDetectCycles fuel graph) (path ++ [node]) (graphLookup graph node)
        { visited := setKey st.visited node true, recStack := setKey st.recStack node true } []
          = some (out, st2) ∧
      st' = { st2 with recStack := setKey st2.recStack node false } := by
  simp only [dfsDetectCycles] at h
  split at h
  · simp at h
  · rename_i cycles st2 heq
    simp only [Option.some.injEq, Prod.mk.injEq] at h
    obtain ⟨h1, h2⟩ := h
    subst h1
    exact ⟨st2, heq, h2.symm⟩
/-! ## What a call of the search does to `visited` and `recStack` -/

theorem Frame.refl (st : DfsState) : Frame st st := ⟨fun _ h => h, fun _ _ => rfl⟩

theorem Frame.stackVisited {st st' : DfsState} (h : Frame st st') (hs : StackVisited st) :
    StackVisited st' := by
  intro x hx
  rw [h.2 hs x] at hx
  exact h.1 x (hs x hx)

theorem Frame.trans {a b c : DfsState} (h1 : Frame a b) (h2 : Frame b c) : Frame a c := by
  refine ⟨fun x hx => h2.1 x (h1.1 x hx), fun hs x => ?_⟩
  rw [h2.2 (h1.stackVisited hs) x, h1.2 hs x]

theorem dfsNeighbors_frame
    (recur : String → DfsState → List String → Option (List CircularDependency × DfsState))
    (path : List String)
    (hrec : ∀ n st found st', st.visited n = false → recur n st path = some (found, st') →
      Frame st st')
    (nbrs : List String) (st : DfsState) (cycles out : List CircularDependency)
    (st' : DfsState) (h : dfsNeighbors recur path nbrs st cycles = some (out, st')) :
    Frame st st' := by
  have := dfsNeighbors_rule recur path (fun _ => True) (fun _ s _ => Frame st s)
    (fun _ n s _ found s' _ hI hv hr => hI.trans (hrec n s found s' hv hr))
    (fun _ _ _ _ _ _ hI _ _ _ => hI) (fun _ _ _ _ _ hI _ _ _ => hI)
    (fun _ _ _ _ _ hI _ _ => hI) nbrs [] st cycles out st' (fun _ _ => trivial)
    (Frame.refl st) h
  exact this

theorem dfsDetectCycles_frame (graph : Graph) :
    ∀ (fuel : Nat) (node : String) (st : DfsState) (path : List String)
      (out : List CircularDependency) (st' : DfsState),
      st.visited node = false → dfsDetectCycles fuel graph node st path = some (out, st') →
      Frame st st' ∧ st'.visited node = true := by
  intro fuel
  induction fuel with
  | zero => intro node st path out st' _ h; simp [dfsDetectCycles] at h
  | succ fuel ih =>
    intro node st path out st' hv h
    obtain ⟨st2, hloop, hst'⟩ := dfsDetectCycles_succ fuel graph node st path out st' h
    have hF := dfsNeighbors_frame (dfsDetectCycles fuel graph) (path ++ [node])
      (fun n s found s' hvn hr => (ih n s (path ++ [node]) found s' hvn hr).1) _ _ _ _ _ hloop
    subst hst'
    refine ⟨⟨fun x hx => ?_, fun hs x => ?_⟩, ?_⟩
    · apply hF.1
      simp only [setKey]
      split
      · rfl
      · exact hx
    · have hs1 : StackVisited
          { visited := setKey st.visited node true, recStack := setKey st.recStack node true } := by
        intro y hy
        simp only [setKey] at hy ⊢
        split
        · rfl
        · rename_i hne
          simp only [hne, if_false] at hy
          exact hs y hy
      have h2 := hF.2 hs1 x
      simp only [setKey] at h2 ⊢
      by_cases hx : x = node
      · subst hx
        simp only [if_true]
        cases hr : st.recStack x with
        | false => rfl
        | true => rw [hs x hr] at hv; exact absurd hv (by simp)
      · simp only [hx, if_false] at h2 ⊢
        exact h2
    · apply hF.1
      simp [setKey]

theorem detectLoop_frame (fuel : Nat) (graph : Graph) (order : List String) (st : DfsState)
    (cycles out : List CircularDependency) (st' : DfsState)
    (h : detectLoop fuel graph order st cycles = some (out, st')) : Frame st st' := by
  have := detectLoop_rule fuel graph (fun _ => True) (fun _ s _ => Frame st s)
    (fun _ n s _ found s' _ hI hv hr =>
      hI.trans (dfsDetectCycles_frame graph fuel n s [] found s' hv hr).1)
    (fun _ _ _ _ _ hI _ => hI) order [] st cycles out st' (fun _ _ => trivial)
    (Frame.refl st) h
  exact this
/-! ## Every reported cycle is a cycle of the graph -/

theorem PathInv.stackWithinVisited {g : Graph} {path : List String} {st : DfsState}
    (h : PathInv g path st) : StackVisited st :=
  fun x hx => h.2.2.2 x ((h.2.2.1 x).1 hx)

theorem PathInv.frame {g : Graph} {path : List String} {st st' : DfsState}
    (h : PathInv g path st) (hF : Frame st st') : PathInv g path st' := by
  refine ⟨h.1, h.2.1, fun x => ?_, fun x hx => hF.1 x (h.2.2.2 x hx)⟩
  rw [hF.2 h.stackWithinVisited x]
  exact h.2.2.1 x

theorem PathInv.push {g : Graph} {path : List String} {st : DfsState} {node : String}
    (h : PathInv g path st) (hv : st.visited node = false)
    (hlast : ∀ l ∈ path.getLast?, edge g l node) :
    PathInv g (path ++ [node])
      { visited := setKey st.visited node true, recStack := setKey st.recStack node true } := by
  have hnot : node ∉ path := fun hm => by
    rw [h.2.2.2 node hm] at hv
    exact absurd hv (by simp)
  refine ⟨?_, ?_, fun x => ?_, fun x hx => ?_⟩
  · rw [List.nodup_append]
    refine ⟨h.1, List.nodup_singleton _, ?_⟩
    intro a ha hb
    rw [List.mem_singleton] at hb
    rw [hb] at ha
    exact hnot ha
  · refine List.Chain'.append h.2.1 (List.chain'_singleton _) ?_
    intro x hx y hy
    simp only [List.head?_cons, Option.mem_def, Option.some.injEq] at hy
    subst hy
    exact hlast x hx
  · simp only [setKey, List.mem_append, List.mem_singleton]
    by_cases hx : x = node
    · simp [hx]
    · simp only [hx, if_false, or_false]
      exact h.2.2.1 x
  · simp only [setKey]
    rcases List.mem_append.1 hx with h1 | h1
    · split
      · rfl
      · exact h.2.2.2 x h1
    · rw [List.mem_singleton] at h1
      simp [h1]

theorem cycleStart_some (n : String) :
    ∀ (path : List String) (i : Nat), cycleStart n path = some i →
      ∃ tail, path.drop i = n :: tail := by
  intro path
  induction path with
  | nil => intro i h; simp [cycleStart] at h
  | cons a rest ih =>
    intro i h
    by_cases ha : a = n
    · simp only [cycleStart, ha, if_true, Option.some.injEq] at h
      subst h
      exact ⟨rest, by simp [ha]⟩
    · simp only [cycleStart, ha, if_false, Option.map_eq_some'] at h
      obtain ⟨j, hj, hji⟩ := h
      subst hji
      obtain ⟨tail, ht⟩ := ih j hj
      exact ⟨tail, by simpa using ht⟩

theorem cycleStart_none (n : String) :
    ∀ (path : List String), cycleStart n path = none → n ∉ path := by
  intro path
  induction path with
  | nil => intro _; simp
  | cons a rest ih =>
    intro h
    by_cases ha : a = n
    · simp [cycleStart, ha] at h
    · simp only [cycleStart, ha, if_false, Option.map_eq_none'] at h
      have := ih h
      simp only [List.mem_cons, not_or]
      exact ⟨fun e => ha e.symm, this⟩

/-- The path recorded at a back edge is a cycle of the graph. -/
theorem backEdge_isCycle (g : Graph) (path : List String) (st : DfsState) (node n : String)
    (i : Nat) (hP : PathInv g path st) (hlast : path.getLast? = some node)
    (he : edge g node n) (hc : cycleStart n path = some i) :
    IsCycleOf g (path.drop i ++ [n]) := by
  obtain ⟨tail, ht⟩ := cycleStart_some n path i hc
  refine ⟨n, tail, by rw [ht], ?_, ?_⟩
  · rw [← ht]
    exact hP.1.sublist (List.drop_sublist i path)
  · refine List.Chain'.append (hP.2.1.drop i) (List.chain'_singleton _) ?_
    intro x hx y hy
    simp only [List.head?_cons, Option.mem_def, Option.some.injEq] at hy
    subst hy
    have hlen : ¬ path.length ≤ i := by
      intro hle
      rw [List.drop_eq_nil_of_le hle] at ht
      exact absurd ht (by simp)
    rw [Option.mem_def, List.getLast?_drop, if_neg hlen, hlast] at hx
    injection hx with hx
    subst hx
    exact he

theorem dfsNeighbors_sound (g : Graph)
    (recur : String → DfsState → List String → Option (List CircularDependency × DfsState))
    (path : List String) (node : String)
    (hframe : ∀ n st found st', st.visited n = false → recur n st path = some (found, st') →
      Frame st st')
    (hrec : ∀ n st found st', PathInv g path st → st.visited n = false → edge g node n →
      recur n st path = some (found, st') → ∀ c ∈ found, IsCycleOf g c.Path)
    (hlast : path.getLast? = some node)
    (nbrs : List String) (st : DfsState) (cycles out : List CircularDependency)
    (st' : DfsState) (hP : PathInv g path st) (hA : ∀ n ∈ nbrs, edge g node n)
    (hc : ∀ c ∈ cycles, IsCycleOf g c.Path)
    (h : dfsNeighbors recur path nbrs st cycles = some (out, st')) :
    ∀ c ∈ out, IsCycleOf g c.Path := by
  have := dfsNeighbors_rule recur path (fun n => edge g node n)
    (fun _ s cs => PathInv g path s ∧ ∀ c ∈ cs, IsCycleOf g c.Path)
    (fun _ n s cs found s' hAn hI hv hr => by
      refine ⟨hI.1.frame (hframe n s found s' hv hr), fun c hc => ?_⟩
      rcases List.mem_append.1 hc with h1 | h1
      · exact hI.2 c h1
      · exact hrec n s found s' hI.1 hv hAn hr c h1)
    (fun _ n s cs i hAn hI _ _ hcs => by
      refine ⟨hI.1, fun c hc => ?_⟩
      rcases List.mem_append.1 hc with h1 | h1
      · exact hI.2 c h1
      · rw [List.mem_singleton] at h1
        subst h1
        exact backEdge_isCycle g path s node n i hI.1 hlast hAn hcs)
    (fun _ _ _ _ _ hI _ _ _ => hI) (fun _ _ _ _ _ hI _ _ => hI)
    nbrs [] st cycles out st' hA ⟨hP, hc⟩ h
  exact this.2

theorem dfsDetectCycles_sound (g : Graph) :
    ∀ (fuel : Nat) (node : String) (st : DfsState) (path : List String)
      (out : List CircularDependency) (st' : DfsState),
      PathInv g path st → st.visited node = false → (∀ l ∈ path.getLast?, edge g l node) →
      dfsDetectCycles fuel g node st path = some (out, st') →
      ∀ c ∈ out, IsCycleOf g c.Path := by
  intro fuel
  induction fuel with
  | zero => intro node st path out st' _ _ _ h; simp [dfsDetectCycles] at h
  | succ fuel ih =>
    intro node st path out st' hP hv hlast h
    obtain ⟨st2, hloop, _⟩ := dfsDetectCycles_succ fuel g node st path out st' h
    refine dfsNeighbors_sound g (dfsDetectCycles fuel g) (path ++ [node]) node
      (fun n s found s' hvn hr => (dfsDetectCycles_frame g fuel n s _ found s' hvn hr).1)
      (fun n s found s' hPs hvn he hr => ih n s (path ++ [node]) found s' hPs hvn
        (fun l hl => by
          rw [Option.mem_def, List.getLast?_concat] at hl
          injection hl with hl
          subst hl
          exact he) hr)
      (List.getLast?_concat _) _ _ [] out st2 (hP.push hv hlast) (fun n hn => hn)
      (fun c hc => absurd hc (List.not_mem_nil c)) hloop

theorem pathInv_init (g : Graph) : PathInv g [] initState :=
  ⟨List.nodup_nil, List.chain'_nil, fun x => by simp [initState], fun x hx => by simp at hx⟩

theorem detectLoop_sound (g : Graph) (fuel : Nat) (order : List String)
    (out : List CircularDependency) (st' : DfsState)
    (h : detectLoop fuel g order initState [] = some (out, st')) :
    ∀ c ∈ out, IsCycleOf g c.Path := by
  have := detectLoop_rule fuel g (fun _ => True)
    (fun _ s cs => PathInv g [] s ∧ ∀ c ∈ cs, IsCycleOf g c.Path)
    (fun _ n s cs found s' _ hI hv hr => by
      refine ⟨hI.1.frame (dfsDetectCycles_frame g fuel n s [] found s' hv hr).1,
        fun c hc => ?_⟩
      rcases List.mem_append.1 hc with h1 | h1
      · exact hI.2 c h1
      · exact dfsDetectCycles_sound g fuel n s [] found s' hI.1 hv
          (fun l hl => by simp at hl) hr c h1)
    (fun _ _ _ _ _ hI _ => hI)
    order [] initState [] out st' (fun _ _ => trivial)
    ⟨pathInv_init g, fun c hc => absurd hc (List.not_mem_nil c)⟩ h
  exact this.2
/-! ## The search returns: the recursion bound of `DetectCircularDependencies` suffices -/

theorem graphLookup_mem_entry (g : Graph) (u w : String) (h : w ∈ graphLookup g u) :
    ∃ deps, (u, deps) ∈ g ∧ w ∈ deps := by
  induction g with
  | nil => simp [graphLookup] at h
  | cons e rest ih =>
    obtain ⟨k, deps⟩ := e
    by_cases hk : k = u
    · simp only [graphLookup, hk, if_true] at h
      exact ⟨deps, by simp [hk], h⟩
    · simp only [graphLookup, hk, if_false] at h
      obtain ⟨d, h1, h2⟩ := ih h
      exact ⟨d, List.mem_cons_of_mem _ h1, h2⟩

theorem key_mem_graphNodes (g : Graph) (u : String) (h : u ∈ g.map Prod.fst) :
    u ∈ graphNodes g := by
  unfold graphNodes
  rw [List.mem_dedup]
  exact List.mem_append_left _ h

theorem edge_target_mem_graphNodes (g : Graph) (u w : String) (h : edge g u w) :
    w ∈ graphNodes g := by
  obtain ⟨deps, h1, h2⟩ := graphLookup_mem_entry g u w h
  unfold graphNodes
  rw [List.mem_dedup]
  apply List.mem_append_right
  rw [List.mem_flatten]
  exact ⟨deps, List.mem_map.2 ⟨(u, deps), h1, rfl⟩, h2⟩

theorem edge_source_mem_keys (g : Graph) (u w : String) (h : edge g u w) :
    u ∈ g.map Prod.fst := by
  obtain ⟨deps, h1, _⟩ := graphLookup_mem_entry g u w h
  exact List.mem_map.2 ⟨(u, deps), h1, rfl⟩

theorem filter_length_lt (l : List String) (p q : String → Bool)
    (hpq : ∀ a, p a = true → q a = true) (x : String) (hx : x ∈ l) (hq : q x = true)
    (hp : p x = false) : (l.filter p).length < (l.filter q).length := by
  induction l with
  | nil => simp at hx
  | cons a rest ih =>
    have hle : (rest.filter p).length ≤ (rest.filter q).length :=
      (List.monotone_filter_right rest hpq).length_le
    rcases List.mem_cons.1 hx with h1 | h1
    · subst h1
      simp only [List.filter_cons, hq, hp, if_true, List.length_cons]
      simp only [Bool.false_eq_true, if_false]
      omega
    · have := ih h1
      cases hpa : p a with
      | true =>
        simp only [List.filter_cons, hpa, hpq a hpa, if_true, List.length_cons]
        omega
      | false =>
        cases hqa : q a with
        | true =>
          simp only [List.filter_cons, hpa, hqa, if_true, List.length_cons]
          simp only [Bool.false_eq_true, if_false]
          omega
        | false =>
          simp only [List.filter_cons, hpa, hqa]
          simp only [Bool.false_eq_true, if_false]
          exact this

theorem unvisitedCount_frame (g : Graph) {st st' : DfsState} (h : Frame st st') :
    unvisitedCount g st' ≤ unvisitedCount g st := by
  unfold unvisitedCount
  apply List.Sublist.length_le
  apply List.monotone_filter_right
  intro a ha
  cases hv : st.visited a with
  | false => rfl
  | true => rw [h.1 a hv] at ha; exact absurd ha (by simp)

theorem unvisitedCount_mark (g : Graph) (st : DfsState) (r : String → Bool) (node : String)
    (hn : node ∈ graphNodes g) (hv : st.visited node = false) :
    unvisitedCount g { visited := setKey st.visited node true, recStack := r } <
      unvisitedCount g st := by
  unfold unvisitedCount
  refine filter_length_lt _ _ _ ?_ node hn (by simp [hv]) (by simp [setKey])
  intro a ha
  simp only [setKey] at ha
  by_cases h : a = node
  · simp [h] at ha
  · simpa [h] using ha

/-- Rule for the loop over the neighbours: it returns when every recursive call does. -/
theorem dfsNeighbors_returns
    (recur : String → DfsState → List String → Option (List CircularDependency × DfsState))
    (path : List String) (A : String → Prop) (I : DfsState → Prop)
    (hrec : ∀ n st, A n → I st → st.visited n = false →
      ∃ found st', recur n st path = some (found, st') ∧ I st') :
    ∀ (nbrs : List String) (st : DfsState) (cycles : List CircularDependency),
      (∀ n ∈ nbrs, A n) → I st →
      ∃ out st', dfsNeighbors recur path nbrs st cycles = some (out, st') := by
  intro nbrs
  induction nbrs with
  | nil => intro st cycles _ _; exact ⟨cycles, st, rfl⟩
  | cons n rest ih =>
    intro st cycles hA hI
    have hAr : ∀ m ∈ rest, A m := fun m hm => hA m (List.mem_cons_of_mem _ hm)
    cases hv : st.visited n with
    | false =>
      obtain ⟨found, st1, hr, hI1⟩ := hrec n st (hA n (List.mem_cons_self _ _)) hI hv
      obtain ⟨out, st', h⟩ := ih st1 (appendFound cycles found) hAr hI1
      exact ⟨out, st', by simp only [dfsNeighbors, hv, if_true, hr]; exact h⟩
    | true =>
      cases hs : st.recStack n with
      | true =>
        cases hc : cycleStart n path with
        | none =>
          obtain ⟨out, st', h⟩ := ih st cycles hAr hI
          exact ⟨out, st', by
            simp only [dfsNeighbors, hv, hs, if_true, Bool.true_eq_false, if_false, hc]
            exact h⟩
        | some i =>
          obtain ⟨out, st', h⟩ := ih st (cycles ++ [⟨path.drop i ++ [n]⟩]) hAr hI
          exact ⟨out, st', by
            simp only [dfsNeighbors, hv, hs, if_true, Bool.true_eq_false, if_false, hc]
            exact h⟩
      | false =>
        obtain ⟨out, st', h⟩ := ih st cycles hAr hI
        exact ⟨out, st', by
          simp only [dfsNeighbors, hv, hs, Bool.true_eq_false, if_false, Bool.false_eq_true]
          exact h⟩

theorem dfsDetectCycles_returns (g : Graph) :
    ∀ (fuel : Nat) (node : String) (st : DfsState) (path : List String),
      node ∈ graphNodes g → st.visited node = false → unvisitedCount g st ≤ fuel →
      ∃ out st', dfsDetectCycles fuel g node st path = some (out, st') := by
  intro fuel
  induction fuel with
  | zero =>
    intro node st path hn hv hle
    have := unvisitedCount_mark g st st.recStack node hn hv
    omega
  | succ fuel ih =>
    intro node st path hn hv hle
    have hlt := unvisitedCount_mark g st (setKey st.recStack node true) node hn hv
    obtain ⟨out, st2, h⟩ := dfsNeighbors_returns (dfsDetectCycles fuel g) (path ++ [node])
      (fun n => n ∈ graphNodes g) (fun s => unvisitedCount g s ≤ fuel)
      (fun n s hAn hI hvn => by
        obtain ⟨found, s', hr⟩ := ih n s (path ++ [node]) hAn hvn hI
        exact ⟨found, s', hr, le_trans (unvisitedCount_frame g
          (dfsDetectCycles_frame g fuel n s _ found s' hvn hr).1) hI⟩)
      (graphLookup g node)
      { visited := setKey st.visited node true, recStack := setKey st.recStack node true } []
      (fun n hn' => edge_target_mem_graphNodes g node n hn') (by omega)
    exact ⟨out, { st2 with recStack := setKey st2.recStack node false }, by
      simp only [dfsDetectCycles, h]⟩

theorem detectLoop_returns (g : Graph) (fuel : Nat) :
    ∀ (order : List String) (st : DfsState) (cycles : List CircularDependency),
      (∀ n ∈ order, n ∈ graphNodes g) → unvisitedCount g st ≤ fuel →
      ∃ out st', detectLoop fuel g order st cycles = some (out, st') := by
  intro order
  induction order with
  | nil => intro st cycles _ _; exact ⟨cycles, st, rfl⟩
  | cons n rest ih =>
    intro st cycles hA hI
    have hAr : ∀ m ∈ rest, m ∈ graphNodes g := fun m hm => hA m (List.mem_cons_of_mem _ hm)
    cases hv : st.visited n with
    | false =>
      obtain ⟨found, st1, hr⟩ :=
        dfsDetectCycles_returns g fuel n st [] (hA n (List.mem_cons_self _ _)) hv hI
      have hI1 := le_trans (unvisitedCount_frame g
        (dfsDetectCycles_frame g fuel n st [] found st1 hv hr).1) hI
      obtain ⟨out, st', h⟩ := ih st1 (appendFound cycles found) hAr hI1
      exact ⟨out, st', by simp only [detectLoop, hv, if_true, hr]; exact h⟩
    | true =>
      obtain ⟨out, st', h⟩ := ih st cycles hAr hI
      exact ⟨out, st', by
        simp only [detectLoop, hv, Bool.true_eq_false, if_false]
        exact h⟩

theorem keys_buildDependencyGraph (models : List (String × Model)) :
    keys (buildDependencyGraph models) = keys models := by
  simp [keys, buildDependencyGraph, List.map_map, Function.comp_def]

/-- With the keys of the model map as start nodes the whole detection returns,
and its result is the deduplicated output of the loop over the models. -/
theorem DetectCircularDependencies_returns (models : List (String × Model))
    (order : List String) (hord : ∀ n ∈ order, n ∈ keys models) :
    ∃ raw st', detectLoop (graphNodes (buildDependencyGraph models)).length
        (buildDependencyGraph models) order initState [] = some (raw, st') ∧
      DetectCircularDependencies models order = some (dedupeCycles raw) := by
  obtain ⟨raw, st', h⟩ := detectLoop_returns (buildDependencyGraph models)
    (graphNodes (buildDependencyGraph models)).length order initState []
    (fun n hn => key_mem_graphNodes _ n (by
      have := hord n hn
      rw [← keys_buildDependencyGraph] at this
      exact this))
    (by unfold unvisitedCount; exact List.length_filter_le _ _)
  exact ⟨raw, st', h, by simp only [DetectCircularDependencies, h]⟩
/-! ## The search is exhaustive: without a report, the explored part is acyclic -/

theorem finished_frame {st st' : DfsState} (hF : Frame st st') (hs : StackVisited st)
    {u : String} (h : finished st u) : finished st' u :=
  ⟨hF.1 u h.1, by rw [hF.2 hs u]; exact h.2⟩

theorem Closed.reach {g : Graph} {st : DfsState} (h : Closed g st) {u w : String}
    (hu : finished st u) (hr : Relation.ReflTransGen (edge g) u w) : finished st w := by
  induction hr with
  | refl => exact hu
  | tail _ hbc ih => exact h.1 _ _ ih hbc

theorem closed_init (g : Graph) : Closed g initState :=
  ⟨fun u _ hu _ => by simp [finished, initState] at hu,
    fun u hu => by simp [finished, initState] at hu⟩

theorem Closed.pushNode {g : Graph} {st : DfsState} {node : String} (h : Closed g st)
    (hv : st.visited node = false) :
    Closed g
      { visited := setKey st.visited node true, recStack := setKey st.recStack node true } := by
  have key : ∀ u, finished
      { visited := setKey st.visited node true, recStack := setKey st.recStack node true } u ↔
      finished st u := by
    intro u
    simp only [finished, setKey]
    by_cases hu : u = node
    · subst hu
      simp [hv]
    · simp [hu]
  exact ⟨fun u w hu he => (key w).2 (h.1 u w ((key u).1 hu) he),
    fun u hu => h.2 u ((key u).1 hu)⟩

/-- Closing a call: when all successors of `node` are finished, `node` may be
added to the finished nodes. -/
theorem Closed.pop {g : Graph} {st2 : DfsState} {node : String} (h : Closed g st2)
    (hv : st2.visited node = true) (hr : st2.recStack node = true)
    (hsucc : ∀ n, edge g node n → finished st2 n) :
    Closed g { st2 with recStack := setKey st2.recStack node false } := by
  have key : ∀ u, finished { st2 with recStack := setKey st2.recStack node false } u ↔
      (u = node ∨ finished st2 u) := by
    intro u
    simp only [finished, setKey]
    by_cases hu : u = node
    · subst hu
      simp [hv]
    · simp [hu]
  refine ⟨fun u w hu he => ?_, fun u hu ht => ?_⟩
  · rw [key] at hu ⊢
    right
    rcases hu with hu | hu
    · subst hu
      exact hsucc w he
    · exact h.1 u w hu he
  · rw [key] at hu
    by_cases hn : u = node
    · subst hn
      obtain ⟨b, hb, hb2⟩ := Relation.TransGen.head'_iff.1 ht
      have := h.reach (hsucc b hb) hb2
      rw [this.2] at hr
      exact absurd hr (by simp)
    · rcases hu with hu | hu
      · exact hn hu
      · exact h.2 u hu ht

theorem dfsNeighbors_complete (g : Graph)
    (recur : String → DfsState → List String → Option (List CircularDependency × DfsState))
    (path : List String) (node : String)
    (hframe : ∀ n st found st', st.visited n = false → recur n st path = some (found, st') →
      Frame st st' ∧ st'.visited n = true)
    (hrec : ∀ n st found st', PathInv g path st → st.visited n = false → edge g node n →
      Closed g st → recur n st path = some (found, st') → found = [] → Closed g st')
    (nbrs : List String) (st : DfsState) (out : List CircularDependency)
    (st' : DfsState) (hP : PathInv g path st) (hA : ∀ n ∈ nbrs, edge g node n)
    (hC : Closed g st)
    (h : dfsNeighbors recur path nbrs st [] = some (out, st')) (hout : out = []) :
    Closed g st' ∧ ∀ n ∈ nbrs, finished st' n := by
  have := dfsNeighbors_rule recur path (fun n => edge g node n)
    (fun done s cs => PathInv g path s ∧ (cs = [] → Closed g s ∧ ∀ n ∈ done, finished s n))
    (fun done n s cs found s' hAn hI hv hr => by
      have hF := hframe n s found s' hv hr
      refine ⟨hI.1.frame hF.1, fun hnil => ?_⟩
      obtain ⟨hcs, hfound⟩ := List.append_eq_nil.1 hnil
      obtain ⟨hCs, hdone⟩ := hI.2 hcs
      refine ⟨hrec n s found s' hI.1 hv hAn hCs hr hfound, fun m hm => ?_⟩
      rcases List.mem_append.1 hm with h1 | h1
      · exact finished_frame hF.1 hI.1.stackWithinVisited (hdone m h1)
      · rw [List.mem_singleton] at h1
        subst h1
        refine ⟨hF.2, ?_⟩
        rw [hF.1.2 hI.1.stackWithinVisited m]
        cases hrs : s.recStack m with
        | false => rfl
        | true => rw [hI.1.stackWithinVisited m hrs] at hv; exact absurd hv (by simp))
    (fun _ _ _ _ _ _ hI _ _ _ => ⟨hI.1, fun hnil => by simp at hnil⟩)
    (fun _ n s _ _ hI _ hs hc =>
      absurd ((hI.1.2.2.1 n).1 hs) (cycleStart_none n path hc))
    (fun done n s cs _ hI hv hs => by
      refine ⟨hI.1, fun hnil => ?_⟩
      obtain ⟨hCs, hdone⟩ := hI.2 hnil
      refine ⟨hCs, fun m hm => ?_⟩
      rcases List.mem_append.1 hm with h1 | h1
      · exact hdone m h1
      · rw [List.mem_singleton] at h1
        subst h1
        exact ⟨hv, hs⟩)
    nbrs [] st [] out st' hA ⟨hP, fun _ => ⟨hC, fun n hn => absurd hn (List.not_mem_nil n)⟩⟩ h
  obtain ⟨h1, h2⟩ := this.2 hout
  exact ⟨h1, fun n hn => h2 n (by simpa using hn)⟩

theorem dfsDetectCycles_complete (g : Graph) :
    ∀ (fuel : Nat) (node : String) (st : DfsState) (path : List String)
      (out : List CircularDependency) (st' : DfsState),
      PathInv g path st → st.visited node = false → (∀ l ∈ path.getLast?, edge g l node) →
      Closed g st → dfsDetectCycles fuel g node st path = some (out, st') → out = [] →
      Closed g st' := by
  intro fuel
  induction fuel with
  | zero => intro node st path out st' _ _ _ _ h; simp [dfsDetectCycles] at h
  | succ fuel ih =>
    intro node st path out st' hP hv hlast hC h hout
    obtain ⟨st2, hloop, hst'⟩ := dfsDetectCycles_succ fuel g node st path out st' h
    have hP1 := hP.push hv hlast
    have hF := dfsNeighbors_frame (dfsDetectCycles fuel g) (path ++ [node])
      (fun n s found s' hvn hr => (dfsDetectCycles_frame g fuel n s _ found s' hvn hr).1)
      _ _ _ _ _ hloop
    have hP2 := hP1.frame hF
    have hmem : node ∈ path ++ [node] := by simp
    obtain ⟨hC2, hsucc⟩ := dfsNeighbors_complete g (dfsDetectCycles fuel g) (path ++ [node]) node
      (fun n s found s' hvn hr => dfsDetectCycles_frame g fuel n s _ found s' hvn hr)
      (fun n s found s' hPs hvn he hCs hr hf => ih n s (path ++ [node]) found s' hPs hvn
        (fun l hl => by
          rw [Option.mem_def, List.getLast?_concat] at hl
          injection hl with hl
          subst hl
          exact he) hCs hr hf)
      _ _ out st2 hP1 (fun n hn => hn) (hC.pushNode hv) hloop hout
    subst hst'
    exact hC2.pop (hP2.2.2.2 node hmem) ((hP2.2.2.1 node).2 hmem) hsucc

theorem detectLoop_complete (g : Graph) (fuel : Nat) (order : List String)
    (out : List CircularDependency) (st' : DfsState)
    (h : detectLoop fuel g order initState [] = some (out, st')) (hout : out = []) :
    Closed g st' ∧ ∀ n ∈ order, finished st' n := by
  have := detectLoop_rule fuel g (fun _ => True)
    (fun done s cs => PathInv g [] s ∧ (cs = [] → Closed g s ∧ ∀ n ∈ done, finished s n))
    (fun done n s cs found s' _ hI hv hr => by
      have hF := dfsDetectCycles_frame g fuel n s [] found s' hv hr
      refine ⟨hI.1.frame hF.1, fun hnil => ?_⟩
      obtain ⟨hcs, hfound⟩ := List.append_eq_nil.1 hnil
      obtain ⟨hCs, hdone⟩ := hI.2 hcs
      refine ⟨dfsDetectCycles_complete g fuel n s [] found s' hI.1 hv
        (fun l hl => by simp at hl) hCs hr hfound, fun m hm => ?_⟩
      rcases List.mem_append.1 hm with h1 | h1
      · exact finished_frame hF.1 hI.1.stackWithinVisited (hdone m h1)
      · rw [List.mem_singleton] at h1
        subst h1
        refine ⟨hF.2, ?_⟩
        rw [hF.1.2 hI.1.stackWithinVisited m]
        cases hrs : s.recStack m with
        | false => rfl
        | true => rw [hI.1.stackWithinVisited m hrs] at hv; exact absurd hv (by simp))
    (fun done n s cs _ hI hv => by
      refine ⟨hI.1, fun hnil => ?_⟩
      obtain ⟨hCs, hdone⟩ := hI.2 hnil
      refine ⟨hCs, fun m hm => ?_⟩
      rcases List.mem_append.1 hm with h1 | h1
      · exact hdone m h1
      · rw [List.mem_singleton] at h1
        subst h1
        refine ⟨hv, ?_⟩
        cases hrs : s.recStack m with
        | false => rfl
        | true => exact absurd ((hI.1.2.2.1 m).1 hrs) (List.not_mem_nil m))
    order [] initState [] out st' (fun _ _ => trivial)
    ⟨pathInv_init g, fun _ => ⟨closed_init g, fun n hn => absurd hn (List.not_mem_nil n)⟩⟩ h
  obtain ⟨h1, h2⟩ := this.2 hout
  exact ⟨h1, fun n hn => h2 n (by simpa using hn)⟩
/-! ## Facts about `normalizeCycle` -/

theorem strLess_iff (a b : String) : strLess a b = true ↔ a < b := by
  simp [strLess]

theorem findMin_fold (path : List String) :
    ∀ (l : List String) (start m : Nat),
      (∀ j (hj : j < l.length), path.getD (start + j) "" = l[j]) →
      ((l.enumFrom start).foldl
          (fun minIdx e => if strLess e.2 (path.getD minIdx "") then e.1 else minIdx) m = m ∨
        (l.enumFrom start).foldl
          (fun minIdx e => if strLess e.2 (path.getD minIdx "") then e.1 else minIdx) m
            < start + l.length) ∧
      path.getD ((l.enumFrom start).foldl
          (fun minIdx e => if strLess e.2 (path.getD minIdx "") then e.1 else minIdx) m) ""
        ≤ path.getD m "" ∧
      ∀ x ∈ l, path.getD ((l.enumFrom start).foldl
          (fun minIdx e => if strLess e.2 (path.getD minIdx "") then e.1 else minIdx) m) ""
        ≤ x := by
  intro l
  induction l with
  | nil => intro start m _; simp
  | cons a rest ih =>
    intro start m hget
    have ha : path.getD start "" = a := by
      have := hget 0 (by simp)
      simpa using this
    have hrest : ∀ j (hj : j < rest.length), path.getD (start + 1 + j) "" = rest[j] := by
      intro j hj
      have := hget (j + 1) (by simp; omega)
      simp only [List.getElem_cons_succ] at this
      rw [← this]
      congr 1
      omega
    simp only [List.enumFrom_cons, List.foldl_cons, List.length_cons, List.mem_cons,
      forall_eq_or_imp]
    cases hlt : strLess a (path.getD m "") with
    | true =>
      obtain ⟨h1, h2, h3⟩ := ih (start + 1) start hrest
      simp only [if_true]
      have hlt2 : a < path.getD m "" := (strLess_iff _ _).1 hlt
      rw [ha] at h2
      refine ⟨?_, le_trans h2 (le_of_lt hlt2), h2, h3⟩
      right
      rcases h1 with h1 | h1
      · rw [h1]; omega
      · omega
    | false =>
      obtain ⟨h1, h2, h3⟩ := ih (start + 1) m hrest
      simp only [Bool.false_eq_true, if_false]
      have hge : path.getD m "" ≤ a := by
        apply not_lt.1
        intro hcon
        rw [(strLess_iff _ _).2 hcon] at hlt
        exact absurd hlt (by simp)
      refine ⟨?_, h2, le_trans h2 hge, h3⟩
      rcases h1 with h1 | h1
      · exact Or.inl h1
      · right; omega

theorem findMinIdx_lt (path : List String) (h : path ≠ []) :
    findMinIdx path < path.length := by
  have hpos : 0 < path.length := List.length_pos.2 h
  obtain ⟨h1, _, _⟩ := findMin_fold path path 0 0 (fun j hj => by
    rw [Nat.zero_add]; exact List.getD_eq_getElem _ _ hj)
  unfold findMinIdx List.enum
  rcases h1 with h1 | h1
  · rw [h1]; exact hpos
  · omega

theorem findMinIdx_le (path : List String) :
    ∀ x ∈ path, path.getD (findMinIdx path) "" ≤ x := by
  obtain ⟨_, _, h3⟩ := findMin_fold path path 0 0 (fun j hj => by
    rw [Nat.zero_add]; exact List.getD_eq_getElem _ _ hj)
  exact h3

/-- On a closed path `c ++ [head of c]`, `normalizeCycle` is the rotation of `c`
to the index found by the minimum search. -/
theorem normalizeCycle_closed (x : String) (body : List String) :
    normalizeCycle (x :: body ++ [x]) =
      (x :: body).rotate (findMinIdx (x :: body)) := by
  have hm := findMinIdx_lt (x :: body) (by simp)
  unfold normalizeCycle
  have hlen : ¬ (x :: body ++ [x]).length ≤ 1 := by simp
  rw [if_neg hlen]
  have hhead : (x :: body ++ [x]).head? = (x :: body ++ [x]).getLast? := by
    rw [List.getLast?_concat]; rfl
  simp only [hhead, if_true, List.dropLast_concat]
  apply List.ext_getElem
  · simp
  · intro n hn1 hn2
    have hn : n < (x :: body).length := by simpa using hn1
    have hmod : (findMinIdx (x :: body) + n) % (x :: body).length < (x :: body).length :=
      Nat.mod_lt _ (by omega)
    rw [List.getElem_rotate, List.getElem_map, List.getElem_range,
      List.getD_eq_getElem _ _ hmod]
    congr 1
    rw [Nat.add_comm]

/-- For pairwise distinct nodes, rotating to the minimum search's index gives
the same list for every rotation of the input. -/
theorem rotate_findMinIdx_rotate (cyc : List String) (hc : cyc.Nodup) (hne : cyc ≠ [])
    (k : Nat) :
    (cyc.rotate k).rotate (findMinIdx (cyc.rotate k)) = cyc.rotate (findMinIdx cyc) := by
  have hn : 0 < cyc.length := List.length_pos.2 hne
  have hne' : cyc.rotate k ≠ [] := fun e => hne (List.rotate_eq_nil_iff.1 e)
  have hm := findMinIdx_lt cyc hne
  have hm' := findMinIdx_lt (cyc.rotate k) hne'
  have hmod : (findMinIdx (cyc.rotate k) + k) % cyc.length < cyc.length := Nat.mod_lt _ hn
  -- the element found in the rotated list, as an element of `cyc`
  have e1 : (cyc.rotate k).getD (findMinIdx (cyc.rotate k)) "" =
      cyc[(findMinIdx (cyc.rotate k) + k) % cyc.length] := by
    rw [List.getD_eq_getElem _ _ hm', List.getElem_rotate]
  have e2 : cyc.getD (findMinIdx cyc) "" = cyc[findMinIdx cyc] :=
    List.getD_eq_getElem _ _ hm
  have le1 : cyc[findMinIdx cyc] ≤ cyc[(findMinIdx (cyc.rotate k) + k) % cyc.length] := by
    rw [← e2]
    exact findMinIdx_le cyc _ (List.getElem_mem _)
  have le2 : cyc[(findMinIdx (cyc.rotate k) + k) % cyc.length] ≤ cyc[findMinIdx cyc] := by
    rw [← e1]
    exact findMinIdx_le (cyc.rotate k) _ (List.mem_rotate.2 (List.getElem_mem _))
  have heq : (findMinIdx (cyc.rotate k) + k) % cyc.length = findMinIdx cyc :=
    (hc.getElem_inj_iff).1 (le_antisymm le2 le1)
  rw [List.rotate_rotate, ← List.rotate_mod, Nat.add_comm k, heq]
/-! ## Facts about `dedupeCycles` -/

theorem dedupeLoop_snoc (c : CircularDependency) :
    ∀ (cs : List CircularDependency) (seen : String → Bool) (unique : List CircularDependency),
      ((seen (cycleKey c) = true ∨ ∃ d ∈ cs, cycleKey d = cycleKey c) →
        dedupeLoop (cs ++ [c]) seen unique = dedupeLoop cs seen unique) ∧
      ((seen (cycleKey c) = false ∧ ∀ d ∈ cs, cycleKey d ≠ cycleKey c) →
        dedupeLoop (cs ++ [c]) seen unique = dedupeLoop cs seen unique ++ [c]) := by
  intro cs
  induction cs with
  | nil =>
    intro seen unique
    constructor
    · rintro (h | ⟨d, hd, _⟩)
      · simp [dedupeLoop, h]
      · simp at hd
    · rintro ⟨h, _⟩
      simp [dedupeLoop, h]
  | cons a rest ih =>
    intro seen unique
    cases hs : seen (cycleKey a) with
    | false =>
      have hset : ∀ k, setKey seen (cycleKey a) true k = true ↔
          (k = cycleKey a ∨ seen k = true) := by
        intro k
        simp only [setKey]
        by_cases hk : k = cycleKey a
        · simp [hk]
        · simp [hk]
      obtain ⟨ih1, ih2⟩ := ih (setKey seen (cycleKey a) true) (unique ++ [a])
      simp only [List.cons_append, dedupeLoop, hs, if_true]
      constructor
      · rintro (h | ⟨d, hd, hdk⟩)
        · exact ih1 (Or.inl ((hset _).2 (Or.inr h)))
        · rcases List.mem_cons.1 hd with h1 | h1
          · subst h1
            exact ih1 (Or.inl ((hset _).2 (Or.inl hdk.symm)))
          · exact ih1 (Or.inr ⟨d, h1, hdk⟩)
      · rintro ⟨h, hall⟩
        apply ih2
        constructor
        · cases hk : setKey seen (cycleKey a) true (cycleKey c) with
          | false => rfl
          | true =>
            rcases (hset _).1 hk with h1 | h1
            · exact absurd h1.symm (hall a (List.mem_cons_self _ _))
            · rw [h1] at h; exact absurd h (by simp)
        · exact fun d hd => hall d (List.mem_cons_of_mem _ hd)
    | true =>
      obtain ⟨ih1, ih2⟩ := ih seen unique
      simp only [List.cons_append, dedupeLoop, hs, Bool.true_eq_false, if_false]
      constructor
      · rintro (h | ⟨d, hd, hdk⟩)
        · exact ih1 (Or.inl h)
        · rcases List.mem_cons.1 hd with h1 | h1
          · subst h1
            rw [hdk] at hs
            exact ih1 (Or.inl hs)
          · exact ih1 (Or.inr ⟨d, h1, hdk⟩)
      · rintro ⟨h, hall⟩
        exact ih2 ⟨h, fun d hd => hall d (List.mem_cons_of_mem _ hd)⟩

/-- A cycle whose key occurred earlier is dropped. -/
theorem dedupeCycles_snoc_seen (cs : List CircularDependency) (c : CircularDependency)
    (h : ∃ d ∈ cs, cycleKey d = cycleKey c) :
    dedupeCycles (cs ++ [c]) = dedupeCycles cs :=
  (dedupeLoop_snoc c cs (fun _ => false) []).1 (Or.inr h)

/-- A cycle whose key did not occur earlier is kept, after the earlier ones. -/
theorem dedupeCycles_snoc_new (cs : List CircularDependency) (c : CircularDependency)
    (h : ∀ d ∈ cs, cycleKey d ≠ cycleKey c) :
    dedupeCycles (cs ++ [c]) = dedupeCycles cs ++ [c] :=
  (dedupeLoop_snoc c cs (fun _ => false) []).2 ⟨rfl, h⟩

theorem dedupeCycles_sublist (cs : List CircularDependency) :
    (dedupeCycles cs).Sublist cs := by
  induction cs using List.reverseRecOn with
  | nil => exact List.Sublist.refl _
  | append_singleton cs c ih =>
    by_cases h : ∃ d ∈ cs, cycleKey d = cycleKey c
    · rw [dedupeCycles_snoc_seen cs c h]
      exact ih.trans (List.sublist_append_left _ _)
    · rw [dedupeCycles_snoc_new cs c (fun d hd e => h ⟨d, hd, e⟩)]
      exact List.Sublist.append ih (List.Sublist.refl _)

theorem dedupeCycles_keys_distinct (cs : List CircularDependency) :
    (dedupeCycles cs).Pairwise fun a b => cycleKey a ≠ cycleKey b := by
  induction cs using List.reverseRecOn with
  | nil => exact List.Pairwise.nil
  | append_singleton cs c ih =>
    by_cases h : ∃ d ∈ cs, cycleKey d = cycleKey c
    · rw [dedupeCycles_snoc_seen cs c h]
      exact ih
    · rw [dedupeCycles_snoc_new cs c (fun d hd e => h ⟨d, hd, e⟩), List.pairwise_append]
      refine ⟨ih, List.pairwise_singleton _ _, ?_⟩
      intro a ha b hb
      rw [List.mem_singleton] at hb
      subst hb
      exact fun e => h ⟨a, (dedupeCycles_sublist cs).subset ha, e⟩

theorem dedupeCycles_keys_kept (cs : List CircularDependency) :
    ∀ c ∈ cs, ∃ d ∈ dedupeCycles cs, cycleKey d = cycleKey c := by
  induction cs using List.reverseRecOn with
  | nil => intro c hc; simp at hc
  | append_singleton cs c ih =>
    intro x hx
    by_cases h : ∃ d ∈ cs, cycleKey d = cycleKey c
    · rw [dedupeCycles_snoc_seen cs c h]
      rcases List.mem_append.1 hx with h1 | h1
      · exact ih x h1
      · rw [List.mem_singleton] at h1
        subst h1
        obtain ⟨d, hd, hdk⟩ := h
        obtain ⟨d2, hd2, hdk2⟩ := ih d hd
        exact ⟨d2, hd2, hdk2.trans hdk⟩
    · rw [dedupeCycles_snoc_new cs c (fun d hd e => h ⟨d, hd, e⟩)]
      rcases List.mem_append.1 hx with h1 | h1
      · obtain ⟨d, hd, hdk⟩ := ih x h1
        exact ⟨d, List.mem_append_left _ hd, hdk⟩
      · rw [List.mem_singleton] at h1
        subst h1
        exact ⟨x, List.mem_append_right _ (List.mem_singleton_self _), rfl⟩

theorem dedupeCycles_ne_nil (cs : List CircularDependency) (h : cs ≠ []) :
    dedupeCycles cs ≠ [] := by
  cases cs with
  | nil => exact absurd rfl h
  | cons c rest =>
    obtain ⟨d, hd, _⟩ := dedupeCycles_keys_kept (c :: rest) c (List.mem_cons_self _ _)
    exact List.ne_nil_of_mem hd
/-! ## Reported cycles and cycles of the graph -/

theorem chain_transGen (g : Graph) (x : String) :
    ∀ (body : List String) (a : String), List.Chain (edge g) a (body ++ [x]) →
      Relation.TransGen (edge g) a x := by
  intro body
  induction body with
  | nil =>
    intro a h
    simp only [List.nil_append, List.chain_cons, List.Chain.nil, and_true] at h
    exact Relation.TransGen.single h
  | cons b rest ih =>
    intro a h
    simp only [List.cons_append, List.chain_cons] at h
    exact Relation.TransGen.head h.1 (ih b h.2)

theorem IsCycleOf.transGen {g : Graph} {p : List String} (h : IsCycleOf g p) :
    ∃ x, Relation.TransGen (edge g) x x := by
  obtain ⟨x, body, hp, _, hch⟩ := h
  subst hp
  exact ⟨x, chain_transGen g x body x hch⟩

theorem acyclic_of_rank (g : Graph) (rank : String → Nat)
    (h : ∀ u w, edge g u w → rank w < rank u) (u : String) :
    ¬ Relation.TransGen (edge g) u u := by
  have key : ∀ a b, Relation.TransGen (edge g) a b → rank b < rank a := by
    intro a b hab
    induction hab with
    | single h1 => exact h _ _ h1
    | tail _ h2 ih => exact lt_trans (h _ _ h2) ih
  intro hu
  exact lt_irrefl _ (key u u hu)

theorem not_self_edge (models : List (String × Model)) (m : String) :
    ¬ edge (buildDependencyGraph models) m m := by
  intro h
  unfold edge at h
  rcases graphLookup_build_cases models m with h1 | ⟨model, _, h1⟩
  · rw [h1] at h; simp at h
  · rw [h1, mem_modelDeps] at h
    exact h.1 rfl

theorem edge_build_iff (models : List (String × Model)) (hnd : (keys models).Nodup)
    (u w : String) :
    edge (buildDependencyGraph models) u w ↔
      ∃ model, (u, model) ∈ models ∧ w ≠ u ∧ ∃ rel ∈ model.Related, contributes w rel := by
  unfold edge
  constructor
  · intro h
    rcases graphLookup_build_cases models u with h1 | ⟨model, hm, h1⟩
    · rw [h1] at h; simp at h
    · rw [h1, mem_modelDeps] at h
      exact ⟨model, hm, h⟩
  · rintro ⟨model, hm, h⟩
    rw [graphLookup_build_of_mem models u model hnd hm, mem_modelDeps]
    exact h

/-- A reported cycle has at least three entries, is closed, follows edges
and repeats no node before its closing entry. -/
theorem IsCycleOf.shape {models : List (String × Model)} {p : List String}
    (h : IsCycleOf (buildDependencyGraph models) p) :
    3 ≤ p.length ∧ p.head? = p.getLast? ∧
      List.Chain' (edge (buildDependencyGraph models)) p ∧ p.dropLast.Nodup := by
  obtain ⟨x, body, hp, hnd, hch⟩ := h
  subst hp
  refine ⟨?_, ?_, hch, ?_⟩
  · cases body with
    | nil =>
      have hxx : edge (buildDependencyGraph models) x x := List.chain'_pair.1 hch
      exact absurd hxx (not_self_edge models x)
    | cons b rest => simp
  · rw [List.getLast?_concat]; rfl
  · rw [List.dropLast_concat]; exact hnd

/-- The detection returns; what it returns is a sublist of cycles of the graph,
and it is empty exactly when the graph has no cycle. -/
theorem detect_spec (models : List (String × Model)) (order : List String)
    (hord : order.Perm (keys models)) :
    ∃ r, DetectCircularDependencies models order = some r ∧
      (∀ c ∈ r, IsCycleOf (buildDependencyGraph models) c.Path) ∧
      (r = [] ↔ ∀ u, ¬ Relation.TransGen (edge (buildDependencyGraph models)) u u) := by
  obtain ⟨raw, st', hloop, hres⟩ :=
    DetectCircularDependencies_returns models order (fun n hn => hord.subset hn)
  have hsound := detectLoop_sound _ _ _ _ _ hloop
  refine ⟨dedupeCycles raw, hres,
    fun c hc => hsound c ((dedupeCycles_sublist raw).subset hc), ?_, ?_⟩
  · intro hnil u hu
    have hraw : raw = [] := by
      by_contra hne
      exact dedupeCycles_ne_nil raw hne hnil
    obtain ⟨hC, hfin⟩ := detectLoop_complete _ _ _ _ _ hloop hraw
    obtain ⟨b, hb, _⟩ := Relation.TransGen.head'_iff.1 hu
    have hkey : u ∈ keys models := by
      rw [← keys_buildDependencyGraph]
      exact edge_source_mem_keys _ u b hb
    exact hC.2 u (hfin u (hord.symm.subset hkey)) hu
  · intro hacyc
    cases hraw : raw with
    | nil => rfl
    | cons c rest =>
      obtain ⟨x, hx⟩ := (hsound c (by rw [hraw]; exact List.mem_cons_self _ _)).transGen
      exact absurd hx (hacyc x)
/-! ## The search on a graph that is one simple cycle -/

theorem getD_not_mem_take (ws : List String) (hnd : ws.Nodup) (j : Nat) (hj : j < ws.length) :
    ws.getD j "" ∉ ws.take j := by
  rw [List.getD_eq_getElem _ _ hj, List.mem_take_iff_getElem]
  rintro ⟨i, hi, he⟩
  have hi' : i < j := lt_of_lt_of_le hi (min_le_left _ _)
  have := (hnd.getElem_inj_iff).1 he
  omega

theorem take_succ_getD (ws : List String) (j : Nat) (hj : j < ws.length) :
    ws.take j ++ [ws.getD j ""] = ws.take (j + 1) := by
  rw [List.getD_eq_getElem _ _ hj, List.take_succ, List.getElem?_eq_getElem hj]
  rfl

theorem setKey_true_iff (m : String → Bool) (k x : String) :
    setKey m k true x = true ↔ (x = k ∨ m x = true) := by
  simp only [setKey]
  by_cases h : x = k
  · simp [h]
  · simp [h]

theorem detectLoop_all_visited (fuel : Nat) (g : Graph) :
    ∀ (order : List String) (st : DfsState) (cycles : List CircularDependency),
      (∀ n ∈ order, st.visited n = true) →
      detectLoop fuel g order st cycles = some (cycles, st) := by
  intro order
  induction order with
  | nil => intro st cycles _; rfl
  | cons n rest ih =>
    intro st cycles h
    have hn := h n (List.mem_cons_self _ _)
    simp only [detectLoop, hn, Bool.true_eq_false, if_false]
    exact ih st cycles (fun m hm => h m (List.mem_cons_of_mem _ hm))

/-- On a graph whose nodes `ws` each have exactly the next one as dependency, the
search entered at position `j` with the earlier nodes on the stack walks to the
end and reports the whole ring once. -/
theorem ring_dfs (g : Graph) (ws : List String) (hnd : ws.Nodup)
    (hsucc : ∀ j, j < ws.length →
      graphLookup g (ws.getD j "") = [ws.getD ((j + 1) % ws.length) ""]) :
    ∀ (fuel j : Nat) (st : DfsState) (out : List CircularDependency) (st' : DfsState),
      j < ws.length →
      (∀ x, st.visited x = true ↔ x ∈ ws.take j) →
      (∀ x, st.recStack x = true ↔ x ∈ ws.take j) →
      dfsDetectCycles fuel g (ws.getD j "") st (ws.take j) = some (out, st') →
      out = [⟨ws ++ [ws.getD 0 ""]⟩] ∧ ∀ x, st'.visited x = true ↔ x ∈ ws := by
  intro fuel
  induction fuel with
  | zero => intro j st out st' _ _ _ h; simp [dfsDetectCycles] at h
  | succ fuel ih =>
    intro j st out st' hj hv hr h
    obtain ⟨st2, hloop, hst'⟩ := dfsDetectCycles_succ fuel g _ st _ out st' h
    rw [hsucc j hj, take_succ_getD ws j hj] at hloop
    have hv1 : ∀ x, setKey st.visited (ws.getD j "") true x = true ↔ x ∈ ws.take (j + 1) := by
      intro x
      rw [setKey_true_iff, ← take_succ_getD ws j hj, List.mem_append, List.mem_singleton, hv x]
      exact or_comm
    have hr1 : ∀ x, setKey st.recStack (ws.getD j "") true x = true ↔ x ∈ ws.take (j + 1) := by
      intro x
      rw [setKey_true_iff, ← take_succ_getD ws j hj, List.mem_append, List.mem_singleton, hr x]
      exact or_comm
    have hvis' : ∀ x, st'.visited x = st2.visited x := by intro x; rw [hst']
    by_cases hlast : j + 1 < ws.length
    · rw [Nat.mod_eq_of_lt hlast] at hloop
      have hvn : setKey st.visited (ws.getD j "") true (ws.getD (j + 1) "") = false := by
        cases hb : setKey st.visited (ws.getD j "") true (ws.getD (j + 1) "") with
        | false => rfl
        | true => exact absurd ((hv1 _).1 hb) (getD_not_mem_take ws hnd (j + 1) hlast)
      simp only [dfsNeighbors, hvn, if_true] at hloop
      cases hrec : dfsDetectCycles fuel g (ws.getD (j + 1) "")
          { visited := setKey st.visited (ws.getD j "") true,
            recStack := setKey st.recStack (ws.getD j "") true } (ws.take (j + 1)) with
      | none => rw [hrec] at hloop; exact absurd hloop (by simp)
      | some res =>
        obtain ⟨found, s1⟩ := res
        rw [hrec] at hloop
        simp only [Option.some.injEq, Prod.mk.injEq] at hloop
        obtain ⟨ho, hs⟩ := hloop
        obtain ⟨hf, hvis⟩ := ih (j + 1) _ found s1 hlast hv1 hr1 hrec
        refine ⟨?_, fun x => ?_⟩
        · rw [← ho, appendFound_eq, hf]; rfl
        · rw [hvis' x, ← hs]; exact hvis x
    · have hje : j + 1 = ws.length := by omega
      have hpos : 0 < ws.length := by omega
      rw [hje, Nat.mod_self] at hloop
      have hfull : ws.take ws.length = ws := List.take_length ws
      rw [hfull] at hloop
      rw [hje, hfull] at hv1 hr1
      have hmem0 : ws.getD 0 "" ∈ ws := by
        rw [List.getD_eq_getElem _ _ hpos]; exact List.getElem_mem _
      have hvn := (hv1 _).2 hmem0
      have hrn := (hr1 _).2 hmem0
      have hcs : cycleStart (ws.getD 0 "") ws = some 0 := by
        cases ws with
        | nil => simp at hpos
        | cons a tail => simp [cycleStart]
      simp only [dfsNeighbors, hvn, hrn, hcs, Bool.true_eq_false, if_false, if_true,
        Option.some.injEq, Prod.mk.injEq, List.drop_zero, List.nil_append] at hloop
      obtain ⟨ho, hs⟩ := hloop
      refine ⟨ho.symm, fun x => ?_⟩
      rw [hvis' x, ← hs]
      exact hv1 x
theorem getD_rotate_ring (vs : List String) (i j : Nat) (hj : j < vs.length) :
    (vs.rotate i).getD j "" = vs.getD ((j + i) % vs.length) "" := by
  have hlen : j < (vs.rotate i).length := by rw [List.length_rotate]; exact hj
  have hmod : (j + i) % vs.length < vs.length := Nat.mod_lt _ (by omega)
  rw [List.getD_eq_getElem _ _ hlen, List.getD_eq_getElem _ _ hmod, List.getElem_rotate]

theorem dedupeCycles_singleton (c : CircularDependency) : dedupeCycles [c] = [c] := by
  simp [dedupeCycles, dedupeLoop]

/-- The whole detection on a graph that is one simple cycle `vs`: the result is
the ring as walked from the first start node. -/
theorem ring_detect (models : List (String × Model)) (order vs : List String)
    (hord : order.Perm (keys models)) (hvs : vs.Nodup) (hk : 2 ≤ vs.length)
    (hkeys : (keys models).Perm vs)
    (hsucc : ∀ j, j < vs.length →
      graphLookup (buildDependencyGraph models) (vs.getD j "") =
        [vs.getD ((j + 1) % vs.length) ""]) :
    ∃ i, i < vs.length ∧ order.head? = some (vs.getD i "") ∧
      DetectCircularDependencies models order =
        some [⟨vs.rotate i ++ [vs.getD i ""]⟩] := by
  have hov : order.Perm vs := hord.trans hkeys
  cases order with
  | nil =>
    have := hov.length_eq
    simp at this
    omega
  | cons s rest =>
    have hs : s ∈ vs := hov.subset (List.mem_cons_self _ _)
    obtain ⟨i, hi, hsi⟩ := List.getElem_of_mem hs
    have hsi' : vs.getD i "" = s := by rw [List.getD_eq_getElem _ _ hi]; exact hsi
    have hlen : (vs.rotate i).length = vs.length := List.length_rotate _ _
    have hpos : 0 < vs.length := by omega
    have h0 : (vs.rotate i).getD 0 "" = s := by
      rw [getD_rotate_ring vs i 0 hpos, Nat.zero_add, Nat.mod_eq_of_lt hi, hsi']
    have hsucc' : ∀ j, j < (vs.rotate i).length →
        graphLookup (buildDependencyGraph models) ((vs.rotate i).getD j "") =
          [(vs.rotate i).getD ((j + 1) % (vs.rotate i).length) ""] := by
      intro j hj
      rw [hlen] at hj ⊢
      rw [getD_rotate_ring vs i j hj,
        getD_rotate_ring vs i _ (Nat.mod_lt _ hpos),
        hsucc _ (Nat.mod_lt _ hpos), Nat.mod_add_mod, Nat.mod_add_mod]
      congr 3
      omega
    obtain ⟨raw, st', hloop, hres⟩ :=
      DetectCircularDependencies_returns models (s :: rest) (fun n hn => hord.subset hn)
    have hinit : initState.visited s = false := rfl
    simp only [detectLoop, hinit, if_true] at hloop
    cases hrec : dfsDetectCycles (graphNodes (buildDependencyGraph models)).length
        (buildDependencyGraph models) s initState [] with
    | none => rw [hrec] at hloop; exact absurd hloop (by simp)
    | some res =>
      obtain ⟨found, s1⟩ := res
      rw [hrec] at hloop
      simp only at hloop
      have hrec' : dfsDetectCycles (graphNodes (buildDependencyGraph models)).length
          (buildDependencyGraph models) ((vs.rotate i).getD 0 "") initState
          ((vs.rotate i).take 0) = some (found, s1) := by
        rw [h0]; exact hrec
      obtain ⟨hf, hvis⟩ := ring_dfs (buildDependencyGraph models) (vs.rotate i)
        (List.nodup_rotate.2 hvs) hsucc' _ 0 initState found s1 (by rw [hlen]; exact hpos)
        (fun x => by simp [initState]) (fun x => by simp [initState]) hrec'
      have hall : ∀ n ∈ rest, s1.visited n = true := fun n hn =>
        (hvis n).2 (List.mem_rotate.2 (hov.subset (List.mem_cons_of_mem _ hn)))
      rw [detectLoop_all_visited _ _ rest s1 _ hall] at hloop
      simp only [Option.some.injEq, Prod.mk.injEq] at hloop
      refine ⟨i, hi, by rw [hsi']; rfl, ?_⟩
      rw [hres, ← hloop.1, appendFound_eq, hf, h0, hsi']
      simp only [List.nil_append]
      rw [dedupeCycles_singleton]
/-! ## The key of the deduplication and the canonical form -/

theorem intercalate_go_data (s : String) :
    ∀ (l : List String) (acc : String),
      (String.intercalate.go acc s l).data =
        acc.data ++ (l.map fun a => s.data ++ a.data).flatten := by
  intro l
  induction l with
  | nil => intro acc; simp [String.intercalate.go]
  | cons a rest ih =>
    intro acc
    rw [String.intercalate.go, ih]
    simp [String.data_append, List.append_assoc]

theorem flatten_intersperse (sep : List Char) :
    ∀ (l : List (List Char)) (a : List Char),
      (List.intersperse sep (a :: l)).flatten = a ++ (l.map fun b => sep ++ b).flatten := by
  intro l
  induction l with
  | nil => intro a; simp
  | cons b rest ih =>
    intro a
    rw [List.intersperse_cons_cons, List.flatten_cons, List.flatten_cons, ih]
    simp [List.append_assoc]

theorem intercalate_data (l : List String) :
    (",".intercalate l).data = [','].intercalate (l.map String.data) := by
  cases l with
  | nil => rfl
  | cons a rest =>
    rw [String.intercalate, intercalate_go_data, List.intercalate, List.map_cons,
      flatten_intersperse, List.map_map]
    rfl

theorem intercalate_injective (l1 l2 : List String) (h1 : l1 ≠ []) (h2 : l2 ≠ [])
    (hc1 : ∀ s ∈ l1, ',' ∉ s.data) (hc2 : ∀ s ∈ l2, ',' ∉ s.data)
    (h : ",".intercalate l1 = ",".intercalate l2) : l1 = l2 := by
  have hd := congrArg String.data h
  rw [intercalate_data, intercalate_data] at hd
  have e1 : ([','].intercalate (l1.map String.data)).splitOn ',' = l1.map String.data :=
    List.splitOn_intercalate (l1.map String.data) ','
      (by
        intro l hl
        obtain ⟨s, hs, rfl⟩ := List.mem_map.1 hl
        exact hc1 s hs)
      (by simpa using h1)
  have e2 : ([','].intercalate (l2.map String.data)).splitOn ',' = l2.map String.data :=
    List.splitOn_intercalate (l2.map String.data) ','
      (by
        intro l hl
        obtain ⟨s, hs, rfl⟩ := List.mem_map.1 hl
        exact hc2 s hs)
      (by simpa using h2)
  rw [hd, e2] at e1
  have hinj : Function.Injective String.data := fun a b hab => by
    cases a; cases b; simp at hab; rw [hab]
  exact (List.map_injective_iff.2 hinj e1).symm

/-- In general `normalizeCycle` rotates the path, after removing its last entry
when that repeats the first, to the index found by the minimum search. -/
theorem normalizeCycle_eq_rotate (path : List String) (h1 : 1 < path.length) :
    normalizeCycle path =
      (if path.head? = path.getLast? then path.dropLast else path).rotate
        (findMinIdx (if path.head? = path.getLast? then path.dropLast else path)) := by
  have hne : (if path.head? = path.getLast? then path.dropLast else path) ≠ [] := by
    intro e
    have := congrArg List.length e
    split at this
    · rw [List.length_dropLast] at this
      simp only [List.length_nil] at this
      omega
    · simp only [List.length_nil] at this
      omega
  have hm := findMinIdx_lt _ hne
  unfold normalizeCycle
  rw [if_neg (by omega)]
  simp only
  apply List.ext_getElem
  · simp
  · intro n hn1 hn2
    rw [List.length_rotate] at hn2
    have hmod : (findMinIdx (if path.head? = path.getLast? then path.dropLast else path) + n) %
        (if path.head? = path.getLast? then path.dropLast else path).length <
        (if path.head? = path.getLast? then path.dropLast else path).length :=
      Nat.mod_lt _ (by omega)
    rw [List.getElem_rotate, List.getElem_map, List.getElem_range,
      List.getD_eq_getElem _ _ hmod]
    congr 1
    rw [Nat.add_comm]

theorem normalizeCycle_ne_nil (path : List String) (h : path ≠ []) :
    normalizeCycle path ≠ [] := by
  by_cases h1 : 1 < path.length
  · rw [normalizeCycle_eq_rotate path h1]
    intro e
    have hlen := congrArg List.length (List.rotate_eq_nil_iff.1 e)
    split at hlen
    · rw [List.length_dropLast] at hlen
      simp only [List.length_nil] at hlen
      omega
    · simp only [List.length_nil] at hlen
      omega
  · unfold normalizeCycle
    rw [if_pos (by omega)]
    exact h

theorem mem_of_mem_normalizeCycle (path : List String) (x : String)
    (h : x ∈ normalizeCycle path) : x ∈ path := by
  by_cases h1 : 1 < path.length
  · rw [normalizeCycle_eq_rotate path h1, List.mem_rotate] at h
    split at h
    · exact List.dropLast_subset _ h
    · exact h
  · unfold normalizeCycle at h
    rw [if_pos (by omega)] at h
    exact h

/-- For cycles with a non-empty path whose names contain no comma, the key
determines the canonical form. -/
theorem cycleKey_eq_iff (a b : CircularDependency) (ha : a.Path ≠ []) (hb : b.Path ≠ [])
    (hca : ∀ s ∈ a.Path, ',' ∉ s.data) (hcb : ∀ s ∈ b.Path, ',' ∉ s.data) :
    cycleKey a = cycleKey b ↔ normalizeCycle a.Path = normalizeCycle b.Path := by
  constructor
  · intro h
    exact intercalate_injective _ _ (normalizeCycle_ne_nil _ ha) (normalizeCycle_ne_nil _ hb)
      (fun s hs => hca s (mem_of_mem_normalizeCycle _ s hs))
      (fun s hs => hcb s (mem_of_mem_normalizeCycle _ s hs)) h
  · intro h
    unfold cycleKey
    rw [h]

/-! ## The claims -/

/-- C1: for every model map whose dependency graph has no directed cycle,
`DetectCircularDependencies` returns the empty list, whatever enumeration of the
models builds the graph and whatever enumeration `order` starts the searches. -/
theorem detect_acyclic_empty (models : List (String × Model)) (order : List String)
    (hord : order.Perm (keys models))
    (hacyc : ∀ u, ¬ Relation.TransGen (edge (buildDependencyGraph models)) u u) :
    DetectCircularDependencies models order = some [] := by
  obtain ⟨r, hr, _, hiff⟩ := detect_spec models order hord
  rw [hr, hiff.2 hacyc]

theorem exampleChain_acyclic (u : String) :
    ¬ Relation.TransGen (edge (buildDependencyGraph exampleChain)) u u := by
  have hG : buildDependencyGraph exampleChain = [("A", ["B"]), ("B", [])] := by decide
  apply acyclic_of_rank _ (fun x => if x = "A" then 1 else 0)
  intro a b hab
  rw [hG] at hab
  by_cases ha : a = "A"
  · subst ha
    have hb : b = "B" := by simpa [edge, graphLookup] using hab
    subst hb
    decide
  · have hne : ¬ "A" = a := fun e => ha e.symm
    by_cases hb : "B" = a
    · simp [edge, graphLookup, hne, hb] at hab
    · simp [edge, graphLookup, hne, hb] at hab

/-- Witness of C1 on the chain `A depends on B`, started from `B`. -/
theorem detect_acyclic_empty_witness :
    ["B", "A"].Perm (keys exampleChain) ∧
      DetectCircularDependencies exampleChain ["B", "A"] = some [] :=
  ⟨by decide, detect_acyclic_empty exampleChain ["B", "A"] (by decide) exampleChain_acyclic⟩

/-- C2: for every model map whose dependency graph has a directed cycle,
`DetectCircularDependencies` returns a non-empty list, whatever the enumerations. -/
theorem detect_cyclic_nonempty (models : List (String × Model)) (order : List String)
    (hord : order.Perm (keys models))
    (hcyc : ∃ u, Relation.TransGen (edge (buildDependencyGraph models)) u u) :
    ∃ r, DetectCircularDependencies models order = some r ∧ r ≠ [] := by
  obtain ⟨r, hr, _, hiff⟩ := detect_spec models order hord
  refine ⟨r, hr, fun hnil => ?_⟩
  obtain ⟨u, hu⟩ := hcyc
  exact hiff.1 hnil u hu

theorem exampleTwoCycle_cyclic :
    ∃ u, Relation.TransGen (edge (buildDependencyGraph exampleTwoCycle)) u u := by
  have h1 : edge (buildDependencyGraph exampleTwoCycle) "A" "B" := by
    unfold edge; decide
  have h2 : edge (buildDependencyGraph exampleTwoCycle) "B" "A" := by
    unfold edge; decide
  exact ⟨"A", Relation.TransGen.head h1 (Relation.TransGen.single h2)⟩

/-- Witness of C2 on two models that depend on each other. -/
theorem detect_cyclic_nonempty_witness :
    ["B", "A"].Perm (keys exampleTwoCycle) ∧
      ∃ r, DetectCircularDependencies exampleTwoCycle ["B", "A"] = some r ∧ r ≠ [] :=
  ⟨by decide,
    detect_cyclic_nonempty exampleTwoCycle ["B", "A"] (by decide) exampleTwoCycle_cyclic⟩

/-- C3: when the dependency graph is one simple cycle over the `k ≥ 2` models
`vs` (each model depends on exactly the next one, the last on the first),
`DetectCircularDependencies` returns exactly one cycle, the nodes of that cycle
are exactly the models `vs`, and it starts at the model the traversal started
from, whichever that is. -/
theorem detect_single_cycle (models : List (String × Model)) (order vs : List String)
    (hord : order.Perm (keys models)) (hvs : vs.Nodup) (hk : 2 ≤ vs.length)
    (hkeys : (keys models).Perm vs)
    (hsucc : ∀ j, j < vs.length →
      graphLookup (buildDependencyGraph models) (vs.getD j "") =
        [vs.getD ((j + 1) % vs.length) ""]) :
    ∃ c, DetectCircularDependencies models order = some [c] ∧
      (∀ x, x ∈ c.Path ↔ x ∈ vs) ∧ c.Path.head? = order.head? := by
  obtain ⟨i, hi, hhead, hres⟩ := ring_detect models order vs hord hvs hk hkeys hsucc
  have hmem : vs.getD i "" ∈ vs := by
    rw [List.getD_eq_getElem _ _ hi]; exact List.getElem_mem _
  refine ⟨_, hres, fun x => ?_, ?_⟩
  · simp only [List.mem_append, List.mem_rotate, List.mem_singleton]
    constructor
    · rintro (h | h)
      · exact h
      · rw [h]; exact hmem
    · exact Or.inl
  · rw [hhead, List.head?_append_of_ne_nil _ (fun e => by
      rw [List.rotate_eq_nil_iff.1 e] at hk
      simp at hk), List.head?_rotate hi, List.getD_eq_getElem _ _ hi, List.getElem?_eq_getElem hi]

/-- Witness of C3 on `A depends on B, B depends on C, C depends on A`, started from `B`. -/
theorem detect_single_cycle_witness :
    ∃ c, DetectCircularDependencies exampleRing ["B", "C", "A"] = some [c] ∧
      (∀ x, x ∈ c.Path ↔ x ∈ ["A", "B", "C"]) ∧ c.Path.head? = ["B", "C", "A"].head? :=
  detect_single_cycle exampleRing ["B", "C", "A"] ["A", "B", "C"] (by decide) (by decide)
    (by decide) (by decide) (fun j hj => by
      have hj3 : j < 3 := hj
      interval_cases j <;> decide)

/-- C4: every cycle in the result of `DetectCircularDependencies` has at least three
entries, its first and last entries are equal, every consecutive pair of entries
is an edge of the graph built by `buildDependencyGraph`, and the entries before
the last one are pairwise distinct. -/
theorem detect_cycles_are_simple (models : List (String × Model)) (order : List String)
    (hord : order.Perm (keys models)) :
    ∃ r, DetectCircularDependencies models order = some r ∧
      ∀ c ∈ r, 3 ≤ c.Path.length ∧ c.Path.head? = c.Path.getLast? ∧
        List.Chain' (edge (buildDependencyGraph models)) c.Path ∧ c.Path.dropLast.Nodup := by
  obtain ⟨r, hr, hcyc, _⟩ := detect_spec models order hord
  exact ⟨r, hr, fun c hc => (hcyc c hc).shape⟩

/-- Witness of C4 on two models that depend on each other. -/
theorem detect_cycles_are_simple_witness :
    ∃ r, DetectCircularDependencies exampleTwoCycle ["A", "B"] = some r ∧
      ∀ c ∈ r, 3 ≤ c.Path.length ∧ c.Path.head? = c.Path.getLast? ∧
        List.Chain' (edge (buildDependencyGraph exampleTwoCycle)) c.Path ∧
        c.Path.dropLast.Nodup :=
  detect_cycles_are_simple exampleTwoCycle ["A", "B"] (by decide)

theorem normalizeCycle_closeCycle (cyc : List String) (hne : cyc ≠ []) :
    normalizeCycle (closeCycle cyc) = cyc.rotate (findMinIdx cyc) := by
  cases cyc with
  | nil => exact absurd rfl hne
  | cons x body =>
    have : closeCycle (x :: body) = x :: body ++ [x] := by simp [closeCycle]
    rw [this, normalizeCycle_closed]

/-- C5: for a cycle over pairwise distinct nodes, `normalizeCycle` returns the same
sequence for the closed paths of any two rotations of the cycle (the same cycle
detected from two start nodes). -/
theorem normalizeCycle_rotation_invariant (cyc : List String) (k1 k2 : Nat)
    (hnd : cyc.Nodup) (hne : cyc ≠ []) :
    normalizeCycle (closeCycle (cyc.rotate k1)) =
      normalizeCycle (closeCycle (cyc.rotate k2)) := by
  have h1 : cyc.rotate k1 ≠ [] := fun e => hne (List.rotate_eq_nil_iff.1 e)
  have h2 : cyc.rotate k2 ≠ [] := fun e => hne (List.rotate_eq_nil_iff.1 e)
  rw [normalizeCycle_closeCycle _ h1, normalizeCycle_closeCycle _ h2,
    rotate_findMinIdx_rotate cyc hnd hne k1, rotate_findMinIdx_rotate cyc hnd hne k2]

/-- Witness of C5: `[A,B,C,A]` and `[B,C,A,B]` have the same normal form. -/
theorem normalizeCycle_rotation_invariant_witness :
    normalizeCycle ["A", "B", "C", "A"] = normalizeCycle ["B", "C", "A", "B"] :=
  normalizeCycle_rotation_invariant ["A", "B", "C"] 0 1 (by decide) (by decide)

/-- C6: `dedupeCycles` does not keep the first occurrence of each distinct
canonical form. Of the two cycles `a,b -> c -> a,b` and `a -> b,c -> a` the
second is dropped although it is a cycle on other nodes and no earlier cycle
has the same `normalizeCycle` result: the canonical forms `[a,b | c]` and
`[a | b,c]` are joined with commas to the same key `a,b,c`, against the
description of `dedupeCycles`, "removes duplicate cycles (same nodes in
different order)". -/
theorem dedupeCycles_key_collision :
    dedupeCycles [⟨["a,b", "c", "a,b"]⟩, ⟨["a", "b,c", "a"]⟩] = [⟨["a,b", "c", "a,b"]⟩] ∧
      normalizeCycle ["a,b", "c", "a,b"] ≠ normalizeCycle ["a", "b,c", "a"] := by
  decide

/-- What `dedupeCycles` computes: it keeps the first occurrence of each distinct
key `strings.Join(normalizeCycle(path), ",")`, in input order. A cycle is dropped
if and only if an earlier cycle of the list has the same key; no two returned
cycles share a key and no key of the input is lost. The key determines the
canonical form only for cycles with a non-empty path whose names contain no
comma. -/
theorem dedupeCycles_first_of_each_key :
    dedupeCycles [] = [] ∧
      (∀ cs c, (∃ d ∈ cs, cycleKey d = cycleKey c) →
        dedupeCycles (cs ++ [c]) = dedupeCycles cs) ∧
      (∀ cs c, (∀ d ∈ cs, cycleKey d ≠ cycleKey c) →
        dedupeCycles (cs ++ [c]) = dedupeCycles cs ++ [c]) ∧
      (∀ cs, (dedupeCycles cs).Sublist cs) ∧
      (∀ cs, (dedupeCycles cs).Pairwise fun a b =>
        cycleKey a ≠ cycleKey b ∧ normalizeCycle a.Path ≠ normalizeCycle b.Path) ∧
      (∀ cs, ∀ c ∈ cs, ∃ d ∈ dedupeCycles cs, cycleKey d = cycleKey c) ∧
      (∀ a b : CircularDependency, a.Path ≠ [] → b.Path ≠ [] →
        (∀ s ∈ a.Path, ',' ∉ s.data) → (∀ s ∈ b.Path, ',' ∉ s.data) →
        (cycleKey a = cycleKey b ↔ normalizeCycle a.Path = normalizeCycle b.Path)) := by
  refine ⟨rfl, dedupeCycles_snoc_seen, dedupeCycles_snoc_new, dedupeCycles_sublist,
    fun cs => ?_, dedupeCycles_keys_kept, cycleKey_eq_iff⟩
  refine (dedupeCycles_keys_distinct cs).imp ?_
  intro a b hab
  exact ⟨hab, fun e => hab (by unfold cycleKey; rw [e])⟩

/-- C7: `DetectCircularDependencies` returns cycles that are not in canonical
form. For two models that depend on each other, with the search started from
`B`, the returned cycle is `B -> A -> B`, whose first node is not the smallest
node `A` of the cycle; its canonical form `[A, B]` is computed by
`normalizeCycle` inside `dedupeCycles`, used for the key and then discarded. -/
theorem detect_returns_unrotated :
    DetectCircularDependencies exampleTwoCycle ["B", "A"] = some [⟨["B", "A", "B"]⟩] ∧
      strLess "A" "B" = true ∧
      normalizeCycle ["B", "A", "B"] = ["A", "B"] ∧
      dedupeCycles [⟨["B", "A", "B"]⟩] = [⟨["B", "A", "B"]⟩] := by
  decide

/-- The cycles that `DetectCircularDependencies` returns are cycles collected by
the searches, each returned unchanged and in the order of collection: the result
is a sublist of the list that the loop over the models hands to `dedupeCycles`. -/
theorem detect_result_as_found (models : List (String × Model)) (order : List String)
    (hord : order.Perm (keys models)) :
    ∃ raw st' r, detectLoop (graphNodes (buildDependencyGraph models)).length
        (buildDependencyGraph models) order initState [] = some (raw, st') ∧
      DetectCircularDependencies models order = some r ∧ r.Sublist raw := by
  obtain ⟨raw, st', hloop, hres⟩ :=
    DetectCircularDependencies_returns models order (fun n hn => hord.subset hn)
  exact ⟨raw, st', dedupeCycles raw, hloop, hres, dedupeCycles_sublist raw⟩

/-- The canonical form of a returned cycle: for every cycle that
`DetectCircularDependencies` returns, `normalizeCycle` gives the rotation of the
cycle without its closing element whose first node is the lexicographically
smallest node of the cycle. -/
theorem detect_canonical_form_of_result (models : List (String × Model))
    (order : List String) (hord : order.Perm (keys models)) :
    ∃ r, DetectCircularDependencies models order = some r ∧
      ∀ c ∈ r, ∃ m y, m < c.Path.dropLast.length ∧
        normalizeCycle c.Path = c.Path.dropLast.rotate m ∧
        (normalizeCycle c.Path).head? = some y ∧ ∀ x ∈ c.Path, y ≤ x := by
  obtain ⟨r, hr, hcyc, _⟩ := detect_spec models order hord
  refine ⟨r, hr, fun c hc => ?_⟩
  obtain ⟨x, body, hp, _, _⟩ := hcyc c hc
  have hm := findMinIdx_lt (x :: body) (by simp)
  refine ⟨findMinIdx (x :: body), (x :: body).getD (findMinIdx (x :: body)) "", ?_, ?_, ?_, ?_⟩
  · rw [hp, List.dropLast_concat]; exact hm
  · rw [hp, List.dropLast_concat]; exact normalizeCycle_closed x body
  · rw [hp, normalizeCycle_closed, List.head?_rotate hm, List.getD_eq_getElem _ _ hm,
      List.getElem?_eq_getElem hm]
  · intro z hz
    rw [hp] at hz
    rcases List.mem_append.1 hz with h1 | h1
    · exact findMinIdx_le (x :: body) z h1
    · rw [List.mem_singleton] at h1
      rw [h1]
      exact findMinIdx_le (x :: body) x (List.mem_cons_self _ _)

/-- The canonical form of the returned cycle of two models that depend on each other. -/
theorem detect_canonical_form_of_result_witness :
    ∃ r, DetectCircularDependencies exampleTwoCycle ["B", "A"] = some r ∧
      ∀ c ∈ r, ∃ m y, m < c.Path.dropLast.length ∧
        normalizeCycle c.Path = c.Path.dropLast.rotate m ∧
        (normalizeCycle c.Path).head? = some y ∧ ∀ x ∈ c.Path, y ≤ x :=
  detect_canonical_form_of_result exampleTwoCycle ["B", "A"] (by decide)

/-- C8: `DetectCircularDependencies` is not reproducible, its result depends on
the order in which the model map is enumerated. Two models that depend on each
other give `A -> B -> A` when the loop starts at `A` and `B -> A -> B` when it
starts at `B`; the three models `A -> B, A -> C, B -> C, C -> A` give one cycle
when the loop starts at `A` and two cycles when it starts at `C`, so the
representative paths, the set of cycles and their number all vary. -/
theorem detect_depends_on_order :
    DetectCircularDependencies exampleTwoCycle ["A", "B"] = some [⟨["A", "B", "A"]⟩] ∧
      DetectCircularDependencies exampleTwoCycle ["B", "A"] = some [⟨["B", "A", "B"]⟩] ∧
      DetectCircularDependencies exampleFork ["A", "B", "C"] =
        some [⟨["A", "B", "C", "A"]⟩] ∧
      DetectCircularDependencies exampleFork ["C", "A", "B"] =
        some [⟨["C", "A", "B", "C"]⟩, ⟨["C", "A", "C"]⟩] := by
  decide

/-- What does not depend on the enumeration: for two enumerations of the same
models (the same names and, under each name, the same relations) and any two
orders of starting the searches, `DetectCircularDependencies` returns in both
cases, and one result is empty if and only if the other is. -/
theorem detect_emptiness_reproducible (m1 m2 : List (String × Model)) (o1 o2 : List String)
    (hnd1 : (keys m1).Nodup) (hnd2 : (keys m2).Nodup)
    (hrel : ∀ name rel, (∃ model, (name, model) ∈ m1 ∧ rel ∈ model.Related) ↔
      (∃ model, (name, model) ∈ m2 ∧ rel ∈ model.Related))
    (ho1 : o1.Perm (keys m1)) (ho2 : o2.Perm (keys m2)) :
    ∃ r1 r2, DetectCircularDependencies m1 o1 = some r1 ∧
      DetectCircularDependencies m2 o2 = some r2 ∧ (r1 = [] ↔ r2 = []) := by
  obtain ⟨r1, hr1, _, hiff1⟩ := detect_spec m1 o1 ho1
  obtain ⟨r2, hr2, _, hiff2⟩ := detect_spec m2 o2 ho2
  have hedge : edge (buildDependencyGraph m1) = edge (buildDependencyGraph m2) := by
    funext u w
    apply propext
    rw [edge_build_iff m1 hnd1, edge_build_iff m2 hnd2]
    constructor
    · rintro ⟨model, hm, hne, rel, hr, hc⟩
      obtain ⟨model2, hm2, hr2⟩ := (hrel u rel).1 ⟨model, hm, hr⟩
      exact ⟨model2, hm2, hne, rel, hr2, hc⟩
    · rintro ⟨model, hm, hne, rel, hr, hc⟩
      obtain ⟨model2, hm2, hr2⟩ := (hrel u rel).2 ⟨model, hm, hr⟩
      exact ⟨model2, hm2, hne, rel, hr2, hc⟩
  refine ⟨r1, r2, hr1, hr2, ?_⟩
  rw [hiff1, hiff2, hedge]

/-- The ring enumerated in two orders, with two start orders: both results are
non-empty. -/
theorem detect_emptiness_reproducible_witness :
    ∃ r1 r2, DetectCircularDependencies exampleRing ["A", "B", "C"] = some r1 ∧
      DetectCircularDependencies exampleRing.reverse ["C", "B", "A"] = some r2 ∧
      (r1 = [] ↔ r2 = []) :=
  detect_emptiness_reproducible exampleRing exampleRing.reverse ["A", "B", "C"]
    ["C", "B", "A"] (by decide) (by decide)
    (fun name rel => by
      constructor
      · rintro ⟨model, hm, hr⟩
        exact ⟨model, List.mem_reverse.2 hm, hr⟩
      · rintro ⟨model, hm, hr⟩
        exact ⟨model, List.mem_reverse.1 hm, hr⟩)
    (by decide) (by decide)

/-- C9: the graph returned by `buildDependencyGraph` has exactly the model names as
keys, and every adjacency list `graph[m]` has no duplicate entry and does not
contain `m` itself. -/
theorem buildDependencyGraph_keys_nodup_noself (models : List (String × Model)) :
    keys (buildDependencyGraph models) = keys models ∧
      ∀ m, (graphLookup (buildDependencyGraph models) m).Nodup ∧
        m ∉ graphLookup (buildDependencyGraph models) m := by
  refine ⟨keys_buildDependencyGraph models, fun m => ⟨?_, not_self_edge models m⟩⟩
  rcases graphLookup_build_cases models m with h | ⟨model, _, h⟩
  · rw [h]; exact List.nodup_nil
  · rw [h]; exact nodup_modelDeps m model

/-- C10: for a model `m` of the map and a name `d`, `d` is in
`buildDependencyGraph(models)[m]` if and only if `d` differs from `m` and `m`
has a relation that either has a non-empty `For` list containing `d`, or has an
empty `For` list and the non-empty target name `d` (its alias when set,
otherwise the relation name). -/
theorem buildDependencyGraph_mem_iff (models : List (String × Model)) (m d : String)
    (model : Model) (hnd : (keys models).Nodup) (hm : (m, model) ∈ models) :
    d ∈ graphLookup (buildDependencyGraph models) m ↔
      d ≠ m ∧ ∃ rel ∈ model.Related,
        (rel.2.For ≠ [] ∧ d ∈ rel.2.For) ∨
          (rel.2.For = [] ∧ GetRelationTargetName rel.1 rel.2.Aliased = d ∧ d ≠ "") := by
  rw [graphLookup_build_of_mem models m model hnd hm, mem_modelDeps]
  rfl

/-- Witness of C10: the aliased relation `Author` of `Post` contributes its alias `Person`. -/
theorem buildDependencyGraph_mem_iff_witness :
    "Person" ∈ graphLookup (buildDependencyGraph exampleMixed) "Post" ↔
      "Person" ≠ "Post" ∧ ∃ rel ∈ (mkModel "Post" [("Author", "Person", []),
          ("Target", "", ["Post", "Photo", "Video"]), ("Post", "", [])]).Related,
        (rel.2.For ≠ [] ∧ "Person" ∈ rel.2.For) ∨
          (rel.2.For = [] ∧ GetRelationTargetName rel.1 rel.2.Aliased = "Person" ∧
            "Person" ≠ "") :=
  buildDependencyGraph_mem_iff exampleMixed "Post" "Person" _ (by decide) (by decide)
/-! ## Maps and sorting -/

theorem mapLookup_some_mem {α : Type} (m : List (String × α)) (k : String) (v : α)
    (h : mapLookup m k = some v) : (k, v) ∈ m := by
  induction m with
  | nil => simp [mapLookup] at h
  | cons e rest ih =>
    obtain ⟨k2, v2⟩ := e
    by_cases hk : k2 = k
    · simp only [mapLookup, hk, if_true, Option.some.injEq] at h
      subst h; subst hk
      exact List.mem_cons_self _ _
    · simp only [mapLookup, hk, if_false] at h
      exact List.mem_cons_of_mem _ (ih h)

theorem mapLookup_of_mem {α : Type} (m : List (String × α)) (k : String) (v : α)
    (hnd : (keys m).Nodup) (h : (k, v) ∈ m) : mapLookup m k = some v := by
  induction m with
  | nil => simp at h
  | cons e rest ih =>
    obtain ⟨k2, v2⟩ := e
    simp only [keys, List.map_cons, List.nodup_cons] at hnd
    rcases List.mem_cons.1 h with h1 | h1
    · injection h1 with h2 h3
      subst h2 h3
      simp [mapLookup]
    · have hk : k2 ≠ k := by
        intro e
        subst e
        exact hnd.1 (List.mem_map_of_mem Prod.fst h1)
      simp only [mapLookup, hk, if_false]
      exact ih hnd.2 h1

theorem mapLookup_eq_none {α : Type} (m : List (String × α)) (k : String) :
    mapLookup m k = none ↔ k ∉ keys m := by
  induction m with
  | nil => simp [mapLookup, keys]
  | cons e rest ih =>
    obtain ⟨k2, v2⟩ := e
    by_cases hk : k2 = k
    · simp [mapLookup, keys, hk]
    · have hk2 : ¬ k = k2 := fun e => hk e.symm
      simp only [mapLookup, hk, if_false, ih, keys, List.map_cons, List.mem_cons, hk2, false_or]

theorem mapGet_of_mem {α : Type} [Inhabited α] (m : List (String × α)) (k : String) (v : α)
    (hnd : (keys m).Nodup) (h : (k, v) ∈ m) : mapGet m k = v := by
  simp [mapGet, mapLookup_of_mem m k v hnd h]

theorem sortStrings_perm (names : List String) : (sortStrings names).Perm names :=
  List.perm_insertionSort _ names

theorem mem_sortStrings (names : List String) (x : String) :
    x ∈ sortStrings names ↔ x ∈ names :=
  (sortStrings_perm names).mem_iff

/-! ## Through relations and the entity projection in the dependency graph -/

theorem relationDeps_through (m t : String) (deps : List String)
    (rl : String × ModelRelation) :
    relationDeps m deps (rl.1, { rl.2 with Through := t }) = relationDeps m deps rl := rfl

theorem buildDependencyGraph_withThrough (t : String) (models : List (String × Model)) :
    buildDependencyGraph (withThrough t models) = buildDependencyGraph models := by
  unfold buildDependencyGraph withThrough
  rw [List.map_map]
  apply List.map_congr_left
  intro e _
  simp only [Function.comp_apply, Prod.mk.injEq, true_and]
  unfold modelDeps
  simp only
  rw [List.foldl_map]
  rfl

theorem mem_convertEntitiesToModels (entities : List (String × Entity)) (name : String)
    (model : Model) :
    (name, model) ∈ convertEntitiesToModels entities ↔
      ∃ e, (name, e) ∈ entities ∧
        model = { Name := e.Name,
                  Fields := e.Fields.map (fun f => (f.1, { Type_ := f.2.Type_ })),
                  Identifiers := [],
                  Related := e.Related.map (fun rl =>
                    (rl.1, { Type_ := rl.2.Type_, Aliased := rl.2.Aliased, For := rl.2.For,
                             Through := rl.2.Through })) } := by
  unfold convertEntitiesToModels
  rw [List.mem_map]
  constructor
  · rintro ⟨⟨n, e⟩, he, heq⟩
    simp only [Prod.mk.injEq] at heq
    obtain ⟨h1, h2⟩ := heq
    subst h1
    exact ⟨e, he, h2.symm⟩
  · rintro ⟨e, he, heq⟩
    exact ⟨(name, e), he, by rw [heq]⟩

theorem keys_convertEntitiesToModels (entities : List (String × Entity)) :
    keys (convertEntitiesToModels entities) = keys entities := by
  simp [keys, convertEntitiesToModels, List.map_map, Function.comp_def]
/-- C11 fails as stated: `Attachment` has the relation `Notes` through
`commentable`, whose resolved owner is `Comment`; the graph records the edge to
the relation name `Notes`, not to `Comment`. -/
theorem buildDependencyGraph_through_not_resolved :
    graphLookup (buildDependencyGraph exampleThroughModels) "Attachment" = ["Notes"] ∧
      resolvePolymorphicThrough "commentable" exampleThroughRegistry = .ok "Comment" := by
  decide

/-- C11, amended: `buildDependencyGraph` does not look at `Through`. For a relation
with an empty `For` list it records the edge from the declaring model to the
relation's target name (its alias when set, otherwise its own name) when that
name is non-empty and not the declaring model, and the graph stays the same
when every `Through` is replaced by any other value. -/
theorem buildDependencyGraph_ignores_through (models : List (String × Model))
    (m relName : String) (model : Model) (rel : ModelRelation)
    (hnd : (keys models).Nodup) (hm : (m, model) ∈ models)
    (hr : (relName, rel) ∈ model.Related) (hFor : rel.For = [])
    (ht : GetRelationTargetName relName rel.Aliased ≠ "")
    (hself : GetRelationTargetName relName rel.Aliased ≠ m) :
    GetRelationTargetName relName rel.Aliased ∈ graphLookup (buildDependencyGraph models) m ∧
      ∀ t, buildDependencyGraph (withThrough t models) = buildDependencyGraph models := by
  refine ⟨?_, fun t => buildDependencyGraph_withThrough t models⟩
  rw [graphLookup_build_of_mem models m model hnd hm, mem_modelDeps]
  exact ⟨hself, (relName, rel), hr, Or.inr ⟨hFor, rfl, ht⟩⟩

/-- Witness of the amended C11 on the through example. -/
theorem buildDependencyGraph_ignores_through_witness :
    GetRelationTargetName "Notes" "" ∈
        graphLookup (buildDependencyGraph exampleThroughModels) "Attachment" ∧
      ∀ t, buildDependencyGraph (withThrough t exampleThroughModels) =
        buildDependencyGraph exampleThroughModels :=
  buildDependencyGraph_ignores_through exampleThroughModels "Attachment" "Notes"
    { Name := "Attachment", Fields := [], Identifiers := [],
      Related := [("Notes",
        { Type_ := "HasOnePoly", For := [], Through := "commentable", Aliased := "" })] }
    { Type_ := "HasOnePoly", For := [], Through := "commentable", Aliased := "" }
    (by decide) (by decide) (by decide) rfl (by decide) (by decide)

/-- C12: for an entity map `E` and a model map `M` with the same names and, under
each name, the same relations (name, type, alias, For list, through),
`buildDependencyGraph(convertEntitiesToModels(E))` has the same keys and the
same edges under each key as `buildDependencyGraph(M)`, and
`convertEntitiesToModels` keeps every relation's name, type, alias, For list and
through. -/
theorem buildDependencyGraph_entities_same (E : List (String × Entity))
    (M : List (String × Model)) (hndE : (keys E).Nodup) (hndM : (keys M).Nodup)
    (hkeys : ∀ n, n ∈ keys E ↔ n ∈ keys M)
    (hrel : ∀ name relName ty fo th al,
      (∃ e, (name, e) ∈ E ∧ (relName, (⟨ty, fo, th, al⟩ : EntityRelation)) ∈ e.Related) ↔
        (∃ m, (name, m) ∈ M ∧ (relName, (⟨ty, fo, th, al⟩ : ModelRelation)) ∈ m.Related)) :
    (∀ n, n ∈ keys (buildDependencyGraph (convertEntitiesToModels E)) ↔
        n ∈ keys (buildDependencyGraph M)) ∧
      (∀ m d, d ∈ graphLookup (buildDependencyGraph (convertEntitiesToModels E)) m ↔
        d ∈ graphLookup (buildDependencyGraph M) m) ∧
      (∀ name e, (name, e) ∈ E → ∃ model, (name, model) ∈ convertEntitiesToModels E ∧
        model.Related = e.Related.map fun rl =>
          (rl.1, (⟨rl.2.Type_, rl.2.For, rl.2.Through, rl.2.Aliased⟩ : ModelRelation))) := by
  have hndC : (keys (convertEntitiesToModels E)).Nodup := by
    rw [keys_convertEntitiesToModels]; exact hndE
  refine ⟨fun n => ?_, fun m d => ?_, fun name e he => ?_⟩
  · rw [keys_buildDependencyGraph, keys_buildDependencyGraph, keys_convertEntitiesToModels]
    exact hkeys n
  · have h1 := edge_build_iff (convertEntitiesToModels E) hndC m d
    have h2 := edge_build_iff M hndM m d
    unfold edge at h1 h2
    rw [h1, h2]
    constructor
    · rintro ⟨model, hmod, hne, rel, hrl, hc⟩
      obtain ⟨e, he, hmodel⟩ := (mem_convertEntitiesToModels E m model).1 hmod
      subst hmodel
      obtain ⟨erl, herl, heq⟩ := List.mem_map.1 hrl
      obtain ⟨rn, ⟨ty, fo, th, al⟩⟩ := erl
      obtain ⟨mm, hmm, hmr⟩ := (hrel m rn ty fo th al).1 ⟨e, he, herl⟩
      refine ⟨mm, hmm, hne, (rn, ⟨ty, fo, th, al⟩), hmr, ?_⟩
      rw [← heq] at hc
      exact hc
    · rintro ⟨mm, hmm, hne, rel, hrl, hc⟩
      obtain ⟨rn, ⟨ty, fo, th, al⟩⟩ := rel
      obtain ⟨e, he, her⟩ := (hrel m rn ty fo th al).2 ⟨mm, hmm, hrl⟩
      refine ⟨_, (mem_convertEntitiesToModels E m _).2 ⟨e, he, rfl⟩, hne,
        (rn, ⟨ty, fo, th, al⟩), ?_, hc⟩
      exact List.mem_map.2 ⟨(rn, ⟨ty, fo, th, al⟩), her, rfl⟩
  · exact ⟨_, (mem_convertEntitiesToModels E name _).2 ⟨e, he, rfl⟩, rfl⟩

/-- Witness of C12: the entity map and the model map of two declarations that
depend on each other. -/
theorem buildDependencyGraph_entities_same_witness :
    (∀ n, n ∈ keys (buildDependencyGraph (convertEntitiesToModels exampleEntities)) ↔
        n ∈ keys (buildDependencyGraph exampleTwoCycle)) ∧
      (∀ m d, d ∈ graphLookup (buildDependencyGraph (convertEntitiesToModels exampleEntities)) m ↔
        d ∈ graphLookup (buildDependencyGraph exampleTwoCycle) m) ∧
      (∀ name e, (name, e) ∈ exampleEntities →
        ∃ model, (name, model) ∈ convertEntitiesToModels exampleEntities ∧
          model.Related = e.Related.map fun rl =>
            (rl.1, (⟨rl.2.Type_, rl.2.For, rl.2.Through, rl.2.Aliased⟩ : ModelRelation))) :=
  buildDependencyGraph_entities_same exampleEntities exampleTwoCycle (by decide) (by decide)
    (by simp [keys, exampleEntities, exampleTwoCycle]; tauto)
    (by
      intro name relName ty fo th al
      simp only [exampleEntities, exampleTwoCycle, mkModel, List.mem_cons, List.mem_singleton,
        List.not_mem_nil, or_false, Prod.mk.injEq, List.map_cons, List.map_nil]
      constructor
      · rintro ⟨e, (⟨h1, h2⟩ | ⟨h1, h2⟩), h3⟩
        · subst h1 h2
          simp only [List.mem_singleton, Prod.mk.injEq, EntityRelation.mk.injEq] at h3
          obtain ⟨h4, h5, h6, h7, h8⟩ := h3
          subst h4 h5 h6 h7 h8
          exact ⟨_, Or.inr ⟨rfl, rfl⟩, by simp⟩
        · subst h1 h2
          simp only [List.mem_singleton, Prod.mk.injEq, EntityRelation.mk.injEq] at h3
          obtain ⟨h4, h5, h6, h7, h8⟩ := h3
          subst h4 h5 h6 h7 h8
          exact ⟨_, Or.inl ⟨rfl, rfl⟩, by simp⟩
      · rintro ⟨m, (⟨h1, h2⟩ | ⟨h1, h2⟩), h3⟩
        · subst h1 h2
          simp only [List.mem_singleton, Prod.mk.injEq, ModelRelation.mk.injEq] at h3
          obtain ⟨h4, h5, h6, h7, h8⟩ := h3
          subst h4 h5 h6 h7 h8
          exact ⟨_, Or.inr ⟨rfl, rfl⟩, by simp⟩
        · subst h1 h2
          simp only [List.mem_singleton, Prod.mk.injEq, ModelRelation.mk.injEq] at h3
          obtain ⟨h4, h5, h6, h7, h8⟩ := h3
          subst h4 h5 h6 h7 h8
          exact ⟨_, Or.inl ⟨rfl, rfl⟩, by simp⟩)
/-! ## Facts about `CompileModel` -/

theorem sortStrings_singleton (a : String) : sortStrings [a] = [a] := by
  simp [sortStrings]

theorem navigationField_mem (model : Model) (r : Registry) (relName : String)
    (rel : ModelRelation) (hnd : (keys model.Related).Nodup)
    (hr : (relName, rel) ∈ model.Related) :
    navigationField relName rel r ∈ relationFields model r := by
  have hpos : model.Related.length > 0 := List.length_pos_of_mem hr
  unfold relationFields
  rw [if_pos hpos]
  apply List.mem_append_right
  rw [List.mem_map]
  refine ⟨relName, ?_, ?_⟩
  · rw [mem_sortStrings]
    exact List.mem_map_of_mem Prod.fst hr
  · rw [mapGet_of_mem model.Related relName rel hnd hr]

theorem intercalate_go_append (sep p : String) :
    ∀ (l : List String) (x : String),
      String.intercalate.go (p ++ x) sep l = p ++ String.intercalate.go x sep l := by
  intro l
  induction l with
  | nil => intro x; simp [String.intercalate.go]
  | cons a rest ih =>
    intro x
    rw [String.intercalate.go, String.intercalate.go, ← ih]
    congr 1
    simp only [String.append_assoc]

theorem unionTypeLoop_eq_go :
    ∀ (rest : List String) (acc : String) (i : Nat), 0 < i →
      unionTypeLoop i rest acc =
        String.intercalate.go acc ", " (rest.map fun t => "\x27" ++ t ++ "\x27") := by
  intro rest
  induction rest with
  | nil => intro acc i _; simp [unionTypeLoop, String.intercalate.go]
  | cons t rest ih =>
    intro acc i hi
    rw [unionTypeLoop, if_pos hi, ih _ _ (Nat.succ_pos i), List.map_cons,
      String.intercalate.go]

/-- The text built by the union loop is `Union[` + the quoted names joined by
`, ` + `]`. -/
theorem unionTypeName_eq (fors : List String) :
    unionTypeName fors =
      "Union[" ++ ", ".intercalate (fors.map fun t => "\x27" ++ t ++ "\x27") ++ "]" := by
  cases fors with
  | nil => decide
  | cons t rest =>
    unfold unionTypeName
    rw [unionTypeLoop, if_neg (by decide), unionTypeLoop_eq_go _ _ _ (by decide),
      intercalate_go_append, List.map_cons, String.intercalate]

theorem declaresPoly_iff (through : String) (rels : List (String × ModelRelation)) :
    declaresPoly through rels = true ↔
      ∃ rl ∈ rels, rl.1 = through ∧ IsRelationPoly rl.2.Type_ = true := by
  induction rels with
  | nil => simp [declaresPoly]
  | cons e rest ih =>
    obtain ⟨n, rel⟩ := e
    by_cases h : n = through ∧ IsRelationPoly rel.Type_ = true
    · rw [declaresPoly, if_pos h]
      exact iff_of_true rfl ⟨(n, rel), List.mem_cons_self _ _, h.1, h.2⟩
    · simp only [declaresPoly, h, if_false, ih, List.mem_cons, exists_eq_or_imp, false_or]

theorem findPolyOwner_unique (through owner : String) :
    ∀ (models : List (String × Model)),
      (∃ mdl, (owner, mdl) ∈ models ∧ declaresPoly through mdl.Related = true) →
      (∀ e ∈ models, declaresPoly through e.2.Related = true → e.1 = owner) →
      findPolyOwner through models = some owner := by
  intro models
  induction models with
  | nil => rintro ⟨mdl, hm, _⟩ _; simp at hm
  | cons e rest ih =>
    obtain ⟨n, mdl2⟩ := e
    rintro ⟨mdl, hm, hd⟩ huniq
    by_cases h : declaresPoly through mdl2.Related = true
    · have := huniq (n, mdl2) (List.mem_cons_self _ _) h
      simp only at this
      simp [findPolyOwner, h, this]
    · simp only [findPolyOwner, h, if_false]
      apply ih
      · rcases List.mem_cons.1 hm with h1 | h1
        · injection h1 with h2 h3
          subst h3
          exact absurd hd h
        · exact ⟨mdl, h1, hd⟩
      · exact fun e he => huniq e (List.mem_cons_of_mem _ he)

theorem findPolyOwner_none (through : String) :
    ∀ (models : List (String × Model)),
      (∀ e ∈ models, ¬ declaresPoly through e.2.Related = true) →
      findPolyOwner through models = none := by
  intro models
  induction models with
  | nil => intro _; rfl
  | cons e rest ih =>
    obtain ⟨n, mdl2⟩ := e
    intro h
    have h1 := h (n, mdl2) (List.mem_cons_self _ _)
    simp only at h1
    simp only [findPolyOwner, h1, if_false]
    exact ih fun e he => h e (List.mem_cons_of_mem _ he)

theorem generatedFields_length (relName : String) (rel : ModelRelation) :
    (generatedFields relName rel).length =
      (if (IsRelationFor rel.Type_ && IsRelationOne rel.Type_ && !IsRelationPoly rel.Type_) = true
        then 1 else 0) +
      2 * (if (IsRelationPoly rel.Type_ && IsRelationFor rel.Type_ && IsRelationOne rel.Type_) = true
        then 1 else 0) := by
  cases hp : IsRelationPoly rel.Type_ <;> cases hf : IsRelationFor rel.Type_ <;>
    cases ho : IsRelationOne rel.Type_ <;> simp [generatedFields, hp, hf, ho]

theorem sum_generated (rels : List (String × ModelRelation)) :
    (rels.map fun rl => (generatedFields rl.1 rl.2).length).sum =
      rels.countP (fun rl =>
        IsRelationFor rl.2.Type_ && IsRelationOne rl.2.Type_ && !IsRelationPoly rl.2.Type_) +
      2 * rels.countP (fun rl =>
        IsRelationPoly rl.2.Type_ && IsRelationFor rl.2.Type_ && IsRelationOne rl.2.Type_) := by
  induction rels with
  | nil => simp
  | cons e rest ih =>
    rw [List.map_cons, List.sum_cons, ih, generatedFields_length, List.countP_cons,
      List.countP_cons]
    omega

theorem map_keys_mapGet {α β : Type} [Inhabited α] (m : List (String × α))
    (hnd : (keys m).Nodup) (f : String → α → β) :
    (keys m).map (fun n => f n (mapGet m n)) = m.map fun e => f e.1 e.2 := by
  unfold keys
  rw [List.map_map]
  apply List.map_congr_left
  intro e he
  obtain ⟨k, v⟩ := e
  simp only [Function.comp_apply]
  rw [mapGet_of_mem m k v hnd he]

theorem relationFields_length (model : Model) (r : Registry)
    (hnd : (keys model.Related).Nodup) :
    (relationFields model r).length =
      model.Related.countP (fun rl =>
        IsRelationFor rl.2.Type_ && IsRelationOne rl.2.Type_ && !IsRelationPoly rl.2.Type_) +
      2 * model.Related.countP (fun rl =>
        IsRelationPoly rl.2.Type_ && IsRelationFor rl.2.Type_ && IsRelationOne rl.2.Type_) +
      model.Related.length := by
  unfold relationFields
  by_cases hpos : model.Related.length > 0
  · rw [if_pos hpos]
    simp only [List.length_append, List.length_map, List.length_flatMap]
    have hperm := sortStrings_perm (keys model.Related)
    have h1 : (List.map (List.length ∘ fun relatedName =>
        generatedFields relatedName (mapGet model.Related relatedName))
          (sortStrings (keys model.Related))).sum =
        (model.Related.map fun rl => (generatedFields rl.1 rl.2).length).sum := by
      rw [(hperm.map _).sum_eq, ← map_keys_mapGet model.Related hnd
        (fun n rel => (generatedFields n rel).length)]
      rfl
    rw [h1, sum_generated, hperm.length_eq]
    simp [keys]
  · have hnil : model.Related = [] := by
      cases hm : model.Related with
      | nil => rfl
      | cons a l => rw [hm] at hpos; simp at hpos
    rw [if_neg hpos, hnil]
    simp

theorem declaredFields_length (model : Model) :
    (declaredFields model).length = model.Fields.length := by
  unfold declaredFields
  rw [List.length_map, (sortStrings_perm _).length_eq]
  simp [keys]
/-- C13 fails as stated: for the relation `Payable` the generated fields are named
`payableType` and `payableId` (the camel case of `Payable_type` and
`Payable_id`), not `Payable_type` and `Payable_id`. -/
theorem CompileModel_generated_names_camel :
    CompileModel examplePayment {} =
      .ok { Name := "Payment",
            Fields := [⟨"Amount", TypeFloat⟩, ⟨"payableType", TypeString⟩,
              ⟨"payableId", TypeString⟩,
              ⟨"_nav_Payable", .BasicType "Union[\x27Invoice\x27, \x27Order\x27]" false⟩] } ∧
      "payableType" ≠ "Payable_type" ∧ "payableId" ≠ "Payable_id" := by
  decide

/-- C13, amended: for every model whose only relation is an owning-one polymorphic
(`ForOnePoly`) relation named `R` with `For = [Invoice, Order]`, `CompileModel`
adds after the declared fields exactly two generated fields, named
`ToCamelCase(R_type)` and `ToCamelCase(R_id)` and both of type `str`, and then
one navigation field `_nav_R` whose type is `Union['Invoice', 'Order']`. -/
theorem CompileModel_single_ForOnePoly (model : Model) (r : Registry) (R : String)
    (rel : ModelRelation) (hrel : model.Related = [(R, rel)])
    (hty : rel.Type_ = "ForOnePoly") (hfor : rel.For = ["Invoice", "Order"]) :
    CompileModel model r =
        .ok { Name := model.Name,
              Fields := declaredFields model ++
                [⟨ToCamelCase (R ++ "_type"), TypeString⟩,
                  ⟨ToCamelCase (R ++ "_id"), TypeString⟩,
                  ⟨"_nav_" ++ R, .BasicType "Union[\x27Invoice\x27, \x27Order\x27]" false⟩] } ∧
      TypeString.GetName = "str" := by
  obtain ⟨ty, fo, th, al⟩ := rel
  simp only at hty hfor
  subst hty hfor
  refine ⟨?_, rfl⟩
  have hp : IsRelationPoly "ForOnePoly" = true := by decide
  have hf : IsRelationFor "ForOnePoly" = true := by decide
  have ho : IsRelationOne "ForOnePoly" = true := by decide
  have hm : IsRelationMany "ForOnePoly" = false := by decide
  have hu : unionTypeName ["Invoice", "Order"] = "Union[\x27Invoice\x27, \x27Order\x27]" := by
    decide
  have hget : mapGet [(R, (⟨"ForOnePoly", ["Invoice", "Order"], th, al⟩ : ModelRelation))] R =
      ⟨"ForOnePoly", ["Invoice", "Order"], th, al⟩ := by
    simp [mapGet, mapLookup]
  unfold CompileModel relationFields
  rw [hrel]
  simp only [List.length_singleton, gt_iff_lt, zero_lt_one, if_true, keys, List.map_cons,
    List.map_nil, sortStrings_singleton, List.flatMap_cons, List.flatMap_nil, List.append_nil,
    hget]
  simp [generatedFields, navigationField, navigationType, hp, hf, ho, hm, hu]

/-- Witness of the amended C13 on the model `Payment`. -/
theorem CompileModel_single_ForOnePoly_witness :
    CompileModel examplePayment {} =
        .ok { Name := examplePayment.Name,
              Fields := declaredFields examplePayment ++
                [⟨ToCamelCase ("Payable" ++ "_type"), TypeString⟩,
                  ⟨ToCamelCase ("Payable" ++ "_id"), TypeString⟩,
                  ⟨"_nav_" ++ "Payable",
                    .BasicType "Union[\x27Invoice\x27, \x27Order\x27]" false⟩] } ∧
      TypeString.GetName = "str" :=
  CompileModel_single_ForOnePoly examplePayment {} "Payable"
    { Type_ := "ForOnePoly", For := ["Invoice", "Order"], Through := "", Aliased := "" }
    rfl rfl rfl

/-- C14: for every polymorphic relation of a model with a non-empty `For` list,
the navigation field that `CompileModel` emits is `_nav_` + relation name and
its type is the union text `Union['t1', ..., 'tn']` of the `For` list in
declared order, wrapped as `List[...]` if and only if the relation is a many
relation, whatever `Through` is. -/
theorem CompileModel_poly_nav_union (model : Model) (r : Registry) (relName : String)
    (rel : ModelRelation) (hnd : (keys model.Related).Nodup)
    (hr : (relName, rel) ∈ model.Related) (hpoly : IsRelationPoly rel.Type_ = true)
    (hfor : rel.For ≠ []) :
    ∃ s, CompileModel model r = .ok s ∧ navigationField relName rel r ∈ s.Fields ∧
      navigationField relName rel r =
        ⟨"_nav_" ++ relName,
          if IsRelationMany rel.Type_ = true then
            .ArrayType (.BasicType (unionTypeName rel.For) false)
          else .BasicType (unionTypeName rel.For) false⟩ ∧
      unionTypeName rel.For =
        "Union[" ++ ", ".intercalate (rel.For.map fun t => "\x27" ++ t ++ "\x27") ++ "]" ∧
      (FormatType.ArrayType (.BasicType (unionTypeName rel.For) false)).GetName =
        "List[" ++ unionTypeName rel.For ++ "]" ∧
      (FormatType.BasicType (unionTypeName rel.For) false).GetName = unionTypeName rel.For := by
  refine ⟨_, rfl, List.mem_append_right _ (navigationField_mem model r relName rel hnd hr),
    ?_, unionTypeName_eq rel.For, rfl, rfl⟩
  have hlen : rel.For.length > 0 := List.length_pos.2 hfor
  simp only [navigationField, navigationType, hpoly, if_true, hlen]

/-- Witness of C14 on the relation `Payable` of the model `Payment`. -/
theorem CompileModel_poly_nav_union_witness :
    ∃ s, CompileModel examplePayment {} = .ok s ∧
      navigationField "Payable" ⟨"ForOnePoly", ["Invoice", "Order"], "", ""⟩ {} ∈ s.Fields ∧
      navigationField "Payable" ⟨"ForOnePoly", ["Invoice", "Order"], "", ""⟩ {} =
        ⟨"_nav_" ++ "Payable",
          if IsRelationMany "ForOnePoly" = true then
            .ArrayType (.BasicType (unionTypeName ["Invoice", "Order"]) false)
          else .BasicType (unionTypeName ["Invoice", "Order"]) false⟩ ∧
      unionTypeName ["Invoice", "Order"] =
        "Union[" ++ ", ".intercalate (["Invoice", "Order"].map fun t => "\x27" ++ t ++ "\x27")
          ++ "]" ∧
      (FormatType.ArrayType (.BasicType (unionTypeName ["Invoice", "Order"]) false)).GetName =
        "List[" ++ unionTypeName ["Invoice", "Order"] ++ "]" ∧
      (FormatType.BasicType (unionTypeName ["Invoice", "Order"]) false).GetName =
        unionTypeName ["Invoice", "Order"] :=
  CompileModel_poly_nav_union examplePayment {} "Payable"
    ⟨"ForOnePoly", ["Invoice", "Order"], "", ""⟩ (by decide) (by decide) (by decide) (by decide)

/-- The values of the relation tag tests on the eight relation types. -/
theorem relation_tags :
    (IsRelationPoly "ForOne" = false ∧ IsRelationFor "ForOne" = true ∧
        IsRelationOne "ForOne" = true ∧ IsRelationMany "ForOne" = false) ∧
      (IsRelationPoly "ForMany" = false ∧ IsRelationFor "ForMany" = true ∧
        IsRelationOne "ForMany" = false ∧ IsRelationMany "ForMany" = true) ∧
      (IsRelationPoly "HasOne" = false ∧ IsRelationFor "HasOne" = false ∧
        IsRelationOne "HasOne" = true ∧ IsRelationMany "HasOne" = false) ∧
      (IsRelationPoly "HasMany" = false ∧ IsRelationFor "HasMany" = false ∧
        IsRelationOne "HasMany" = false ∧ IsRelationMany "HasMany" = true) ∧
      (IsRelationPoly "ForOnePoly" = true ∧ IsRelationFor "ForOnePoly" = true ∧
        IsRelationOne "ForOnePoly" = true ∧ IsRelationMany "ForOnePoly" = false) ∧
      (IsRelationPoly "ForManyPoly" = true ∧ IsRelationFor "ForManyPoly" = true ∧
        IsRelationOne "ForManyPoly" = false ∧ IsRelationMany "ForManyPoly" = true) ∧
      (IsRelationPoly "HasOnePoly" = true ∧ IsRelationFor "HasOnePoly" = false ∧
        IsRelationOne "HasOnePoly" = true ∧ IsRelationMany "HasOnePoly" = false) ∧
      (IsRelationPoly "HasManyPoly" = true ∧ IsRelationFor "HasManyPoly" = false ∧
        IsRelationOne "HasManyPoly" = false ∧ IsRelationMany "HasManyPoly" = true) := by
  decide

/-- The fields that the first relation loop of `CompileModel` adds for a relation,
told from its shape alone. -/
theorem generatedFields_by_shape (n : String) (rel : ModelRelation) :
    generatedFields n rel =
      if (IsRelationFor rel.Type_ && IsRelationOne rel.Type_) = true then
        if IsRelationPoly rel.Type_ = true then
          [⟨ToCamelCase (n ++ "_type"), TypeString⟩, ⟨ToCamelCase (n ++ "_id"), TypeString⟩]
        else [⟨ToCamelCase (n ++ "_id"), TypeString⟩]
      else [] := by
  cases hp : IsRelationPoly rel.Type_ <;> cases hf : IsRelationFor rel.Type_ <;>
    cases ho : IsRelationOne rel.Type_ <;> simp [generatedFields, hp, hf, ho]

/-- C15: the struct that `CompileModel` returns has, in this order, one field for
each declared field, the generated data fields of the relations, and one
navigation field for each relation. The generated data fields of a relation
depend on its shape only: an owning-one relation that is not polymorphic
(`ForOne`) gives exactly the foreign-key field, a polymorphic owning-one
relation (`ForOnePoly`) gives exactly the type field followed by the identifier
field, every other relation gives none; all of them have type `str`, and the
result has exactly `|Fields| + #ForOne + 2 * #ForOnePoly + |Related|` fields. -/
theorem CompileModel_field_count (model : Model) (r : Registry)
    (hnd : (keys model.Related).Nodup) :
    (∃ s, CompileModel model r = .ok s ∧
      s.Fields =
        (sortStrings (keys model.Fields)).map
            (fun n => (⟨n, GetFieldType (mapGet model.Fields n).Type_⟩ : Field)) ++
          (sortStrings (keys model.Related)).flatMap (fun n =>
            if (IsRelationFor (mapGet model.Related n).Type_ &&
                IsRelationOne (mapGet model.Related n).Type_) = true then
              if IsRelationPoly (mapGet model.Related n).Type_ = true then
                [(⟨ToCamelCase (n ++ "_type"), TypeString⟩ : Field),
                  ⟨ToCamelCase (n ++ "_id"), TypeString⟩]
              else [⟨ToCamelCase (n ++ "_id"), TypeString⟩]
            else []) ++
          (sortStrings (keys model.Related)).map
            (fun n => (⟨"_nav_" ++ n, navigationType n (mapGet model.Related n) r⟩ : Field)) ∧
      (∀ e ∈ model.Related, mapGet model.Related e.1 = e.2) ∧
      TypeString.GetName = "str" ∧
      s.Fields.length = model.Fields.length +
        model.Related.countP (fun rl =>
          IsRelationFor rl.2.Type_ && IsRelationOne rl.2.Type_ && !IsRelationPoly rl.2.Type_) +
        2 * model.Related.countP (fun rl =>
          IsRelationPoly rl.2.Type_ && IsRelationFor rl.2.Type_ && IsRelationOne rl.2.Type_) +
        model.Related.length) ∧
      ((IsRelationFor "ForOne" && IsRelationOne "ForOne") = true ∧
        IsRelationPoly "ForOne" = false) ∧
      ((IsRelationFor "ForOnePoly" && IsRelationOne "ForOnePoly") = true ∧
        IsRelationPoly "ForOnePoly" = true) ∧
      (∀ t ∈ ["ForMany", "HasOne", "HasMany", "ForManyPoly", "HasOnePoly", "HasManyPoly"],
        (IsRelationFor t && IsRelationOne t) = false) ∧
      (∀ n rel, rel.Type_ = "ForOne" →
        generatedFields n rel = [⟨ToCamelCase (n ++ "_id"), TypeString⟩]) ∧
      (∀ n rel, rel.Type_ = "ForOnePoly" →
        generatedFields n rel =
          [⟨ToCamelCase (n ++ "_type"), TypeString⟩, ⟨ToCamelCase (n ++ "_id"), TypeString⟩]) ∧
      (∀ n rel, rel.Type_ ∈ ["ForMany", "HasOne", "HasMany", "ForManyPoly", "HasOnePoly",
          "HasManyPoly"] → generatedFields n rel = []) ∧
      (∀ n rel, ∀ f ∈ generatedFields n rel, f.Type_ = TypeString) := by
  obtain ⟨t1, t2, t3, t4, t5, t6, t7, t8⟩ := relation_tags
  refine ⟨⟨⟨model.Name, declaredFields model ++ relationFields model r⟩, rfl, ?_,
    fun e he => mapGet_of_mem model.Related e.1 e.2 hnd he, rfl, ?_⟩, by decide, by decide,
    by decide, ?_, ?_, ?_, ?_⟩
  · show declaredFields model ++ relationFields model r = _
    have hrel : relationFields model r =
        (sortStrings (keys model.Related)).flatMap
            (fun n => generatedFields n (mapGet model.Related n)) ++
          (sortStrings (keys model.Related)).map
            (fun n => navigationField n (mapGet model.Related n) r) := by
      unfold relationFields
      by_cases hlen : model.Related.length > 0
      · simp only [hlen, if_true]
      · have hnil : model.Related = [] := by
          cases hm : model.Related with
          | nil => rfl
          | cons a l => rw [hm] at hlen; simp at hlen
        simp only [hnil, List.length_nil, gt_iff_lt, lt_self_iff_false, if_false, keys,
          List.map_nil, sortStrings, List.insertionSort, List.flatMap_nil, List.append_nil]
    have hgen : (fun n => generatedFields n (mapGet model.Related n)) =
        (fun n =>
          if (IsRelationFor (mapGet model.Related n).Type_ &&
              IsRelationOne (mapGet model.Related n).Type_) = true then
            if IsRelationPoly (mapGet model.Related n).Type_ = true then
              [(⟨ToCamelCase (n ++ "_type"), TypeString⟩ : Field),
                ⟨ToCamelCase (n ++ "_id"), TypeString⟩]
            else [⟨ToCamelCase (n ++ "_id"), TypeString⟩]
          else []) := by
      funext n
      exact generatedFields_by_shape n _
    rw [hrel, hgen, declaredFields, List.append_assoc]
    rfl
  · simp only [List.length_append, declaredFields_length, relationFields_length model r hnd]
    omega
  · intro n rel h
    simp [generatedFields, h, t1.1, t1.2.1, t1.2.2.1]
  · intro n rel h
    simp [generatedFields, h, t5.1, t5.2.1, t5.2.2.1]
  · intro n rel h
    simp only [List.mem_cons, List.mem_singleton, List.not_mem_nil, or_false] at h
    rcases h with h | h | h | h | h | h
    · simp [generatedFields, h, t2.1, t2.2.1, t2.2.2.1]
    · simp [generatedFields, h, t3.1, t3.2.1, t3.2.2.1]
    · simp [generatedFields, h, t4.1, t4.2.1, t4.2.2.1]
    · simp [generatedFields, h, t6.1, t6.2.1, t6.2.2.1]
    · simp [generatedFields, h, t7.1, t7.2.1, t7.2.2.1]
    · simp [generatedFields, h, t8.1, t8.2.1, t8.2.2.1]
  · intro n rel f hf
    rw [generatedFields_by_shape] at hf
    split at hf
    · split at hf
      · simp only [List.mem_cons, List.mem_singleton, List.not_mem_nil, or_false] at hf
        rcases hf with h | h <;> rw [h]
      · simp only [List.mem_singleton] at hf
        rw [hf]
    · simp at hf

/-- Witness of C15 on the model `Task`: one declared field, a `ForOne` relation, a
`ForOnePoly` relation and a `HasMany` relation give seven fields. -/
theorem CompileModel_field_count_witness :
    CompileModel exampleTask exampleEmptyRegistry =
      .ok ⟨"Task",
        [⟨"Title", TypeString⟩, ⟨"assigneeId", TypeString⟩, ⟨"subjectType", TypeString⟩,
          ⟨"subjectId", TypeString⟩, ⟨"_nav_Assignee", .BasicType "Person" false⟩,
          ⟨"_nav_Notes", .ArrayType (.BasicType "Notes" false)⟩,
          ⟨"_nav_Subject", .BasicType "Union[\x27Person\x27, \x27Contact\x27]" false⟩]⟩ ∧
    ∃ s, CompileModel exampleTask exampleEmptyRegistry = .ok s ∧
      s.Fields =
        (sortStrings (keys exampleTask.Fields)).map
            (fun n => (⟨n, GetFieldType (mapGet exampleTask.Fields n).Type_⟩ : Field)) ++
          (sortStrings (keys exampleTask.Related)).flatMap (fun n =>
            if (IsRelationFor (mapGet exampleTask.Related n).Type_ &&
                IsRelationOne (mapGet exampleTask.Related n).Type_) = true then
              if IsRelationPoly (mapGet exampleTask.Related n).Type_ = true then
                [(⟨ToCamelCase (n ++ "_type"), TypeString⟩ : Field),
                  ⟨ToCamelCase (n ++ "_id"), TypeString⟩]
              else [⟨ToCamelCase (n ++ "_id"), TypeString⟩]
            else []) ++
          (sortStrings (keys exampleTask.Related)).map
            (fun n => (⟨"_nav_" ++ n,
              navigationType n (mapGet exampleTask.Related n) exampleEmptyRegistry⟩ : Field)) ∧
      (∀ e ∈ exampleTask.Related, mapGet exampleTask.Related e.1 = e.2) ∧
      TypeString.GetName = "str" ∧
      s.Fields.length = exampleTask.Fields.length +
        exampleTask.Related.countP (fun rl =>
          IsRelationFor rl.2.Type_ && IsRelationOne rl.2.Type_ && !IsRelationPoly rl.2.Type_) +
        2 * exampleTask.Related.countP (fun rl =>
          IsRelationPoly rl.2.Type_ && IsRelationFor rl.2.Type_ && IsRelationOne rl.2.Type_) +
        exampleTask.Related.length :=
  ⟨by decide, (CompileModel_field_count exampleTask exampleEmptyRegistry (by decide)).1⟩
/-- C16: if a polymorphic relation with an empty `For` list names `through = T`
and exactly one model `M` of the registry declares a polymorphic relation named
`T`, then the navigation type that `CompileModel` gives the relation is `M`
(`List[M]` for a many relation). -/
theorem CompileModel_through_resolves (model : Model) (r : Registry) (relName M : String)
    (rel : ModelRelation) (hnd : (keys model.Related).Nodup)
    (hr : (relName, rel) ∈ model.Related) (hpoly : IsRelationPoly rel.Type_ = true)
    (hFor : rel.For = []) (hT : rel.Through ≠ "")
    (hM : ∃ mdl, (M, mdl) ∈ r.models ∧
      ∃ rl ∈ mdl.Related, rl.1 = rel.Through ∧ IsRelationPoly rl.2.Type_ = true)
    (huniq : ∀ e ∈ r.models,
      (∃ rl ∈ e.2.Related, rl.1 = rel.Through ∧ IsRelationPoly rl.2.Type_ = true) → e.1 = M) :
    ∃ s, CompileModel model r = .ok s ∧ navigationField relName rel r ∈ s.Fields ∧
      navigationField relName rel r =
        ⟨"_nav_" ++ relName,
          if IsRelationMany rel.Type_ = true then .ArrayType (.BasicType M false)
          else .BasicType M false⟩ ∧
      (FormatType.BasicType M false).GetName = M ∧
      (FormatType.ArrayType (.BasicType M false)).GetName = "List[" ++ M ++ "]" := by
  refine ⟨_, rfl, List.mem_append_right _ (navigationField_mem model r relName rel hnd hr),
    ?_, rfl, rfl⟩
  have hfind : findPolyOwner rel.Through r.models = some M := by
    apply findPolyOwner_unique
    · obtain ⟨mdl, hm, hd⟩ := hM
      exact ⟨mdl, hm, (declaresPoly_iff _ _).2 hd⟩
    · exact fun e he hd => huniq e he ((declaresPoly_iff _ _).1 hd)
  simp only [navigationField, navigationType, hpoly, if_true, hFor, List.length_nil,
    gt_iff_lt, lt_self_iff_false, if_false, ne_eq, hT, not_false_eq_true,
    resolvePolymorphicThrough, hfind]

/-- Witness of C16: with `Comment` declaring the polymorphic relation
`commentable`, the relation of `Attachment` through `commentable` resolves to
`Comment`. -/
theorem CompileModel_through_resolves_witness :
    ∃ s, CompileModel exampleAttachment exampleThroughRegistry = .ok s ∧
      navigationField "Notes" ⟨"HasOnePoly", [], "commentable", ""⟩ exampleThroughRegistry
        ∈ s.Fields ∧
      navigationField "Notes" ⟨"HasOnePoly", [], "commentable", ""⟩ exampleThroughRegistry =
        ⟨"_nav_" ++ "Notes",
          if IsRelationMany "HasOnePoly" = true then .ArrayType (.BasicType "Comment" false)
          else .BasicType "Comment" false⟩ ∧
      (FormatType.BasicType "Comment" false).GetName = "Comment" ∧
      (FormatType.ArrayType (.BasicType "Comment" false)).GetName =
        "List[" ++ "Comment" ++ "]" :=
  CompileModel_through_resolves exampleAttachment exampleThroughRegistry "Notes" "Comment"
    ⟨"HasOnePoly", [], "commentable", ""⟩ (by decide) (by decide) (by decide) rfl (by decide)
    ⟨_, List.mem_cons_self _ _, _, List.mem_cons_self _ _, rfl, by decide⟩
    (by
      intro e he
      simp only [exampleThroughRegistry, exampleThroughModels, List.mem_cons,
        List.mem_singleton, List.not_mem_nil, or_false] at he
      rcases he with he | he
      · intro _; rw [he]
      · rw [he]
        rintro ⟨rl, hrl, h1, _⟩
        simp only [List.mem_singleton] at hrl
        rw [hrl] at h1
        exact absurd h1 (by decide))

/-- C17: if a polymorphic relation with an empty `For` list names a through
relation that no model of the registry declares as a polymorphic relation,
`CompileModel` returns no error and gives the relation's navigation field the
type `Any` (`List[Any]` for a many relation). -/
theorem CompileModel_through_unresolved (model : Model) (r : Registry) (relName : String)
    (rel : ModelRelation) (hnd : (keys model.Related).Nodup)
    (hr : (relName, rel) ∈ model.Related) (hpoly : IsRelationPoly rel.Type_ = true)
    (hFor : rel.For = [])
    (hnone : ∀ e ∈ r.models,
      ¬ ∃ rl ∈ e.2.Related, rl.1 = rel.Through ∧ IsRelationPoly rl.2.Type_ = true) :
    ∃ s, CompileModel model r = .ok s ∧ navigationField relName rel r ∈ s.Fields ∧
      navigationField relName rel r =
        ⟨"_nav_" ++ relName,
          if IsRelationMany rel.Type_ = true then .ArrayType TypeAny else TypeAny⟩ ∧
      TypeAny.GetName = "Any" ∧ (FormatType.ArrayType TypeAny).GetName = "List[Any]" := by
  refine ⟨_, rfl, List.mem_append_right _ (navigationField_mem model r relName rel hnd hr),
    ?_, rfl, by decide⟩
  have hfind : findPolyOwner rel.Through r.models = none :=
    findPolyOwner_none _ _ fun e he hd => hnone e he ((declaresPoly_iff _ _).1 hd)
  simp only [navigationField, navigationType, hpoly, if_true, hFor, List.length_nil,
    gt_iff_lt, lt_self_iff_false, if_false, resolvePolymorphicThrough, hfind]
  by_cases hT : rel.Through = ""
  · simp [hT]
  · simp [hT]

/-- Witness of C17: in a registry that has only `Attachment`, its relation through
`commentable` gets the type `Any`. -/
theorem CompileModel_through_unresolved_witness :
    ∃ s, CompileModel exampleAttachment exampleOrphanRegistry = .ok s ∧
      navigationField "Notes" ⟨"HasOnePoly", [], "commentable", ""⟩ exampleOrphanRegistry
        ∈ s.Fields ∧
      navigationField "Notes" ⟨"HasOnePoly", [], "commentable", ""⟩ exampleOrphanRegistry =
        ⟨"_nav_" ++ "Notes",
          if IsRelationMany "HasOnePoly" = true then .ArrayType TypeAny else TypeAny⟩ ∧
      TypeAny.GetName = "Any" ∧ (FormatType.ArrayType TypeAny).GetName = "List[Any]" :=
  CompileModel_through_unresolved exampleAttachment exampleOrphanRegistry "Notes"
    ⟨"HasOnePoly", [], "commentable", ""⟩ (by decide) (by decide) (by decide) rfl
    (by
      intro e he
      simp only [exampleOrphanRegistry, List.mem_singleton] at he
      rw [he]
      rintro ⟨rl, hrl, h1, _⟩
      simp only [exampleAttachment, List.mem_singleton] at hrl
      rw [hrl] at h1
      exact absurd h1 (by decide))

/-- C18: for every non-polymorphic relation of a model, the navigation field that
`CompileModel` emits is named `_nav_` + relation name, and its type names the
relation's alias when an alias is set and the relation's own name otherwise,
wrapped as `List[...]` if and only if the relation is a many relation. -/
theorem CompileModel_plain_nav (model : Model) (r : Registry) (relName : String)
    (rel : ModelRelation) (hnd : (keys model.Related).Nodup)
    (hr : (relName, rel) ∈ model.Related) (hnp : IsRelationPoly rel.Type_ = false) :
    ∃ s, CompileModel model r = .ok s ∧ navigationField relName rel r ∈ s.Fields ∧
      navigationField relName rel r =
        ⟨"_nav_" ++ relName,
          if IsRelationMany rel.Type_ = true then
            .ArrayType (.BasicType (if rel.Aliased ≠ "" then rel.Aliased else relName) false)
          else .BasicType (if rel.Aliased ≠ "" then rel.Aliased else relName) false⟩ ∧
      ∀ t, (FormatType.ArrayType (.BasicType t false)).GetName = "List[" ++ t ++ "]" ∧
        (FormatType.BasicType t false).GetName = t := by
  refine ⟨_, rfl, List.mem_append_right _ (navigationField_mem model r relName rel hnd hr),
    ?_, fun t => ⟨rfl, rfl⟩⟩
  simp only [navigationField, navigationType, hnp, Bool.false_eq_true, if_false,
    GetRelationTargetName]

/-- Witness of C18: the relation `Author` of `Post`, aliased to `Person`. -/
theorem CompileModel_plain_nav_witness :
    ∃ s, CompileModel (mkModel "Post" [("Author", "Person", [])]) {} = .ok s ∧
      navigationField "Author" ⟨"ForOne", [], "", "Person"⟩ {} ∈ s.Fields ∧
      navigationField "Author" ⟨"ForOne", [], "", "Person"⟩ {} =
        ⟨"_nav_" ++ "Author",
          if IsRelationMany "ForOne" = true then
            .ArrayType (.BasicType (if "Person" ≠ "" then "Person" else "Author") false)
          else .BasicType (if "Person" ≠ "" then "Person" else "Author") false⟩ ∧
      ∀ t, (FormatType.ArrayType (.BasicType t false)).GetName = "List[" ++ t ++ "]" ∧
        (FormatType.BasicType t false).GetName = t :=
  CompileModel_plain_nav (mkModel "Post" [("Author", "Person", [])]) {} "Author"
    ⟨"ForOne", [], "", "Person"⟩ (by decide) (by decide) (by decide)
/-! ## Facts about `resolveEntityFieldType` -/

theorem walkRelations_ok_iff (r : Registry) :
    ∀ (segs : List String) (root cur : Model),
      walkRelations r root segs = .ok cur ↔ Reaches r root segs cur := by
  intro segs
  induction segs with
  | nil =>
    intro root cur
    constructor
    · intro h
      simp only [walkRelations, Except.ok.injEq] at h
      subst h
      exact Reaches.done root
    · intro h
      cases h
      rfl
  | cons seg rest ih =>
    intro root cur
    constructor
    · intro h
      unfold walkRelations at h
      cases hl : mapLookup root.Related seg with
      | none => rw [hl] at h; exact absurd h (by simp)
      | some rel =>
        rw [hl] at h
        simp only at h
        cases hg : r.GetModel (GetRelationTargetName seg rel.Aliased) with
        | none => rw [hg] at h; exact absurd h (by simp)
        | some next =>
          rw [hg] at h
          exact Reaches.hop root next cur seg rest rel hl hg ((ih next cur).1 h)
    · intro h
      cases h with
      | hop _ next _ _ _ rel hl hg hrest =>
        unfold walkRelations
        rw [hl]
        simp only
        rw [hg]
        exact (ih next cur).2 hrest

theorem walkRelations_error_iff (r : Registry) :
    ∀ (segs : List String) (root : Model),
      (∃ e, walkRelations r root segs = .error e) ↔ BrokenHop r root segs := by
  intro segs
  induction segs with
  | nil =>
    intro root
    constructor
    · rintro ⟨e, h⟩
      simp [walkRelations] at h
    · rintro ⟨pre, seg, post, cur, h, _⟩
      simp at h
  | cons seg rest ih =>
    intro root
    constructor
    · rintro ⟨e, h⟩
      unfold walkRelations at h
      cases hl : mapLookup root.Related seg with
      | none => exact ⟨[], seg, rest, root, rfl, Reaches.done root, Or.inl hl⟩
      | some rel =>
        rw [hl] at h
        simp only at h
        cases hg : r.GetModel (GetRelationTargetName seg rel.Aliased) with
        | none => exact ⟨[], seg, rest, root, rfl, Reaches.done root, Or.inr ⟨rel, hl, hg⟩⟩
        | some next =>
          rw [hg] at h
          obtain ⟨pre, s2, post, cur, hsplit, hreach, hbad⟩ := (ih next).1 ⟨e, h⟩
          exact ⟨seg :: pre, s2, post, cur, by rw [hsplit]; rfl,
            Reaches.hop root next cur seg pre rel hl hg hreach, hbad⟩
    · rintro ⟨pre, s2, post, cur, hsplit, hreach, hbad⟩
      cases hreach with
      | done =>
        simp only [List.nil_append, List.cons.injEq] at hsplit
        obtain ⟨h1, h2⟩ := hsplit
        subst h1 h2
        unfold walkRelations
        rcases hbad with hbad | ⟨rel, hl, hg⟩
        · rw [hbad]; exact ⟨_, rfl⟩
        · rw [hl]
          simp only
          rw [hg]
          exact ⟨_, rfl⟩
      | hop _ next _ s3 pre2 rel hl hg hrest =>
        simp only [List.cons_append, List.cons.injEq] at hsplit
        obtain ⟨h1, h2⟩ := hsplit
        subst h1 h2
        unfold walkRelations
        rw [hl]
        simp only
        rw [hg]
        exact (ih next).2 ⟨pre2, s2, post, cur, rfl, hrest, hbad⟩

theorem Reaches.unique {r : Registry} {root a b : Model} {segs : List String}
    (ha : Reaches r root segs a) (hb : Reaches r root segs b) : a = b := by
  have h1 := (walkRelations_ok_iff r segs root a).2 ha
  have h2 := (walkRelations_ok_iff r segs root b).2 hb
  rw [h1] at h2
  injection h2

theorem walkRelations_cases (r : Registry) (segs : List String) (root : Model) :
    BrokenHop r root segs ∨ ∃ cur, Reaches r root segs cur := by
  cases h : walkRelations r root segs with
  | error e => exact Or.inl ((walkRelations_error_iff r segs root).1 ⟨e, h⟩)
  | ok cur => exact Or.inr ⟨cur, (walkRelations_ok_iff r segs root cur).1 h⟩

theorem BrokenHop.not_reaches {r : Registry} {root cur : Model} {segs : List String}
    (hb : BrokenHop r root segs) (hr : Reaches r root segs cur) : False := by
  obtain ⟨e, he⟩ := (walkRelations_error_iff r segs root).2 hb
  rw [(walkRelations_ok_iff r segs root cur).2 hr] at he
  exact absurd he (by simp)

/-- The result of `resolveEntityFieldType` in terms of the walk. -/
theorem resolveEntityFieldType_ok_iff (fieldPath : String) (r : Registry) (ty : FormatType) :
    resolveEntityFieldType fieldPath r = .ok ty ↔
      2 ≤ (splitDots fieldPath).length ∧
        ∃ root cur field, r.GetModel ((splitDots fieldPath).getD 0 "") = some root ∧
          Reaches r root ((splitDots fieldPath).drop 1).dropLast cur ∧
          mapLookup cur.Fields ((splitDots fieldPath).getLastD "") = some field ∧
          ty = GetFieldType field.Type_ := by
  unfold resolveEntityFieldType
  simp only
  by_cases hlen : (splitDots fieldPath).length < 2
  · rw [if_pos hlen]
    constructor
    · intro h; exact absurd h (by simp)
    · rintro ⟨h, _⟩; omega
  · rw [if_neg hlen]
    cases hg : r.GetModel ((splitDots fieldPath).getD 0 "") with
    | none =>
      constructor
      · intro h; exact absurd h (by simp)
      · rintro ⟨_, root, cur, field, h, _⟩
        exact absurd h (by simp)
    | some root =>
      simp only
      cases hw : walkRelations r root ((splitDots fieldPath).drop 1).dropLast with
      | error e =>
        constructor
        · intro h; exact absurd h (by simp)
        · rintro ⟨_, root2, cur, field, h, hreach, _⟩
          injection h with h
          subst h
          rw [(walkRelations_ok_iff r _ _ _).2 hreach] at hw
          exact absurd hw (by simp)
      | ok cur =>
        simp only
        have hreach := (walkRelations_ok_iff r _ _ _).1 hw
        cases hf : mapLookup cur.Fields ((splitDots fieldPath).getLastD "") with
        | none =>
          constructor
          · intro h; exact absurd h (by simp)
          · rintro ⟨_, root2, cur2, field, h, hreach2, hfield, _⟩
            injection h with h
            subst h
            rw [← hreach.unique hreach2, hf] at hfield
            exact absurd hfield (by simp)
        | some field =>
          simp only [Except.ok.injEq]
          constructor
          · intro h
            exact ⟨by omega, root, cur, field, rfl, hreach, hf, h.symm⟩
          · rintro ⟨_, root2, cur2, field2, h, hreach2, hfield, hty⟩
            injection h with h
            subst h
            rw [← hreach.unique hreach2, hf] at hfield
            injection hfield with hfield
            rw [hty, hfield]
/-- C19: `resolveEntityFieldType` fails if and only if the path has fewer than two
dot-separated segments, or segment 0 names no model of the registry, or some
intermediate segment is not a relation of the current model, or the target
model of such a relation (its alias when set, otherwise the relation name) is
not in the registry, or the final segment is not a field of the last model
reached; in every other case it succeeds. -/
theorem resolveEntityFieldType_fails_iff (fieldPath : String) (r : Registry) :
    ((∃ e, resolveEntityFieldType fieldPath r = .error e) ↔
        PathFails r (splitDots fieldPath)) ∧
      ((∃ ty, resolveEntityFieldType fieldPath r = .ok ty) ↔
        ¬ PathFails r (splitDots fieldPath)) := by
  have hok : (∃ ty, resolveEntityFieldType fieldPath r = .ok ty) ↔
      ¬ PathFails r (splitDots fieldPath) := by
    constructor
    · rintro ⟨ty, h⟩
      obtain ⟨hlen, root, cur, field, hg, hreach, hf, _⟩ :=
        (resolveEntityFieldType_ok_iff fieldPath r ty).1 h
      rintro (h1 | h1 | ⟨root2, hg2, h1⟩)
      · omega
      · rw [h1] at hg; exact absurd hg (by simp)
      · rw [hg] at hg2
        injection hg2 with hg2
        subst hg2
        rcases h1 with h1 | ⟨cur2, hreach2, hf2⟩
        · exact h1.not_reaches hreach
        · rw [hreach2.unique hreach, hf] at hf2
          exact absurd hf2 (by simp)
    · intro hnot
      have hlen : 2 ≤ (splitDots fieldPath).length := by
        by_contra hc
        exact hnot (Or.inl (by omega))
      cases hg : r.GetModel ((splitDots fieldPath).getD 0 "") with
      | none => exact absurd (Or.inr (Or.inl hg)) hnot
      | some root =>
        rcases walkRelations_cases r ((splitDots fieldPath).drop 1).dropLast root with
          hb | ⟨cur, hreach⟩
        · exact absurd (Or.inr (Or.inr ⟨root, hg, Or.inl hb⟩)) hnot
        · cases hf : mapLookup cur.Fields ((splitDots fieldPath).getLastD "") with
          | none => exact absurd (Or.inr (Or.inr ⟨root, hg, Or.inr ⟨cur, hreach, hf⟩⟩)) hnot
          | some field =>
            exact ⟨_, (resolveEntityFieldType_ok_iff fieldPath r _).2
              ⟨hlen, root, cur, field, hg, hreach, hf, rfl⟩⟩
  refine ⟨?_, hok⟩
  constructor
  · rintro ⟨e, he⟩
    by_contra hnot
    obtain ⟨ty, hty⟩ := hok.2 hnot
    rw [he] at hty
    exact absurd hty (by simp)
  · intro hfail
    cases h : resolveEntityFieldType fieldPath r with
    | error e => exact ⟨e, rfl⟩
    | ok ty => exact absurd hfail (hok.1 ⟨ty, h⟩)

/-- C20: for every path `Root.r1. ... .rn.f` that resolves, `resolveEntityFieldType`
returns `GetFieldType` of the declared type of the field `f` on the model
reached from `Root` by following `r1..rn`, where each hop goes to the model
named by the relation's alias when set and by the relation's name otherwise. -/
theorem resolveEntityFieldType_returns_field_type (fieldPath : String) (r : Registry)
    (ty : FormatType) (h : resolveEntityFieldType fieldPath r = .ok ty) :
    ∃ rootName inter f root cur field,
      splitDots fieldPath = rootName :: (inter ++ [f]) ∧
      r.GetModel rootName = some root ∧ Reaches r root inter cur ∧
      mapLookup cur.Fields f = some field ∧ ty = GetFieldType field.Type_ := by
  obtain ⟨hlen, root, cur, field, hg, hreach, hf, hty⟩ :=
    (resolveEntityFieldType_ok_iff fieldPath r ty).1 h
  cases hp : splitDots fieldPath with
  | nil => rw [hp] at hlen; simp at hlen
  | cons a rest =>
    rw [hp] at hlen hg hreach hf
    rcases List.eq_nil_or_concat rest with hrest | ⟨L, b, hrest⟩
    · rw [hrest] at hlen; simp at hlen
    · rw [List.concat_eq_append] at hrest
      subst hrest
      have e : (a :: (L ++ [b])).getLastD "" = b := by
        rw [← List.cons_append, List.getLastD_eq_getLast?, List.getLast?_concat]
        rfl
      rw [e] at hf
      refine ⟨a, L, b, root, cur, field, rfl, ?_, ?_, hf, hty⟩
      · simpa using hg
      · simpa using hreach

/-- Witness of C20: `Person.ContactInfo.email`, with the relation `ContactInfo` of
`Person` aliased to `Contact` and `Contact.email` of kind `String`, yields `str`. -/
theorem resolveEntityFieldType_returns_field_type_witness :
    resolveEntityFieldType "Person.ContactInfo.email" exampleContactRegistry = .ok TypeString ∧
      TypeString.GetName = "str" ∧
      ∃ rootName inter f root cur field,
        splitDots "Person.ContactInfo.email" = rootName :: (inter ++ [f]) ∧
        exampleContactRegistry.GetModel rootName = some root ∧
        Reaches exampleContactRegistry root inter cur ∧
        mapLookup cur.Fields f = some field ∧ TypeString = GetFieldType field.Type_ :=
  ⟨by decide, rfl,
    resolveEntityFieldType_returns_field_type "Person.ContactInfo.email"
      exampleContactRegistry TypeString (by decide)⟩

/-! ## The type map -/

theorem table_values_basic :
    ∀ e ∈ MorpheModelFieldToFormatType, e.2 = FormatType.BasicType e.2.GetName false := by
  decide

/-- C22: `GetFieldType` maps the kinds String, UUID, Protected and Sealed to
`str`, Integer and AutoIncrement to `int`, Float to `float`, Boolean to `bool`,
and Time and Date to `datetime`. -/
theorem GetFieldType_table :
    (GetFieldType "String").GetName = "str" ∧ (GetFieldType "UUID").GetName = "str" ∧
      (GetFieldType "Protected").GetName = "str" ∧ (GetFieldType "Sealed").GetName = "str" ∧
      (GetFieldType "Integer").GetName = "int" ∧
      (GetFieldType "AutoIncrement").GetName = "int" ∧
      (GetFieldType "Float").GetName = "float" ∧ (GetFieldType "Boolean").GetName = "bool" ∧
      (GetFieldType "Time").GetName = "datetime" ∧ (GetFieldType "Date").GetName = "datetime" ∧
      GetFieldType "String" = TypeString ∧ GetFieldType "UUID" = TypeString ∧
      GetFieldType "Protected" = TypeString ∧ GetFieldType "Sealed" = TypeString ∧
      GetFieldType "Integer" = TypeInteger ∧ GetFieldType "AutoIncrement" = TypeInteger ∧
      GetFieldType "Float" = TypeFloat ∧ GetFieldType "Boolean" = TypeBoolean ∧
      GetFieldType "Time" = TypeDate ∧ GetFieldType "Date" = TypeDate := by
  decide

/-- C23: for every field kind `GetFieldType` returns a basic type that is not
nullable, never an array type; for a kind outside the table the name of the
returned type is the kind itself. -/
theorem GetFieldType_basic_unwrapped (kind : String) :
    ∃ name, GetFieldType kind = .BasicType name false ∧
      (GetFieldType kind).IsNullable = false ∧
      (name = kind ∨ kind ∈ keys MorpheModelFieldToFormatType) := by
  unfold GetFieldType
  cases h : mapLookup MorpheModelFieldToFormatType kind with
  | none => exact ⟨kind, rfl, rfl, Or.inl rfl⟩
  | some t =>
    have hm := mapLookup_some_mem _ _ _ h
    have hb := table_values_basic _ hm
    simp only at hb
    refine ⟨t.GetName, hb, ?_, Or.inr ?_⟩
    · show t.IsNullable = false
      rw [hb]
      rfl
    · exact List.mem_map_of_mem Prod.fst hm

/-! ## Relation type tags and field paths -/

theorem mapLookup_map {α β : Type} (g : α → β) (m : List (String × α)) (k : String) :
    mapLookup (m.map fun e => (e.1, g e.2)) k = (mapLookup m k).map g := by
  induction m with
  | nil => rfl
  | cons e rest ih =>
    obtain ⟨k2, v2⟩ := e
    by_cases hk : k2 = k
    · simp [mapLookup, hk]
    · simp only [List.map_cons, mapLookup, hk, if_false, ih]

theorem GetModel_retag (f : String → String) (r : Registry) (name : String) :
    (retagRegistry f r).GetModel name = (r.GetModel name).map (retagModel f) := by
  simp only [Registry.GetModel, retagRegistry]
  exact mapLookup_map (retagModel f) r.models name

theorem walkRelations_retag (f : String → String) (r : Registry) (segs : List String) :
    ∀ cur : Model,
      walkRelations (retagRegistry f r) (retagModel f cur) segs =
        (walkRelations r cur segs).map (retagModel f) := by
  induction segs with
  | nil => intro cur; rfl
  | cons part rest ih =>
    intro cur
    have hl : mapLookup (retagModel f cur).Related part =
        (mapLookup cur.Related part).map (retagRelation f) :=
      mapLookup_map (retagRelation f) cur.Related part
    simp only [walkRelations, hl]
    cases h1 : mapLookup cur.Related part with
    | none => rfl
    | some rel =>
      have ha : (retagRelation f rel).Aliased = rel.Aliased := rfl
      simp only [Option.map_some', GetModel_retag, ha]
      cases h2 : r.GetModel (GetRelationTargetName part rel.Aliased) with
      | none => rfl
      | some next => exact ih next

/-- C21, counterexample: the path `Comment.Owner.Name` has the intermediate
segment `Owner`, a polymorphic relation of `Comment` (type `ForOnePoly`), and
resolves to `str`. -/
theorem resolveEntityFieldType_follows_poly_hop :
    IsRelationPoly "ForOnePoly" = true ∧
      mapLookup exampleComment.Related "Owner" =
        some { Type_ := "ForOnePoly", For := ["Person", "Team"], Through := "",
               Aliased := "Person" } ∧
      examplePolyHopRegistry.GetModel "Comment" = some exampleComment ∧
      resolveEntityFieldType "Comment.Owner.Name" examplePolyHopRegistry = .ok TypeString := by
  decide

/-- C21, amended: `resolveEntityFieldType` does not look at the type tags of the
relations it follows. Replacing the type tag of every relation of the registry
(polymorphic by non-polymorphic or the reverse) leaves the result of every
path unchanged: a polymorphic intermediate relation is followed like any other
one, to the model named by its alias or else by its own name. -/
theorem resolveEntityFieldType_ignores_relation_type (f : String → String) (r : Registry)
    (fieldPath : String) :
    resolveEntityFieldType fieldPath (retagRegistry f r) = resolveEntityFieldType fieldPath r := by
  unfold resolveEntityFieldType
  simp only [GetModel_retag]
  by_cases hlen : (splitDots fieldPath).length < 2
  · simp only [hlen, if_true]
  · simp only [hlen, if_false]
    cases hroot : r.GetModel ((splitDots fieldPath).getD 0 "") with
    | none => rfl
    | some root =>
      simp only [Option.map_some', walkRelations_retag]
      cases hw : walkRelations r root ((splitDots fieldPath).drop 1).dropLast with
      | error e => rfl
      | ok cur => rfl

/-! ## The order of `sortStrings` -/

theorem strLess_false_iff (a b : String) : strLess b a = false ↔ a ≤ b := by
  rw [← not_lt, ← strLess_iff]
  simp

theorem sortStrings_sorted (names : List String) :
    (sortStrings names).Pairwise fun a b => strLess b a = false := by
  have htot : IsTotal String (fun a b => strLess b a = false) :=
    ⟨fun a b => by
      rw [strLess_false_iff, strLess_false_iff]
      exact le_total a b⟩
  have htrans : IsTrans String (fun a b => strLess b a = false) :=
    ⟨fun a b d hab hbd => by
      rw [strLess_false_iff] at hab hbd ⊢
      exact le_trans hab hbd⟩
  exact List.sorted_insertionSort (fun a b => strLess b a = false) names

theorem sortStrings_strict (names : List String) (hnd : names.Nodup) :
    (sortStrings names).Pairwise fun a b => strLess a b = true := by
  have hnd2 : (sortStrings names).Nodup := (sortStrings_perm names).nodup_iff.2 hnd
  refine List.Pairwise.imp₂ ?_ (sortStrings_sorted names) hnd2
  intro a b hab hne
  rw [strLess_false_iff] at hab
  rw [strLess_iff]
  exact lt_of_le_of_ne hab hne

theorem sortStrings_length (names : List String) :
    (sortStrings names).length = names.length :=
  (sortStrings_perm names).length_eq

/-! ## The order of the fields of a compiled model -/

/-- C24: in the struct that `CompileModel` returns, the declared fields come
first, in strictly ascending order of field name, one for each declared field
and typed by `GetFieldType` of its kind; the navigation fields are the last
fields, in strictly ascending order of relation name, one for each relation. -/
theorem CompileModel_field_order (model : Model) (r : Registry)
    (hf : (keys model.Fields).Nodup) (hr : (keys model.Related).Nodup) :
    ∃ (s : Struct) (fieldNames : List String) (generated : List Field)
      (relNames : List String),
      CompileModel model r = .ok s ∧
      s.Fields =
        fieldNames.map (fun n => (⟨n, GetFieldType (mapGet model.Fields n).Type_⟩ : Field)) ++
          generated ++
          relNames.map (fun n => navigationField n (mapGet model.Related n) r) ∧
      fieldNames.Pairwise (fun a b => strLess a b = true) ∧
      fieldNames.Perm (keys model.Fields) ∧
      (∀ e ∈ model.Fields, (mapGet model.Fields e.1).Type_ = e.2.Type_) ∧
      relNames.Pairwise (fun a b => strLess a b = true) ∧
      relNames.Perm (keys model.Related) ∧
      (∀ e ∈ model.Related, mapGet model.Related e.1 = e.2) := by
  refine ⟨⟨model.Name, declaredFields model ++ relationFields model r⟩,
    sortStrings (keys model.Fields),
    (sortStrings (keys model.Related)).flatMap
      (fun n => generatedFields n (mapGet model.Related n)),
    sortStrings (keys model.Related), rfl, ?_, sortStrings_strict _ hf, sortStrings_perm _,
    ?_, sortStrings_strict _ hr, sortStrings_perm _, ?_⟩
  · show declaredFields model ++ relationFields model r = _
    have hrel : relationFields model r =
        (sortStrings (keys model.Related)).flatMap
            (fun n => generatedFields n (mapGet model.Related n)) ++
          (sortStrings (keys model.Related)).map
            (fun n => navigationField n (mapGet model.Related n) r) := by
      unfold relationFields
      by_cases hlen : model.Related.length > 0
      · simp only [hlen, if_true]
      · have hnil : model.Related = [] := by
          cases hm : model.Related with
          | nil => rfl
          | cons a l => rw [hm] at hlen; simp at hlen
        simp only [hnil, List.length_nil, gt_iff_lt, lt_self_iff_false, if_false, keys,
          List.map_nil, sortStrings, List.insertionSort, List.flatMap_nil, List.append_nil]
    rw [hrel, declaredFields, List.append_assoc]
  · intro e he
    rw [mapGet_of_mem model.Fields e.1 e.2 hf he]
  · intro e he
    exact mapGet_of_mem model.Related e.1 e.2 hr he

/-- Witness of C24: the model `InvoiceLine` with the fields `Quantity` and `Amount`
and the relations `Product` and `Invoice`. -/
theorem CompileModel_field_order_witness :
    CompileModel exampleInvoiceLine exampleOrphanRegistry =
      .ok ⟨"InvoiceLine",
        [⟨"Amount", TypeFloat⟩, ⟨"Quantity", TypeInteger⟩, ⟨"invoiceId", TypeString⟩,
          ⟨"productId", TypeString⟩, ⟨"_nav_Invoice", .BasicType "Invoice" false⟩,
          ⟨"_nav_Product", .BasicType "Product" false⟩]⟩ ∧
    ∃ (s : Struct) (fieldNames : List String) (generated : List Field)
      (relNames : List String),
      CompileModel exampleInvoiceLine exampleOrphanRegistry = .ok s ∧
      s.Fields =
        fieldNames.map
            (fun n => (⟨n, GetFieldType (mapGet exampleInvoiceLine.Fields n).Type_⟩ : Field)) ++
          generated ++
          relNames.map
            (fun n => navigationField n (mapGet exampleInvoiceLine.Related n)
              exampleOrphanRegistry) ∧
      fieldNames.Pairwise (fun a b => strLess a b = true) ∧
      fieldNames.Perm (keys exampleInvoiceLine.Fields) ∧
      (∀ e ∈ exampleInvoiceLine.Fields,
        (mapGet exampleInvoiceLine.Fields e.1).Type_ = e.2.Type_) ∧
      relNames.Pairwise (fun a b => strLess a b = true) ∧
      relNames.Perm (keys exampleInvoiceLine.Related) ∧
      (∀ e ∈ exampleInvoiceLine.Related, mapGet exampleInvoiceLine.Related e.1 = e.2) :=
  ⟨by decide,
    CompileModel_field_order exampleInvoiceLine exampleOrphanRegistry (by decide) (by decide)⟩

/-! ## Generated fields and navigation fields -/

theorem entityFieldsLoop_cases (entity : Entity) (r : Registry) (names : List String) :
    ∀ acc : List Field,
      (∃ err, entityFieldsLoop entity r names acc = .error err ∧
        ∃ n ∈ names, ∃ e, resolveEntityFieldType (mapGet entity.Fields n).Type_ r = .error e) ∨
      (∃ fields, entityFieldsLoop entity r names acc = .ok (acc ++ fields) ∧
        fields.length = names.length ∧
        ∀ n ∈ names, ∃ t, resolveEntityFieldType (mapGet entity.Fields n).Type_ r = .ok t) := by
  induction names with
  | nil =>
    intro acc
    exact Or.inr ⟨[], by simp [entityFieldsLoop], rfl, by simp⟩
  | cons n rest ih =>
    intro acc
    cases hres : resolveEntityFieldType (mapGet entity.Fields n).Type_ r with
    | error e =>
      refine Or.inl ⟨"failed to resolve field type for " ++ n ++ ": " ++ e, ?_, n,
        List.mem_cons_self _ _, e, hres⟩
      simp only [entityFieldsLoop, hres]
    | ok t =>
      rcases ih (acc ++ [⟨n, t⟩]) with ⟨err, h1, m, hm, e, he⟩ | ⟨fields, h1, h2, h3⟩
      · refine Or.inl ⟨err, ?_, m, List.mem_cons_of_mem _ hm, e, he⟩
        simp only [entityFieldsLoop, hres, h1]
      · refine Or.inr ⟨⟨n, t⟩ :: fields, ?_, by simp [h2], ?_⟩
        · simp only [entityFieldsLoop, hres, h1, List.append_assoc, List.singleton_append]
        · intro m hm
          rcases List.mem_cons.1 hm with rfl | hm
          · exact ⟨t, hres⟩
          · exact h3 m hm

theorem CompileEntity_ok_fields (entity : Entity) (r : Registry) (s : Struct)
    (hs : CompileEntity entity r = .ok s) :
    ∃ fields, s.Fields = fields ++ entityRelatedFields entity ∧
      fields.length = entity.Fields.length ∧ s.Name = entity.Name := by
  unfold CompileEntity at hs
  rcases entityFieldsLoop_cases entity r (sortStrings (keys entity.Fields)) [] with
    ⟨err, h1, _⟩ | ⟨fields, h1, h2, _⟩
  · rw [h1] at hs
    cases hs
  · rw [h1] at hs
    simp only [List.nil_append, Except.ok.injEq] at hs
    subst hs
    refine ⟨fields, rfl, ?_, rfl⟩
    rw [h2, sortStrings_length, keys, List.length_map]

theorem flatMap_split {α β : Type} (f : α → List β) (l1 l2 : List α) (a : α) :
    (l1 ++ a :: l2).flatMap f = l1.flatMap f ++ f a ++ l2.flatMap f := by
  simp [List.flatMap_append, List.flatMap_cons, List.append_assoc]

/-- C25: in the struct that `CompileModel` returns, the fields generated for a
relation stand before the navigation field of that relation; in the struct that
`CompileEntity` returns, the fields generated for a relation stand directly
before its navigation field (a polymorphic relation that is not owning-one adds
no field); and for a polymorphic owning-one relation the generated fields are
the type field directly followed by the id field. -/
theorem generated_before_navigation (model : Model) (entity : Entity) (r : Registry)
    (se : Struct) (hm : (keys model.Related).Nodup) (he : (keys entity.Related).Nodup)
    (hse : CompileEntity entity r = .ok se) :
    (∀ n rel, (n, rel) ∈ model.Related →
      (∃ (sm : Struct) (pre mid post : List Field),
        CompileModel model r = .ok sm ∧
        sm.Fields = pre ++ generatedFields n rel ++ mid ++ navigationField n rel r :: post) ∧
      ((IsRelationPoly rel.Type_ && IsRelationFor rel.Type_ && IsRelationOne rel.Type_) = true →
        generatedFields n rel =
          [⟨ToCamelCase (n ++ "_type"), TypeString⟩, ⟨ToCamelCase (n ++ "_id"), TypeString⟩])) ∧
    (∀ n rel, (n, rel) ∈ entity.Related →
      (∃ pre post : List Field,
        se.Fields = pre ++ entityRelationFields n rel ++ post ∧
        (entityRelationFields n rel = [] ∨
          entityRelationFields n rel =
            entityGeneratedFields n rel ++ [entityNavigationField n rel])) ∧
      ((IsRelationPoly rel.Type_ && IsRelationFor rel.Type_ && IsRelationOne rel.Type_) = true →
        entityRelationFields n rel =
          [⟨ToSnakeCase (n ++ "_type"), TypeString⟩, ⟨ToSnakeCase (n ++ "_id"), TypeString⟩,
            entityNavigationField n rel])) := by
  refine ⟨?_, ?_⟩
  · intro n rel hmem
    refine ⟨?_, ?_⟩
    · have hn : n ∈ sortStrings (keys model.Related) :=
        (mem_sortStrings _ _).2 (List.mem_map_of_mem Prod.fst hmem)
      obtain ⟨l1, l2, hsplit⟩ := List.append_of_mem hn
      have hget : mapGet model.Related n = rel := mapGet_of_mem _ _ _ hm hmem
      have hlen : model.Related.length > 0 := List.length_pos_of_mem hmem
      refine ⟨⟨model.Name, declaredFields model ++ relationFields model r⟩,
        declaredFields model ++
          l1.flatMap (fun x => generatedFields x (mapGet model.Related x)),
        l2.flatMap (fun x => generatedFields x (mapGet model.Related x)) ++
          l1.map (fun x => navigationField x (mapGet model.Related x) r),
        l2.map (fun x => navigationField x (mapGet model.Related x) r), rfl, ?_⟩
      show declaredFields model ++ relationFields model r = _
      unfold relationFields
      simp only [hlen, if_true, hsplit, flatMap_split, List.map_append, List.map_cons, hget,
        List.append_assoc, List.cons_append]
    · intro h
      simp only [generatedFields, h, if_true]
  · intro n rel hmem
    obtain ⟨fields, hfields, -, -⟩ := CompileEntity_ok_fields entity r se hse
    refine ⟨?_, ?_⟩
    · have hn : n ∈ sortStrings (keys entity.Related) :=
        (mem_sortStrings _ _).2 (List.mem_map_of_mem Prod.fst hmem)
      obtain ⟨l1, l2, hsplit⟩ := List.append_of_mem hn
      have hget : mapGet entity.Related n = rel := mapGet_of_mem _ _ _ he hmem
      have hlen : entity.Related.length > 0 := List.length_pos_of_mem hmem
      refine ⟨fields ++ l1.flatMap (fun x => entityRelationFields x (mapGet entity.Related x)),
        l2.flatMap (fun x => entityRelationFields x (mapGet entity.Related x)), ?_, ?_⟩
      · rw [hfields]
        unfold entityRelatedFields
        simp only [hlen, if_true, hsplit, flatMap_split, hget, List.append_assoc]
      · simp only [entityRelationFields]
        cases h1 : (IsRelationPoly rel.Type_ && IsRelationFor rel.Type_ &&
            IsRelationOne rel.Type_) with
        | true => exact Or.inr (by simp only [if_true])
        | false =>
          cases h2 : IsRelationPoly rel.Type_ with
          | true => exact Or.inl (by simp only [Bool.false_eq_true, if_false, if_true])
          | false => exact Or.inr (by simp only [Bool.false_eq_true, if_false])
    · intro h
      simp only [entityRelationFields, entityGeneratedFields, h, if_true, List.cons_append,
        List.nil_append]

/-- Witness of C25: the model `Payment` with the relation `Payable` and the entity
`PersonView` with the relation `Owner`, both owning-one polymorphic. -/
theorem generated_before_navigation_witness :
    CompileEntity examplePersonView exampleContactRegistry =
      .ok ⟨"PersonView",
        [⟨"Email", TypeString⟩, ⟨"Name", TypeString⟩, ⟨"contact_id", TypeString⟩,
          ⟨"contact", .BasicType "Contact" false⟩, ⟨"owner_type", TypeString⟩,
          ⟨"owner_id", TypeString⟩,
          ⟨"owner", .BasicType "Union[\x27Person\x27, \x27Team\x27]" false⟩]⟩ ∧
    ((∃ (sm : Struct) (pre mid post : List Field),
        CompileModel examplePayment exampleOrphanRegistry = .ok sm ∧
        sm.Fields =
          pre ++ generatedFields "Payable" ⟨"ForOnePoly", ["Invoice", "Order"], "", ""⟩ ++ mid ++
            navigationField "Payable" ⟨"ForOnePoly", ["Invoice", "Order"], "", ""⟩
              exampleOrphanRegistry :: post) ∧
      generatedFields "Payable" ⟨"ForOnePoly", ["Invoice", "Order"], "", ""⟩ =
        [⟨ToCamelCase ("Payable" ++ "_type"), TypeString⟩,
          ⟨ToCamelCase ("Payable" ++ "_id"), TypeString⟩]) ∧
    ((∃ pre post : List Field,
        (⟨"PersonView",
          [⟨"Email", TypeString⟩, ⟨"Name", TypeString⟩, ⟨"contact_id", TypeString⟩,
            ⟨"contact", .BasicType "Contact" false⟩, ⟨"owner_type", TypeString⟩,
            ⟨"owner_id", TypeString⟩,
            ⟨"owner", .BasicType "Union[\x27Person\x27, \x27Team\x27]" false⟩]⟩ : Struct).Fields =
          pre ++ entityRelationFields "Owner" ⟨"ForOnePoly", ["Person", "Team"], "", ""⟩ ++ post) ∧
      entityRelationFields "Owner" ⟨"ForOnePoly", ["Person", "Team"], "", ""⟩ =
        [⟨ToSnakeCase ("Owner" ++ "_type"), TypeString⟩,
          ⟨ToSnakeCase ("Owner" ++ "_id"), TypeString⟩,
          entityNavigationField "Owner" ⟨"ForOnePoly", ["Person", "Team"], "", ""⟩]) :=
  have h := generated_before_navigation examplePayment examplePersonView exampleContactRegistry
    ⟨"PersonView",
      [⟨"Email", TypeString⟩, ⟨"Name", TypeString⟩, ⟨"contact_id", TypeString⟩,
        ⟨"contact", .BasicType "Contact" false⟩, ⟨"owner_type", TypeString⟩,
        ⟨"owner_id", TypeString⟩,
        ⟨"owner", .BasicType "Union[\x27Person\x27, \x27Team\x27]" false⟩]⟩
    (by decide) (by decide) (by decide)
  have h1 := h.1 "Payable" ⟨"ForOnePoly", ["Invoice", "Order"], "", ""⟩ (by decide)
  have h2 := h.2 "Owner" ⟨"ForOnePoly", ["Person", "Team"], "", ""⟩ (by decide)
  ⟨by decide, ⟨h1.1, h1.2 (by decide)⟩,
    ⟨let ⟨pre, post, hp, _⟩ := h2.1; ⟨pre, post, hp⟩, h2.2 (by decide)⟩⟩

/-! ## Failure of `CompileEntity` -/

/-- C26: `CompileEntity` returns an error exactly when the field path of at least
one field of the entity fails to resolve, and otherwise it returns a struct with
the name of the entity; the relations of the entity have no part in it. -/
theorem CompileEntity_error_iff (entity : Entity) (r : Registry)
    (hf : (keys entity.Fields).Nodup) :
    ((∃ err, CompileEntity entity r = .error err) ↔
      ∃ f ∈ entity.Fields, ∃ e, resolveEntityFieldType f.2.Type_ r = .error e) ∧
    ((∃ s, CompileEntity entity r = .ok s ∧ s.Name = entity.Name) ↔
      ∀ f ∈ entity.Fields, ∃ t, resolveEntityFieldType f.2.Type_ r = .ok t) ∧
    (∀ related : List (String × EntityRelation),
      (∃ err, CompileEntity { entity with Related := related } r = .error err) ↔
        ∃ err, CompileEntity entity r = .error err) := by
  have key : ∀ ent : Entity, ent.Fields = entity.Fields →
      ((∃ err, CompileEntity ent r = .error err) ∧
        ∃ f ∈ entity.Fields, ∃ e, resolveEntityFieldType f.2.Type_ r = .error e) ∨
      ((∃ s, CompileEntity ent r = .ok s ∧ s.Name = ent.Name) ∧
        ∀ f ∈ entity.Fields, ∃ t, resolveEntityFieldType f.2.Type_ r = .ok t) := by
    intro ent hent
    have hf2 : (keys ent.Fields).Nodup := by rw [hent]; exact hf
    rcases entityFieldsLoop_cases ent r (sortStrings (keys ent.Fields)) [] with
      ⟨err, h1, n, hn, e, he⟩ | ⟨fields, h1, -, h3⟩
    · left
      refine ⟨⟨err, by simp only [CompileEntity, h1]⟩, ?_⟩
      rw [mem_sortStrings, keys, List.mem_map] at hn
      obtain ⟨f, hfm, rfl⟩ := hn
      rw [mapGet_of_mem ent.Fields f.1 f.2 hf2 hfm] at he
      exact ⟨f, hent ▸ hfm, e, he⟩
    · right
      refine ⟨⟨⟨ent.Name, [] ++ fields ++ entityRelatedFields ent⟩,
        by simp only [CompileEntity, h1], rfl⟩, ?_⟩
      intro f hfm
      have hfm2 : f ∈ ent.Fields := hent ▸ hfm
      obtain ⟨t, ht⟩ := h3 f.1 ((mem_sortStrings _ _).2 (List.mem_map_of_mem Prod.fst hfm2))
      rw [mapGet_of_mem ent.Fields f.1 f.2 hf2 hfm2] at ht
      exact ⟨t, ht⟩
  have excl : ∀ ent : Entity, (∃ err, CompileEntity ent r = .error err) →
      (∃ s, CompileEntity ent r = .ok s ∧ s.Name = ent.Name) → False := by
    rintro ent ⟨err, h1⟩ ⟨s, h2, -⟩
    rw [h1] at h2
    cases h2
  have excl2 : (∃ f ∈ entity.Fields, ∃ e, resolveEntityFieldType f.2.Type_ r = .error e) →
      (∀ f ∈ entity.Fields, ∃ t, resolveEntityFieldType f.2.Type_ r = .ok t) → False := by
    rintro ⟨f, hfm, e, he⟩ hall
    obtain ⟨t, ht⟩ := hall f hfm
    rw [he] at ht
    cases ht
  refine ⟨?_, ?_, ?_⟩
  · constructor
    · intro h
      rcases key entity rfl with ⟨-, h2⟩ | ⟨h1, -⟩
      · exact h2
      · exact (excl entity h h1).elim
    · intro h
      rcases key entity rfl with ⟨h1, -⟩ | ⟨-, h2⟩
      · exact h1
      · exact (excl2 h h2).elim
  · constructor
    · intro h
      rcases key entity rfl with ⟨h1, -⟩ | ⟨-, h2⟩
      · exact (excl entity h1 h).elim
      · exact h2
    · intro h
      rcases key entity rfl with ⟨-, h2⟩ | ⟨h1, -⟩
      · exact (excl2 h2 h).elim
      · exact h1
  · intro related
    constructor
    · intro h
      rcases key entity rfl with ⟨h1, -⟩ | ⟨-, h2⟩
      · exact h1
      · rcases key { entity with Related := related } rfl with ⟨-, h3⟩ | ⟨h3, -⟩
        · exact (excl2 h3 h2).elim
        · exact (excl _ h h3).elim
    · intro h
      rcases key { entity with Related := related } rfl with ⟨h1, -⟩ | ⟨-, h2⟩
      · exact h1
      · rcases key entity rfl with ⟨-, h3⟩ | ⟨h3, -⟩
        · exact (excl2 h3 h2).elim
        · exact (excl _ h h3).elim

/-- Witness of C26: the entity `BrokenView` has the field path `Order.Total` whose
root model is not in the registry, and its compilation fails. -/
theorem CompileEntity_error_iff_witness :
    CompileEntity exampleBrokenView exampleContactRegistry =
      .error "failed to resolve field type for Total: model Order not found" ∧
    (((∃ err, CompileEntity exampleBrokenView exampleContactRegistry = .error err) ↔
      ∃ f ∈ exampleBrokenView.Fields, ∃ e,
        resolveEntityFieldType f.2.Type_ exampleContactRegistry = .error e) ∧
    ((∃ s, CompileEntity exampleBrokenView exampleContactRegistry = .ok s ∧
        s.Name = exampleBrokenView.Name) ↔
      ∀ f ∈ exampleBrokenView.Fields, ∃ t,
        resolveEntityFieldType f.2.Type_ exampleContactRegistry = .ok t) ∧
    (∀ related : List (String × EntityRelation),
      (∃ err, CompileEntity { exampleBrokenView with Related := related }
          exampleContactRegistry = .error err) ↔
        ∃ err, CompileEntity exampleBrokenView exampleContactRegistry = .error err)) :=
  ⟨by decide, CompileEntity_error_iff exampleBrokenView exampleContactRegistry (by decide)⟩

/-! ## Entities without models -/

/-- C27, counterexample: the registry has an entity and no model, and the run
fails with the error of the enum step, which comes first, not with the error
about the missing models. -/
theorem MorpheToSQLAlchemy_enum_error_first :
    exampleNoModelsRegistry.HasEntities = true ∧ exampleNoModelsRegistry.HasModels = false ∧
      exampleFailingEnumRun.loadRegistry = .ok exampleNoModelsRegistry ∧
      MorpheToSQLAlchemy defaultFormatConfig exampleFailingEnumRun =
        some (some "failed to compile enums: disk full", [Stage.enums]) :=
  ⟨by decide, by decide, rfl, by decide⟩

/-- C27, amended: if the loaded registry has at least one entity and no models,
`MorpheToSQLAlchemy` returns an error and never calls the compilation of the
entities. The enum step and the structure step run first: if one of them
fails, the error is the wrapped error of the first that failed; if neither
fails, the error is `entities compilation requires models to be compiled`. -/
theorem MorpheToSQLAlchemy_entities_without_models (config : SQLAlchemyConfig) (env : RunEnv)
    (r : Registry) (hload : env.loadRegistry = .ok r) (hent : r.HasEntities = true)
    (hmod : r.HasModels = false) :
    ∃ res err, MorpheToSQLAlchemy config env = some res ∧ res.1 = some err ∧
      Stage.entities ∉ res.2 ∧
      Stage.models ∉ res.2 ∧
      (∀ e, r.HasEnums = true → env.writeAllEnums = some e →
        err = "failed to compile enums: " ++ e) ∧
      ((r.HasEnums = false ∨ env.writeAllEnums = none) →
        ∀ e, r.HasStructures = true → env.compileAllStructures = some e →
          err = "failed to compile structures: " ++ e) ∧
      ((r.HasEnums = false ∨ env.writeAllEnums = none) →
        (r.HasStructures = false ∨ env.compileAllStructures = none) →
          err = "entities compilation requires models to be compiled") := by
  have hrun : MorpheToSQLAlchemy config env =
      RunResult.andThen (some (runEnums r env)) (RunResult.andThen (some (none, []))
        (RunResult.andThen (some (runStructures r env))
          (some (some "entities compilation requires models to be compiled", [])))) := by
    simp only [MorpheToSQLAlchemy, hload, runModels, runEntities, hmod, hent, if_true,
      Bool.false_eq_true, if_false, Bool.not_false]
  rw [hrun]
  cases he : r.HasEnums <;> cases hw : env.writeAllEnums <;>
    cases hs : r.HasStructures <;> cases hc : env.compileAllStructures <;>
    simp [runEnums, runStructures, CompileAllEnums, stageResult, RunResult.andThen, he, hw, hs,
      hc]

/-- Witness of C27: a run on a registry with an enum, an entity and no model in
which no write fails. -/
theorem MorpheToSQLAlchemy_entities_without_models_witness :
    MorpheToSQLAlchemy defaultFormatConfig exampleCleanRun =
        some (some "entities compilation requires models to be compiled", [Stage.enums]) ∧
      ∃ res err, MorpheToSQLAlchemy defaultFormatConfig exampleCleanRun = some res ∧
        res.1 = some err ∧
        Stage.entities ∉ res.2 ∧
        Stage.models ∉ res.2 ∧
        (∀ e, exampleNoModelsRegistry.HasEnums = true → exampleCleanRun.writeAllEnums = some e →
          err = "failed to compile enums: " ++ e) ∧
        ((exampleNoModelsRegistry.HasEnums = false ∨ exampleCleanRun.writeAllEnums = none) →
          ∀ e, exampleNoModelsRegistry.HasStructures = true →
            exampleCleanRun.compileAllStructures = some e →
              err = "failed to compile structures: " ++ e) ∧
        ((exampleNoModelsRegistry.HasEnums = false ∨ exampleCleanRun.writeAllEnums = none) →
          (exampleNoModelsRegistry.HasStructures = false ∨
              exampleCleanRun.compileAllStructures = none) →
            err = "entities compilation requires models to be compiled") :=
  ⟨by decide,
    MorpheToSQLAlchemy_entities_without_models defaultFormatConfig exampleCleanRun
      exampleNoModelsRegistry rfl (by decide) (by decide)⟩

/-! ## A run that panics -/

/-- With the declarative base, a run on a model with a relation aliased `List[`
panics in `generateModelContent`: the navigation field has the type text
`List[`, which is too short for the slice `fieldType[5 : len(fieldType)-1]`.
Without the declarative base no relationship line is written and the run
returns. -/
theorem MorpheToSQLAlchemy_short_list_alias :
    MorpheToSQLAlchemy defaultFormatConfig exampleShelfRun = none ∧
      MorpheToSQLAlchemy
          { defaultFormatConfig with UseDeclarative := false } exampleShelfRun =
        some (none, [Stage.models]) := by
  decide

/-! ## The import tracker keeps its lists free of repeats -/

theorem containsString_iff (l : List String) (x : String) :
    containsString l x = true ↔ x ∈ l := by
  induction l with
  | nil => simp [containsString]
  | cons a rest ih =>
    by_cases h : a = x
    · simp [containsString, h]
    · have h2 : ¬ x = a := fun e => h e.symm
      simp [containsString, h, h2, ih]

theorem keys_mapSet {α : Type} (m : List (String × α)) (k : String) (v : α) :
    keys (mapSet m k v) = if k ∈ keys m then keys m else keys m ++ [k] := by
  induction m with
  | nil => simp [mapSet, keys]
  | cons e rest ih =>
    obtain ⟨k2, w⟩ := e
    by_cases h : k2 = k
    · simp [mapSet, keys, h]
    · have h2 : ¬ k = k2 := fun e => h e.symm
      simp only [keys] at ih
      simp only [mapSet, h, if_false, keys, List.map_cons, ih, List.mem_cons, h2, false_or]
      split <;> simp

theorem mem_keys_mapSet {α : Type} (m : List (String × α)) (k : String) (v : α) (x : String) :
    x ∈ keys (mapSet m k v) ↔ x ∈ keys m ∨ x = k := by
  rw [keys_mapSet]
  by_cases h : k ∈ keys m
  · simp only [h, if_true]
    constructor
    · exact Or.inl
    · rintro (h1 | rfl)
      · exact h1
      · exact h
  · simp [h]

theorem nodup_keys_mapSet {α : Type} (m : List (String × α)) (k : String) (v : α)
    (h : (keys m).Nodup) : (keys (mapSet m k v)).Nodup := by
  rw [keys_mapSet]
  by_cases hk : k ∈ keys m
  · simpa [hk] using h
  · simp only [hk, if_false]
    exact List.Nodup.append h (List.nodup_singleton k) (by simpa using hk)

theorem mapSet_ne_nil {α : Type} (m : List (String × α)) (k : String) (v : α) :
    mapSet m k v ≠ [] := by
  cases m with
  | nil => simp [mapSet]
  | cons e rest =>
    obtain ⟨k2, w⟩ := e
    by_cases h : k2 = k <;> simp [mapSet, h]

theorem AddTyping_spec (imports : List String) :
    ∀ it : ImportTracker,
      (it.AddTyping imports).sqlalchemy = it.sqlalchemy ∧
      (it.AddTyping imports).datetime = it.datetime ∧
      (it.AddTyping imports).enums = it.enums ∧
      (it.AddTyping imports).models = it.models ∧
      (it.AddTyping imports).registry = it.registry ∧
      (it.AddTyping imports).fromImports = it.fromImports ∧
      (it.typing.Nodup → (it.AddTyping imports).typing.Nodup) ∧
      ∀ x, x ∈ (it.AddTyping imports).typing ↔ x ∈ it.typing ∨ x ∈ imports := by
  induction imports with
  | nil => intro it; simp [ImportTracker.AddTyping]
  | cons imp rest ih =>
    intro it
    simp only [ImportTracker.AddTyping, List.foldl_cons] at ih ⊢
    cases hc : containsString it.typing imp with
    | true =>
      have hmem := (containsString_iff _ _).1 hc
      simp only [Bool.not_true, Bool.false_eq_true, if_false]
      obtain ⟨h1, h2, h3, h4, h5, h6, h7, h8⟩ := ih it
      refine ⟨h1, h2, h3, h4, h5, h6, h7, ?_⟩
      intro x
      rw [h8 x, List.mem_cons]
      constructor
      · rintro (h | h)
        · exact Or.inl h
        · exact Or.inr (Or.inr h)
      · rintro (h | rfl | h)
        · exact Or.inl h
        · exact Or.inl hmem
        · exact Or.inr h
    | false =>
      have hmem : imp ∉ it.typing := fun h => by
        rw [(containsString_iff _ _).2 h] at hc
        cases hc
      simp only [Bool.not_false, if_true]
      obtain ⟨h1, h2, h3, h4, h5, h6, h7, h8⟩ := ih { it with typing := it.typing ++ [imp] }
      refine ⟨h1, h2, h3, h4, h5, h6, ?_, ?_⟩
      · intro hnd
        exact h7 (List.Nodup.append hnd (List.nodup_singleton imp) (by simpa using hmem))
      · intro x
        rw [h8 x, List.mem_cons]
        simp only [List.mem_append, List.mem_singleton]
        tauto

theorem AddSQLAlchemy_spec (imports : List String) :
    ∀ it : ImportTracker,
      (it.AddSQLAlchemy imports).typing = it.typing ∧
      (it.AddSQLAlchemy imports).datetime = it.datetime ∧
      (it.AddSQLAlchemy imports).enums = it.enums ∧
      (it.AddSQLAlchemy imports).models = it.models ∧
      (it.AddSQLAlchemy imports).registry = it.registry ∧
      (it.AddSQLAlchemy imports).fromImports = it.fromImports ∧
      (it.sqlalchemy.Nodup → (it.AddSQLAlchemy imports).sqlalchemy.Nodup) ∧
      ∀ x, x ∈ (it.AddSQLAlchemy imports).sqlalchemy ↔ x ∈ it.sqlalchemy ∨ x ∈ imports := by
  induction imports with
  | nil => intro it; simp [ImportTracker.AddSQLAlchemy]
  | cons imp rest ih =>
    intro it
    simp only [ImportTracker.AddSQLAlchemy, List.foldl_cons] at ih ⊢
    cases hc : containsString it.sqlalchemy imp with
    | true =>
      have hmem := (containsString_iff _ _).1 hc
      simp only [Bool.not_true, Bool.false_eq_true, if_false]
      obtain ⟨h1, h2, h3, h4, h5, h6, h7, h8⟩ := ih it
      refine ⟨h1, h2, h3, h4, h5, h6, h7, ?_⟩
      intro x
      rw [h8 x, List.mem_cons]
      constructor
      · rintro (h | h)
        · exact Or.inl h
        · exact Or.inr (Or.inr h)
      · rintro (h | rfl | h)
        · exact Or.inl h
        · exact Or.inl hmem
        · exact Or.inr h
    | false =>
      have hmem : imp ∉ it.sqlalchemy := fun h => by
        rw [(containsString_iff _ _).2 h] at hc
        cases hc
      simp only [Bool.not_false, if_true]
      obtain ⟨h1, h2, h3, h4, h5, h6, h7, h8⟩ :=
        ih { it with sqlalchemy := it.sqlalchemy ++ [imp] }
      refine ⟨h1, h2, h3, h4, h5, h6, ?_, ?_⟩
      · intro hnd
        exact h7 (List.Nodup.append hnd (List.nodup_singleton imp) (by simpa using hmem))
      · intro x
        rw [h8 x, List.mem_cons]
        simp only [List.mem_append, List.mem_singleton]
        tauto

theorem AddFrom_spec (module : String) (imports : List String) (it : ImportTracker) :
    (it.AddFrom module imports).typing = it.typing ∧
      (it.AddFrom module imports).sqlalchemy = it.sqlalchemy ∧
      (it.AddFrom module imports).datetime = it.datetime ∧
      (it.AddFrom module imports).enums = it.enums ∧
      (it.AddFrom module imports).models = it.models ∧
      (it.AddFrom module imports).registry = it.registry := by
  have hfold : ∀ (l : List String) (it1 : ImportTracker),
      let res := l.foldl
        (fun it imp =>
          if !containsString (mapGet it.fromImports module) imp then
            { it with
              fromImports := mapSet it.fromImports module (mapGet it.fromImports module ++ [imp]) }
          else it)
        it1
      res.typing = it1.typing ∧ res.sqlalchemy = it1.sqlalchemy ∧ res.datetime = it1.datetime ∧
        res.enums = it1.enums ∧ res.models = it1.models ∧ res.registry = it1.registry := by
    intro l
    induction l with
    | nil => intro it1; simp
    | cons imp rest ih =>
      intro it1
      simp only [List.foldl_cons]
      split
      · exact ih _
      · exact ih _
  unfold ImportTracker.AddFrom
  split
  · exact hfold imports _
  · exact hfold imports _

theorem TrackerInv.addTyping {r : Registry} {it : ImportTracker} (h : TrackerInv r it)
    (imports : List String) : TrackerInv r (it.AddTyping imports) := by
  obtain ⟨-, -, h3, h4, h5, -, h7, h8⟩ := AddTyping_spec imports it
  refine ⟨h5.trans h.registry_eq, h7 h.typing_nodup, ?_, ?_, ?_, ?_, ?_, ?_⟩
  · rw [(AddTyping_spec imports it).1]; exact h.sqlalchemy_nodup
  · rw [h3]; exact h.enums_nodup
  · rw [h4]; exact h.models_nodup
  · rw [h3]; exact h.enums_sound
  · rw [h4]; exact h.models_sound
  · rw [h4]
    intro hne
    exact (h8 _).2 (Or.inl (h.type_checking hne))

theorem TrackerInv.addSQLAlchemy {r : Registry} {it : ImportTracker} (h : TrackerInv r it)
    (imports : List String) : TrackerInv r (it.AddSQLAlchemy imports) := by
  obtain ⟨h1, -, h3, h4, h5, -, h7, -⟩ := AddSQLAlchemy_spec imports it
  refine ⟨h5.trans h.registry_eq, ?_, h7 h.sqlalchemy_nodup, ?_, ?_, ?_, ?_, ?_⟩
  · rw [h1]; exact h.typing_nodup
  · rw [h3]; exact h.enums_nodup
  · rw [h4]; exact h.models_nodup
  · rw [h3]; exact h.enums_sound
  · rw [h4]; exact h.models_sound
  · rw [h4, h1]; exact h.type_checking

theorem TrackerInv.addFrom {r : Registry} {it : ImportTracker} (h : TrackerInv r it)
    (module : String) (imports : List String) : TrackerInv r (it.AddFrom module imports) := by
  obtain ⟨h1, h2, -, h3, h4, h5⟩ := AddFrom_spec module imports it
  refine ⟨h5.trans h.registry_eq, ?_, ?_, ?_, ?_, ?_, ?_, ?_⟩
  · rw [h1]; exact h.typing_nodup
  · rw [h2]; exact h.sqlalchemy_nodup
  · rw [h3]; exact h.enums_nodup
  · rw [h4]; exact h.models_nodup
  · rw [h3]; exact h.enums_sound
  · rw [h4]; exact h.models_sound
  · rw [h4, h1]; exact h.type_checking

theorem TrackerInv.setDatetime {r : Registry} {it : ImportTracker} (h : TrackerInv r it) :
    TrackerInv r { it with datetime := true } :=
  ⟨h.registry_eq, h.typing_nodup, h.sqlalchemy_nodup, h.enums_nodup, h.models_nodup,
    h.enums_sound, h.models_sound, h.type_checking⟩

theorem resolveFieldType_enum (n : String) (r : Registry) :
    resolveFieldType n r = "enum" ↔ (r.GetEnum n).isSome = true := by
  unfold resolveFieldType
  cases (r.GetEnum n).isSome <;> cases (r.GetModel n).isSome <;> simp

theorem resolveFieldType_model (n : String) (r : Registry) :
    resolveFieldType n r = "model" ↔
      (r.GetEnum n).isSome = false ∧ (r.GetModel n).isSome = true := by
  unfold resolveFieldType
  cases (r.GetEnum n).isSome <;> cases (r.GetModel n).isSome <;> simp

/-- What one pass of the loop over the inner types does: the invariant is kept,
tracked names stay tracked, and the name of the pass is tracked by its kind. -/
theorem trackInnerType_spec {r : Registry} {it : ImportTracker} (h : TrackerInv r it)
    (n : String) :
    TrackerInv r (trackInnerType it n) ∧
      (∀ x ∈ keys it.enums, x ∈ keys (trackInnerType it n).enums) ∧
      (∀ x ∈ keys it.models, x ∈ keys (trackInnerType it n).models) ∧
      (isBasicType n = false → n ≠ "" →
        ((r.GetEnum n).isSome = true → n ∈ keys (trackInnerType it n).enums) ∧
        ((r.GetEnum n).isSome = false → (r.GetModel n).isSome = true →
          n ∈ keys (trackInnerType it n).models)) := by
  unfold trackInnerType
  by_cases hcond : (decide (n ≠ "") && !isBasicType n) = true
  · have hreg : resolveFieldType n it.registry = resolveFieldType n r := by
      rw [h.registry_eq]
    simp only [hcond, if_true, hreg]
    by_cases he : resolveFieldType n r = "enum"
    · have hen := (resolveFieldType_enum n r).1 he
      simp only [he, if_true]
      refine ⟨⟨h.registry_eq, h.typing_nodup, h.sqlalchemy_nodup,
        nodup_keys_mapSet _ _ _ h.enums_nodup, h.models_nodup, ?_, h.models_sound,
        h.type_checking⟩, ?_, fun x hx => hx, ?_⟩
      · intro x hx
        rcases (mem_keys_mapSet _ _ _ _).1 hx with hx | rfl
        · exact h.enums_sound x hx
        · exact hen
      · intro x hx
        exact (mem_keys_mapSet _ _ _ _).2 (Or.inl hx)
      · intro _ _
        refine ⟨fun _ => (mem_keys_mapSet _ _ _ _).2 (Or.inr rfl), ?_⟩
        intro hne
        rw [hen] at hne
        cases hne
    · simp only [he, if_false]
      by_cases hm : resolveFieldType n r = "model"
      · obtain ⟨hm1, hm2⟩ := (resolveFieldType_model n r).1 hm
        simp only [hm, if_true]
        have hspec := AddTyping_spec ["TYPE_CHECKING"]
          { it with models := mapSet it.models n true }
        obtain ⟨s1, -, s3, s4, s5, -, s7, s8⟩ := hspec
        refine ⟨⟨s5.trans h.registry_eq, s7 h.typing_nodup, ?_, ?_, ?_, ?_, ?_, ?_⟩, ?_, ?_, ?_⟩
        · rw [s1]; exact h.sqlalchemy_nodup
        · rw [s3]; exact h.enums_nodup
        · rw [s4]; exact nodup_keys_mapSet _ _ _ h.models_nodup
        · rw [s3]; exact h.enums_sound
        · rw [s4]
          intro x hx
          rcases (mem_keys_mapSet _ _ _ _).1 hx with hx | rfl
          · exact h.models_sound x hx
          · exact ⟨hm1, hm2⟩
        · intro _
          exact (s8 _).2 (Or.inr (List.mem_singleton.2 rfl))
        · rw [s3]; exact fun x hx => hx
        · rw [s4]
          intro x hx
          exact (mem_keys_mapSet _ _ _ _).2 (Or.inl hx)
        · intro _ _
          rw [s3, s4]
          refine ⟨?_, fun _ _ => (mem_keys_mapSet _ _ _ _).2 (Or.inr rfl)⟩
          intro hen
          rw [hm1] at hen
          cases hen
      · simp only [hm, if_false]
        refine ⟨h, fun x hx => hx, fun x hx => hx, ?_⟩
        intro _ _
        refine ⟨fun hen => absurd ((resolveFieldType_enum n r).2 hen) he, ?_⟩
        intro h1 h2
        exact absurd ((resolveFieldType_model n r).2 ⟨h1, h2⟩) hm
  · simp only [hcond, if_false]
    refine ⟨h, fun x hx => hx, fun x hx => hx, ?_⟩
    intro hb hne
    exfalso
    apply hcond
    simp [hb, hne]

theorem foldl_trackInnerType_spec {r : Registry} (names : List String) :
    ∀ it : ImportTracker, TrackerInv r it →
      TrackerInv r (names.foldl trackInnerType it) ∧
        (∀ x ∈ keys it.enums, x ∈ keys (names.foldl trackInnerType it).enums) ∧
        (∀ x ∈ keys it.models, x ∈ keys (names.foldl trackInnerType it).models) ∧
        (∀ n ∈ names, isBasicType n = false → n ≠ "" →
          ((r.GetEnum n).isSome = true → n ∈ keys (names.foldl trackInnerType it).enums) ∧
          ((r.GetEnum n).isSome = false → (r.GetModel n).isSome = true →
            n ∈ keys (names.foldl trackInnerType it).models)) := by
  induction names with
  | nil =>
    intro it h
    exact ⟨h, fun x hx => hx, fun x hx => hx, by simp⟩
  | cons a rest ih =>
    intro it h
    obtain ⟨h1, h2, h3, h4⟩ := trackInnerType_spec h a
    obtain ⟨i1, i2, i3, i4⟩ := ih (trackInnerType it a) h1
    simp only [List.foldl_cons]
    refine ⟨i1, fun x hx => i2 x (h2 x hx), fun x hx => i3 x (h3 x hx), ?_⟩
    intro n hn hb hne
    rcases List.mem_cons.1 hn with rfl | hn
    · obtain ⟨a1, a2⟩ := h4 hb hne
      exact ⟨fun he => i2 _ (a1 he), fun he hm => i3 _ (a2 he hm)⟩
    · exact i4 n hn hb hne

theorem TrackerInv.trackTyping {r : Registry} {it : ImportTracker} (h : TrackerInv r it)
    (typeName : String) : TrackerInv r (trackTyping it typeName) := by
  unfold Morphe.trackTyping
  have step : ∀ (it1 : ImportTracker) (b : Bool) (name : String), TrackerInv r it1 →
      TrackerInv r (if b = true then it1.AddTyping [name] else it1) := by
    intro it1 b name h1
    cases b
    · simpa using h1
    · simpa using h1.addTyping [name]
  exact step _ _ _ (step _ _ _ (step _ _ _ (step _ _ _ (step _ _ _ (step _ _ _ h)))))

theorem mem_extractAllInnerTypes_ne (typeName n : String)
    (hn : n ∈ extractAllInnerTypes typeName) : n ≠ "" := by
  unfold extractAllInnerTypes at hn
  simp only [List.mem_filter] at hn
  have h2 := hn.2
  simp only [Bool.and_eq_true, decide_eq_true_eq] at h2
  exact h2.1

theorem TrackFieldType_spec {r : Registry} {it : ImportTracker} (h : TrackerInv r it)
    (typeName : String) :
    TrackerInv r (it.TrackFieldType typeName) ∧
      (∀ n ∈ extractAllInnerTypes typeName, isBasicType n = false →
        ((r.GetEnum n).isSome = true → n ∈ keys (it.TrackFieldType typeName).enums) ∧
        ((r.GetEnum n).isSome = false → (r.GetModel n).isSome = true →
          n ∈ keys (it.TrackFieldType typeName).models)) := by
  unfold ImportTracker.TrackFieldType
  have h1 : TrackerInv r
      (if (decide (typeName = "datetime") || stringsContains typeName "datetime") = true then
        { trackTyping it typeName with datetime := true }
      else trackTyping it typeName) := by
    split
    · exact (h.trackTyping typeName).setDatetime
    · exact h.trackTyping typeName
  obtain ⟨i1, -, -, i4⟩ := foldl_trackInnerType_spec (extractAllInnerTypes typeName) _ h1
  exact ⟨i1, fun n hn hb => i4 n hn hb (mem_extractAllInnerTypes_ne typeName n hn)⟩

theorem NewImportTracker_inv (r : Registry) : TrackerInv r (NewImportTracker r) :=
  ⟨rfl, List.nodup_nil, List.nodup_nil, List.nodup_nil, List.nodup_nil,
    fun n hn => by simp [NewImportTracker, keys] at hn,
    fun n hn => by simp [NewImportTracker, keys] at hn,
    fun hne => absurd rfl hne⟩

theorem TrackerInv.call {r : Registry} {it : ImportTracker} (h : TrackerInv r it)
    (c : TrackerCall) : TrackerInv r (it.call c) := by
  cases c with
  | AddTyping imports => exact h.addTyping imports
  | AddSQLAlchemy imports => exact h.addSQLAlchemy imports
  | AddFrom module imports => exact h.addFrom module imports
  | TrackFieldType typeName => exact (TrackFieldType_spec h typeName).1

theorem runCalls_inv (r : Registry) (calls : List TrackerCall) :
    TrackerInv r (runCalls r calls) := by
  unfold runCalls
  have gen : ∀ (l : List TrackerCall) (it : ImportTracker), TrackerInv r it →
      TrackerInv r (l.foldl ImportTracker.call it) := by
    intro l
    induction l with
    | nil => intro it h; exact h
    | cons c rest ih => intro it h; exact ih _ (h.call c)
  exact gen calls _ (NewImportTracker_inv r)

/-! ## Enum imports and deferred model imports -/

/-- C28: after any calls on a new tracker, `TrackFieldType` on a type expression
leaves every non-basic type name `n` of the expression tracked as an enum import
exactly when the registry has an enum `n`, and as a model import under
`TYPE_CHECKING` exactly when the registry has no enum `n` but a model `n`; no
name with an enum in the registry is tracked as a model import, and no name is
tracked in both ways. -/
theorem TrackFieldType_enum_or_deferred (r : Registry) (calls : List TrackerCall)
    (typeName n : String) (hn : n ∈ extractAllInnerTypes typeName)
    (hb : isBasicType n = false) :
    (n ∈ keys ((runCalls r calls).TrackFieldType typeName).enums ↔
      (r.GetEnum n).isSome = true) ∧
    (n ∈ keys ((runCalls r calls).TrackFieldType typeName).models ↔
      (r.GetEnum n).isSome = false ∧ (r.GetModel n).isSome = true) ∧
    (∀ m, (r.GetEnum m).isSome = true →
      m ∉ keys ((runCalls r calls).TrackFieldType typeName).models) ∧
    (∀ m, ¬ (m ∈ keys ((runCalls r calls).TrackFieldType typeName).enums ∧
      m ∈ keys ((runCalls r calls).TrackFieldType typeName).models)) := by
  obtain ⟨hinv, hrec⟩ := TrackFieldType_spec (runCalls_inv r calls) typeName
  obtain ⟨h1, h2⟩ := hrec n hn hb
  refine ⟨⟨hinv.enums_sound n, h1⟩, ⟨hinv.models_sound n, fun h => h2 h.1 h.2⟩, ?_, ?_⟩
  · intro m hm hmem
    rw [(hinv.models_sound m hmem).1] at hm
    cases hm
  · rintro m ⟨he, hm⟩
    have := hinv.enums_sound m he
    rw [(hinv.models_sound m hm).1] at this
    cases this

/-- Witness of C28: on the type expression `Optional[Color]`, with an enum `Color`
in the registry, the name `Color` is tracked as an enum import and not as a
model import; on `List[Person]` the name `Person` is tracked as a model import. -/
theorem TrackFieldType_enum_or_deferred_witness :
    extractAllInnerTypes "Optional[Color]" = ["Optional", "Color"] ∧
    keys ((runCalls exampleTrackRegistry [.TrackFieldType "List[Person]"]).TrackFieldType
      "Optional[Color]").enums = ["Color"] ∧
    keys ((runCalls exampleTrackRegistry [.TrackFieldType "List[Person]"]).TrackFieldType
      "Optional[Color]").models = ["Person"] ∧
    (("Color" ∈ keys ((runCalls exampleTrackRegistry
          [.TrackFieldType "List[Person]"]).TrackFieldType "Optional[Color]").enums ↔
        (exampleTrackRegistry.GetEnum "Color").isSome = true) ∧
      ("Color" ∈ keys ((runCalls exampleTrackRegistry
          [.TrackFieldType "List[Person]"]).TrackFieldType "Optional[Color]").models ↔
        (exampleTrackRegistry.GetEnum "Color").isSome = false ∧
          (exampleTrackRegistry.GetModel "Color").isSome = true) ∧
      (∀ m, (exampleTrackRegistry.GetEnum m).isSome = true →
        m ∉ keys ((runCalls exampleTrackRegistry
          [.TrackFieldType "List[Person]"]).TrackFieldType "Optional[Color]").models) ∧
      (∀ m, ¬ (m ∈ keys ((runCalls exampleTrackRegistry
          [.TrackFieldType "List[Person]"]).TrackFieldType "Optional[Color]").enums ∧
        m ∈ keys ((runCalls exampleTrackRegistry
          [.TrackFieldType "List[Person]"]).TrackFieldType "Optional[Color]").models))) :=
  ⟨by decide, by decide, by decide,
    TrackFieldType_enum_or_deferred exampleTrackRegistry [.TrackFieldType "List[Person]"]
      "Optional[Color]" "Color" (by decide) (by decide)⟩

/-! ## The lines that `Generate` emits -/

theorem append_ne_empty (a b : String) (ha : a ≠ "") : a ++ b ≠ "" := by
  intro e
  apply ha
  have h := congrArg String.data e
  rw [String.data_append] at h
  have h2 : a.data = [] := (List.append_eq_nil.1 h).1
  exact String.ext h2

theorem Line_of_ne (cb : ContentBuilder) (line : String) (h : line ≠ "") :
    cb.Line line =
      { cb with lines := cb.lines ++ [stringsRepeat cb.indentStr cb.indentLevel ++ line] } := by
  simp only [ContentBuilder.Line, h, if_false]

theorem foldl_Line (f : String → String) (hne : ∀ n, f n ≠ "") (names : List String) :
    ∀ cb : ContentBuilder,
      names.foldl (fun cb n => cb.Line (f n)) cb =
        { cb with
          lines := cb.lines ++
            names.map (fun n => stringsRepeat cb.indentStr cb.indentLevel ++ f n) } := by
  induction names with
  | nil => intro cb; simp
  | cons a rest ih =>
    intro cb
    simp only [List.foldl_cons, Line_of_ne cb (f a) (hne a), ih, List.map_cons,
      List.append_assoc, List.singleton_append]

theorem length_pos_iff_ne_nil {α : Type} (l : List α) : l.length > 0 ↔ l ≠ [] := by
  cases l <;> simp

theorem generateFromImports_lines (it : ImportTracker) (cb : ContentBuilder) :
    generateFromImports it cb =
      { cb with
        lines := cb.lines ++
          (sortStrings (keys it.fromImports)).map (fun module =>
            stringsRepeat cb.indentStr cb.indentLevel ++
              ("from " ++ module ++ " import " ++
                ", ".intercalate (sortStrings (mapGet it.fromImports module)))) } := by
  unfold generateFromImports
  by_cases h : it.fromImports.length > 0
  · simp only [h, if_true]
    exact foldl_Line
      (fun module => "from " ++ module ++ " import " ++
        ", ".intercalate (sortStrings (mapGet it.fromImports module)))
      (fun n => append_ne_empty _ _ (append_ne_empty _ _ (append_ne_empty _ _ (by decide))))
      _ cb
  · have hnil : it.fromImports = [] := by
      cases hm : it.fromImports with
      | nil => rfl
      | cons a l => rw [hm] at h; simp at h
    simp [hnil, keys, sortStrings]

theorem generateEnumImports_lines (it : ImportTracker) (cb : ContentBuilder) :
    generateEnumImports it cb =
      { cb with
        lines := cb.lines ++
          (sortStrings (keys it.enums)).map (fun enumName =>
            stringsRepeat cb.indentStr cb.indentLevel ++
              ("from ..enums." ++ ToSnakeCase enumName ++ " import " ++ enumName)) } := by
  unfold generateEnumImports
  by_cases h : it.enums.length > 0
  · simp only [h, if_true]
    exact foldl_Line
      (fun enumName => "from ..enums." ++ ToSnakeCase enumName ++ " import " ++ enumName)
      (fun n => append_ne_empty _ _ (append_ne_empty _ _ (append_ne_empty _ _ (by decide))))
      _ cb
  · have hnil : it.enums = [] := by
      cases hm : it.enums with
      | nil => rfl
      | cons a l => rw [hm] at h; simp at h
    simp [hnil, keys, sortStrings]

theorem generateModelImports_lines (it : ImportTracker) (cb : ContentBuilder) :
    generateModelImports it cb =
      { cb with
        lines := cb.lines ++
          (if it.models = [] then []
          else (stringsRepeat cb.indentStr cb.indentLevel ++ "if TYPE_CHECKING:") ::
            (sortStrings (keys it.models)).map (fun modelName =>
              stringsRepeat cb.indentStr (cb.indentLevel + 1) ++
                ("from ." ++ ToSnakeCase modelName ++ " import " ++ modelName))) } := by
  unfold generateModelImports
  by_cases h : it.models.length > 0
  · have hne : it.models ≠ [] := (length_pos_iff_ne_nil _).1 h
    simp only [h, if_true, hne, if_false]
    rw [Line_of_ne cb "if TYPE_CHECKING:" (by decide)]
    rw [foldl_Line
      (fun modelName => "from ." ++ ToSnakeCase modelName ++ " import " ++ modelName)
      (fun n => append_ne_empty _ _ (append_ne_empty _ _ (append_ne_empty _ _ (by decide))))]
    simp [ContentBuilder.Indent, ContentBuilder.Dedent]
  · have hnil : it.models = [] := by
      cases hm : it.models with
      | nil => rfl
      | cons a l => rw [hm] at h; simp at h
    simp [hnil]

/-- The lines that `Generate` appends to the builder, category by category. -/
theorem Generate_lines (it : ImportTracker) (cb : ContentBuilder) :
    (it.Generate cb).2.lines =
      cb.lines ++
        ((sortStrings (keys it.fromImports)).map (fun module =>
            stringsRepeat cb.indentStr cb.indentLevel ++
              ("from " ++ module ++ " import " ++
                ", ".intercalate (sortStrings (mapGet it.fromImports module)))) ++
          (if it.sqlalchemy = [] then []
            else [stringsRepeat cb.indentStr cb.indentLevel ++
              ("from sqlalchemy import " ++ ", ".intercalate it.sqlalchemy)]) ++
          (if it.typing = [] then []
            else [stringsRepeat cb.indentStr cb.indentLevel ++
              ("from typing import " ++ ", ".intercalate (sortStrings it.typing))]) ++
          (if it.datetime = true then
              [stringsRepeat cb.indentStr cb.indentLevel ++ "from datetime import datetime"]
            else []) ++
          (sortStrings (keys it.enums)).map (fun enumName =>
            stringsRepeat cb.indentStr cb.indentLevel ++
              ("from ..enums." ++ ToSnakeCase enumName ++ " import " ++ enumName)) ++
          [""] ++
          (if it.models = [] then []
            else (stringsRepeat cb.indentStr cb.indentLevel ++ "if TYPE_CHECKING:") ::
              (sortStrings (keys it.models)).map (fun modelName =>
                stringsRepeat cb.indentStr (cb.indentLevel + 1) ++
                  ("from ." ++ ToSnakeCase modelName ++ " import " ++ modelName)))) := by
  unfold ImportTracker.Generate
  simp only [generateFromImports_lines, generateEnumImports_lines, generateModelImports_lines,
    length_pos_iff_ne_nil]
  have hsql : ("from sqlalchemy import " ++ ", ".intercalate it.sqlalchemy) ≠ "" :=
    append_ne_empty _ _ (by decide)
  have htyp : ("from typing import " ++ ", ".intercalate (sortStrings it.typing)) ≠ "" :=
    append_ne_empty _ _ (by decide)
  by_cases h1 : it.sqlalchemy = [] <;> by_cases h2 : it.typing = [] <;>
    cases h3 : it.datetime <;>
    simp [h1, h2, h3, Line_of_ne, hsql, htyp, ContentBuilder.Line]

/-- C29: after any sequence of `AddTyping`, `AddSQLAlchemy`, `AddFrom` and
`TrackFieldType` calls on a new tracker, `Generate` appends the categories in the
order from imports, sqlalchemy line, typing line, datetime line, enum lines,
empty line, model block; the names of the typing line are strictly ascending,
the names of the sqlalchemy line are pairwise distinct, and the enum lines and
the model lines are one per tracked name in strictly ascending order of name. -/
theorem Generate_categories (r : Registry) (calls : List TrackerCall) (cb : ContentBuilder)
    (it : ImportTracker) (hit : it = runCalls r calls) :
    (sortStrings it.typing).Pairwise (fun a b => strLess a b = true) ∧
    (sortStrings it.typing).Perm it.typing ∧
    it.sqlalchemy.Nodup ∧
    (sortStrings (keys it.enums)).Pairwise (fun a b => strLess a b = true) ∧
    (sortStrings (keys it.enums)).Perm (keys it.enums) ∧
    (sortStrings (keys it.models)).Pairwise (fun a b => strLess a b = true) ∧
    (sortStrings (keys it.models)).Perm (keys it.models) ∧
    (it.Generate cb).2.lines =
        cb.lines ++
          ((sortStrings (keys it.fromImports)).map (fun module =>
              stringsRepeat cb.indentStr cb.indentLevel ++
                ("from " ++ module ++ " import " ++
                  ", ".intercalate (sortStrings (mapGet it.fromImports module)))) ++
            (if it.sqlalchemy = [] then []
              else [stringsRepeat cb.indentStr cb.indentLevel ++
                ("from sqlalchemy import " ++ ", ".intercalate it.sqlalchemy)]) ++
            (if it.typing = [] then []
              else [stringsRepeat cb.indentStr cb.indentLevel ++
                ("from typing import " ++ ", ".intercalate (sortStrings it.typing))]) ++
            (if it.datetime = true then
                [stringsRepeat cb.indentStr cb.indentLevel ++ "from datetime import datetime"]
              else []) ++
            (sortStrings (keys it.enums)).map (fun enumName =>
              stringsRepeat cb.indentStr cb.indentLevel ++
                ("from ..enums." ++ ToSnakeCase enumName ++ " import " ++ enumName)) ++
            [""] ++
            (if it.models = [] then []
              else (stringsRepeat cb.indentStr cb.indentLevel ++ "if TYPE_CHECKING:") ::
                (sortStrings (keys it.models)).map (fun modelName =>
                  stringsRepeat cb.indentStr (cb.indentLevel + 1) ++
                    ("from ." ++ ToSnakeCase modelName ++ " import " ++ modelName)))) := by
  have hinv : TrackerInv r it := hit ▸ runCalls_inv r calls
  exact ⟨sortStrings_strict _ hinv.typing_nodup, sortStrings_perm _, hinv.sqlalchemy_nodup,
    sortStrings_strict _ hinv.enums_nodup, sortStrings_perm _,
    sortStrings_strict _ hinv.models_nodup, sortStrings_perm _, Generate_lines it cb⟩

/-- Witness of C29: calls that repeat names and give them out of order. -/
theorem Generate_categories_witness :
    ((runCalls exampleTrackRegistry exampleCalls).Generate (NewContentBuilder "")).2.lines =
        ["from sqlalchemy import String, Column",
          "from typing import Any, List, Optional, TYPE_CHECKING",
          "from ..enums.color import Color", "",
          "if TYPE_CHECKING:", "    from .contact import Contact",
          "    from .person import Person"] ∧
      (sortStrings (runCalls exampleTrackRegistry exampleCalls).typing).Pairwise
        (fun a b => strLess a b = true) ∧
      (runCalls exampleTrackRegistry exampleCalls).sqlalchemy.Nodup :=
  have h := Generate_categories exampleTrackRegistry exampleCalls (NewContentBuilder "")
    (runCalls exampleTrackRegistry exampleCalls) rfl
  ⟨by decide, h.1, h.2.2.1⟩

/-! ## The enumeration of the registry and `CompileModel` -/

/-- C30: two enumerations of the same three models give two different structs
for the model `Attachment`. Both `Comment` and `Review` declare the polymorphic
relation `commentable`, and the navigation field of the relation `Notes` through
`commentable` is typed by the model that the enumeration yields first. -/
theorem CompileModel_depends_on_enumeration :
    exampleReviewFirst.models.Perm exampleCommentFirst.models ∧
      (keys exampleCommentFirst.models).Nodup ∧
      exampleCommentFirst.GetModel "Attachment" = some exampleAttachment ∧
      exampleReviewFirst.GetModel "Attachment" = some exampleAttachment ∧
      CompileModel exampleAttachment exampleCommentFirst =
        .ok ⟨"Attachment", [⟨"_nav_Notes", .BasicType "Comment" false⟩]⟩ ∧
      CompileModel exampleAttachment exampleReviewFirst =
        .ok ⟨"Attachment", [⟨"_nav_Notes", .BasicType "Review" false⟩]⟩ ∧
      CompileModel exampleAttachment exampleCommentFirst ≠
        CompileModel exampleAttachment exampleReviewFirst := by
  decide


theorem sortStrings_congr (l1 l2 : List String) (h : l1.Perm l2) :
    sortStrings l1 = sortStrings l2 := by
  have hanti : IsAntisymm String (fun a b => strLess b a = false) :=
    ⟨fun a b hab hba => by
      rw [strLess_false_iff] at hab hba
      exact le_antisymm hab hba⟩
  have hp : (sortStrings l1).Perm (sortStrings l2) :=
    ((sortStrings_perm l1).trans h).trans (sortStrings_perm l2).symm
  exact List.eq_of_perm_of_sorted hp (sortStrings_sorted l1) (sortStrings_sorted l2)

theorem mapLookup_perm {α : Type} (m m2 : List (String × α)) (h : m2.Perm m)
    (hnd : (keys m).Nodup) (k : String) : mapLookup m2 k = mapLookup m k := by
  have hk : (keys m2).Perm (keys m) := h.map Prod.fst
  cases hl : mapLookup m k with
  | none =>
    rw [mapLookup_eq_none] at hl ⊢
    exact fun hm => hl (hk.mem_iff.1 hm)
  | some v =>
    exact mapLookup_of_mem m2 k v (hk.nodup_iff.2 hnd) (h.mem_iff.2 (mapLookup_some_mem m k v hl))

theorem mapGet_perm {α : Type} [Inhabited α] (m m2 : List (String × α)) (h : m2.Perm m)
    (hnd : (keys m).Nodup) (k : String) : mapGet m2 k = mapGet m k := by
  simp only [mapGet, mapLookup_perm m m2 h hnd k]

theorem findPolyOwner_perm (through : String) (ms ms2 : List (String × Model))
    (h : ms2.Perm ms)
    (huniq : ∀ e1 ∈ ms, ∀ e2 ∈ ms, declaresPoly through e1.2.Related = true →
      declaresPoly through e2.2.Related = true → e1.1 = e2.1) :
    findPolyOwner through ms2 = findPolyOwner through ms := by
  by_cases hex : ∃ e ∈ ms, declaresPoly through e.2.Related = true
  · obtain ⟨e, he, hd⟩ := hex
    rw [findPolyOwner_unique through e.1 ms ⟨e.2, he, hd⟩
        (fun e2 he2 hd2 => huniq e2 he2 e he hd2 hd),
      findPolyOwner_unique through e.1 ms2 ⟨e.2, h.mem_iff.2 he, hd⟩
        (fun e2 he2 hd2 => huniq e2 (h.mem_iff.1 he2) e he hd2 hd)]
  · rw [findPolyOwner_none through ms (fun e he hd => hex ⟨e, he, hd⟩),
      findPolyOwner_none through ms2 (fun e he hd => hex ⟨e, h.mem_iff.1 he, hd⟩)]

/-- The part of `CompileModel` that does not depend on enumeration orders: for
distinct field and relation names, and when no two models of the registry
declare a polymorphic relation of the same name, the struct is the same for
every enumeration of the fields, of the relations and of the models. -/
theorem CompileModel_enumeration_invariant (model model2 : Model) (r r2 : Registry)
    (hname : model2.Name = model.Name) (hfields : model2.Fields.Perm model.Fields)
    (hrels : model2.Related.Perm model.Related) (hnf : (keys model.Fields).Nodup)
    (hnr : (keys model.Related).Nodup) (hmodels : r2.models.Perm r.models)
    (huniq : ∀ through, ∀ e1 ∈ r.models, ∀ e2 ∈ r.models,
      declaresPoly through e1.2.Related = true → declaresPoly through e2.2.Related = true →
        e1.1 = e2.1) :
    CompileModel model2 r2 = CompileModel model r := by
  have hkf : sortStrings (keys model2.Fields) = sortStrings (keys model.Fields) :=
    sortStrings_congr _ _ (hfields.map Prod.fst)
  have hkr : sortStrings (keys model2.Related) = sortStrings (keys model.Related) :=
    sortStrings_congr _ _ (hrels.map Prod.fst)
  have hgf : ∀ n, mapGet model2.Fields n = mapGet model.Fields n :=
    mapGet_perm _ _ hfields hnf
  have hgr : ∀ n, mapGet model2.Related n = mapGet model.Related n :=
    mapGet_perm _ _ hrels hnr
  have hres : ∀ t, resolvePolymorphicThrough t r2 = resolvePolymorphicThrough t r := by
    intro t
    simp only [resolvePolymorphicThrough, findPolyOwner_perm t r.models r2.models hmodels
      (huniq t)]
  have hnav : ∀ n rel, navigationField n rel r2 = navigationField n rel r := by
    intro n rel
    simp only [navigationField, navigationType, hres]
  have hlen : model2.Related.length = model.Related.length := hrels.length_eq
  simp only [CompileModel, declaredFields, relationFields, hname, hkf, hkr, hgf, hgr, hnav,
    hlen]


/-! ## Sanitized identifiers -/

theorem mapGet_true_mem (m : List (String × Bool)) (k : String) (h : mapGet m k = true) :
    k ∈ keys m := by
  unfold mapGet at h
  cases hl : mapLookup m k with
  | none => rw [hl] at h; cases h
  | some v => exact List.mem_map_of_mem Prod.fst (mapLookup_some_mem m k v hl)

theorem mapGet_false_of_not_mem (m : List (String × Bool)) (k : String) (h : k ∉ keys m) :
    mapGet m k = false := by
  unfold mapGet
  rw [(mapLookup_eq_none m k).2 h]
  rfl

theorem table_names_shape :
    ∀ k ∈ keys pythonKeywords ++ keys pythonBuiltins,
      k.data.getLast? ≠ some '_' ∧ k.data.head? ≠ some '_' ∧ k.data ≠ [] ∧
        startsWithDigit k = false := by
  decide

theorem startsWithDigit_append (a b : String) (ha : a.data ≠ []) :
    startsWithDigit (a ++ b) = startsWithDigit a := by
  unfold startsWithDigit
  rw [String.data_append]
  cases hd : a.data with
  | nil => exact absurd hd ha
  | cons c rest => rfl

theorem append_underscore_not_mem (name : String) (keysList : List String)
    (h : ∀ k ∈ keysList, k.data.getLast? ≠ some '_') : name ++ "_" ∉ keysList := by
  intro hm
  apply h _ hm
  rw [String.data_append]
  show (name.data ++ ['_']).getLast? = some '_'
  exact List.getLast?_concat name.data

theorem underscore_append_not_mem (name : String) (keysList : List String)
    (h : ∀ k ∈ keysList, k.data.head? ≠ some '_') : "_" ++ name ∉ keysList := by
  intro hm
  apply h _ hm
  rw [String.data_append]
  rfl

theorem append_underscore_ne (n : String) : n ++ "_" ≠ n ∧ "_" ++ n ≠ n := by
  constructor <;>
  · intro e
    have h := congrArg String.length e
    rw [String.length_append] at h
    have h1 : "_".length = 1 := rfl
    omega

/-- C32: for every string, the name that `SanitizePythonIdentifier` returns is
not in the keyword table, not in the builtin table and does not begin with a
digit; a name with these three properties is returned unchanged. -/
theorem SanitizePythonIdentifier_safe (name : String) :
    IsPythonKeyword (SanitizePythonIdentifier name) = false ∧
      IsPythonBuiltin (SanitizePythonIdentifier name) = false ∧
      startsWithDigit (SanitizePythonIdentifier name) = false ∧
      (IsPythonKeyword name = false ∧ IsPythonBuiltin name = false ∧
          startsWithDigit name = false ↔
        SanitizePythonIdentifier name = name) := by
  have hshape := table_names_shape
  have hk : ∀ k ∈ keys pythonKeywords, k.data.getLast? ≠ some '_' ∧
      k.data.head? ≠ some '_' ∧ k.data ≠ [] ∧ startsWithDigit k = false :=
    fun k hk => hshape k (List.mem_append_left _ hk)
  have hb : ∀ k ∈ keys pythonBuiltins, k.data.getLast? ≠ some '_' ∧
      k.data.head? ≠ some '_' ∧ k.data ≠ [] ∧ startsWithDigit k = false :=
    fun k hk => hshape k (List.mem_append_right _ hk)
  have hback : ∀ n : String, IsPythonKeyword (n ++ "_") = false ∧
      IsPythonBuiltin (n ++ "_") = false := fun n =>
    ⟨mapGet_false_of_not_mem _ _ (append_underscore_not_mem n _ (fun k h => (hk k h).1)),
      mapGet_false_of_not_mem _ _ (append_underscore_not_mem n _ (fun k h => (hb k h).1))⟩
  have hfront : ∀ n : String, IsPythonKeyword ("_" ++ n) = false ∧
      IsPythonBuiltin ("_" ++ n) = false := fun n =>
    ⟨mapGet_false_of_not_mem _ _ (underscore_append_not_mem n _ (fun k h => (hk k h).2.1)),
      mapGet_false_of_not_mem _ _ (underscore_append_not_mem n _ (fun k h => (hb k h).2.1))⟩
  unfold SanitizePythonIdentifier
  by_cases h1 : mapGet pythonKeywords name = true
  · have hd := (hk name (mapGet_true_mem _ _ h1)).2.2
    rw [if_pos h1]
    refine ⟨(hback name).1, (hback name).2, ?_, ?_⟩
    · rw [startsWithDigit_append name "_" hd.1]; exact hd.2
    · constructor
      · rintro ⟨h, -, -⟩
        rw [IsPythonKeyword, h1] at h
        cases h
      · intro e
        exact absurd e (append_underscore_ne name).1
  · rw [if_neg h1]
    have h1f : mapGet pythonKeywords name = false := by simpa using h1
    by_cases h2 : mapGet pythonBuiltins name = true
    · have hd := (hb name (mapGet_true_mem _ _ h2)).2.2
      rw [if_pos h2]
      refine ⟨(hback name).1, (hback name).2, ?_, ?_⟩
      · rw [startsWithDigit_append name "_" hd.1]; exact hd.2
      · constructor
        · rintro ⟨-, h, -⟩
          rw [IsPythonBuiltin, h2] at h
          cases h
        · intro e
          exact absurd e (append_underscore_ne name).1
    · rw [if_neg h2]
      have h2f : mapGet pythonBuiltins name = false := by simpa using h2
      by_cases h3 : startsWithDigit name = true
      · rw [if_pos h3]
        refine ⟨(hfront name).1, (hfront name).2, ?_, ?_⟩
        · rw [startsWithDigit_append "_" name (by decide)]; rfl
        · constructor
          · rintro ⟨-, -, h⟩
            rw [h3] at h
            cases h
          · intro e
            exact absurd e (append_underscore_ne name).2
      · rw [if_neg h3]
        have h3f : startsWithDigit name = false := by simpa using h3
        exact ⟨h1f, h2f, h3f, fun _ => rfl, fun _ => ⟨h1f, h2f, h3f⟩⟩

/-! ## Compiled enums -/

/-- C33: `CompileEnum` returns an enum, never an error; the enum has the declared
name, its entries are the declared entries with their declared values, in
strictly ascending order of entry name, and its type is `int` for `Integer`,
`float` for `Float` and `str` for every other enum type. -/
theorem CompileEnum_entries_sorted (enum : YamlEnum) (hnd : (keys enum.Entries).Nodup) :
    ∃ e : Enum, CompileEnum enum = .ok e ∧ e.Name = enum.Name ∧
      (e.Entries.map EnumEntry.Name).Pairwise (fun a b => strLess a b = true) ∧
      e.Entries.length = enum.Entries.length ∧
      (∀ entry : EnumEntry, entry ∈ e.Entries ↔ (entry.Name, entry.Value) ∈ enum.Entries) ∧
      (enum.Type_ = "Integer" → e.Type_ = TypeInteger ∧ e.Type_.GetName = "int") ∧
      (enum.Type_ = "Float" → e.Type_ = TypeFloat ∧ e.Type_.GetName = "float") ∧
      (enum.Type_ ≠ "Integer" → enum.Type_ ≠ "Float" →
        e.Type_ = TypeString ∧ e.Type_.GetName = "str") := by
  refine ⟨_, rfl, rfl, ?_, ?_, ?_, ?_, ?_, ?_⟩
  · simp only [List.map_map]
    have : (EnumEntry.Name ∘ fun entryName =>
        (⟨entryName, mapGet enum.Entries entryName⟩ : EnumEntry)) = id := rfl
    rw [this, List.map_id]
    exact sortStrings_strict _ hnd
  · simp only [List.length_map, sortStrings_length, keys]
  · intro entry
    simp only [List.mem_map, mem_sortStrings]
    constructor
    · rintro ⟨n, hn, rfl⟩
      simp only [keys, List.mem_map] at hn
      obtain ⟨p, hp, rfl⟩ := hn
      show (p.1, mapGet enum.Entries p.1) ∈ enum.Entries
      rw [mapGet_of_mem enum.Entries p.1 p.2 hnd hp]
      exact hp
    · intro hm
      refine ⟨entry.Name, List.mem_map_of_mem Prod.fst hm, ?_⟩
      rw [mapGet_of_mem enum.Entries entry.Name entry.Value hnd hm]
  · intro h
    have ht : mapEnumType enum.Type_ = TypeInteger := by
      simp only [mapEnumType, h, if_true]
    exact ⟨ht, by rw [show (mapEnumType enum.Type_).GetName = TypeInteger.GetName by rw [ht]]; rfl⟩
  · intro h
    have ht : mapEnumType enum.Type_ = TypeFloat := by
      rw [h]; rfl
    exact ⟨ht, by rw [show (mapEnumType enum.Type_).GetName = TypeFloat.GetName by rw [ht]]; rfl⟩
  · intro h1 h2
    have ht : mapEnumType enum.Type_ = TypeString := by
      simp only [mapEnumType, h1, h2, if_false, ite_self]
    exact ⟨ht, by rw [show (mapEnumType enum.Type_).GetName = TypeString.GetName by rw [ht]]; rfl⟩

/-- Witness of C33: an enum with the entries `Red`, `Green` and `Blue` declared in
that order. -/
theorem CompileEnum_entries_sorted_witness :
    CompileEnum ⟨"Color", "String",
        [("Red", .text "red"), ("Green", .text "green"), ("Blue", .text "blue")]⟩ =
      .ok ⟨"Color", TypeString,
        [⟨"Blue", .text "blue"⟩, ⟨"Green", .text "green"⟩, ⟨"Red", .text "red"⟩]⟩ ∧
    ∃ e : Enum, CompileEnum ⟨"Color", "String",
        [("Red", .text "red"), ("Green", .text "green"), ("Blue", .text "blue")]⟩ = .ok e ∧
      e.Name = "Color" ∧
      (e.Entries.map EnumEntry.Name).Pairwise (fun a b => strLess a b = true) ∧
      e.Entries.length = 3 ∧
      (∀ entry : EnumEntry, entry ∈ e.Entries ↔
        (entry.Name, entry.Value) ∈
          [("Red", EnumValue.text "red"), ("Green", .text "green"), ("Blue", .text "blue")]) ∧
      ("String" = "Integer" → e.Type_ = TypeInteger ∧ e.Type_.GetName = "int") ∧
      ("String" = "Float" → e.Type_ = TypeFloat ∧ e.Type_.GetName = "float") ∧
      ("String" ≠ "Integer" → "String" ≠ "Float" →
        e.Type_ = TypeString ∧ e.Type_.GetName = "str") :=
  ⟨by decide,
    CompileEnum_entries_sorted ⟨"Color", "String",
      [("Red", .text "red"), ("Green", .text "green"), ("Blue", .text "blue")]⟩ (by decide)⟩


/-! ## The canonical form of a closed path -/

/-- C34: for a closed path with at least two entries whose first and last
entries are equal, `normalizeCycle` returns a sequence one shorter than the
path; it is a rotation of the path without its closing entry, and its first
entry is a smallest one of its entries. -/
theorem normalizeCycle_closed_path (path : List String) (hlen : 2 ≤ path.length)
    (hclosed : path.head? = path.getLast?) :
    (normalizeCycle path).length + 1 = path.length ∧
      (∃ k, k < path.dropLast.length ∧ normalizeCycle path = path.dropLast.rotate k) ∧
      ∃ first, (normalizeCycle path).head? = some first ∧
        ∀ x ∈ normalizeCycle path, strLess x first = false := by
  have hrot := normalizeCycle_eq_rotate path (by omega)
  simp only [hclosed, if_true] at hrot
  have hne : path.dropLast ≠ [] := by
    intro e
    have := congrArg List.length e
    rw [List.length_dropLast] at this
    simp only [List.length_nil] at this
    omega
  have hlt := findMinIdx_lt path.dropLast hne
  refine ⟨?_, ⟨findMinIdx path.dropLast, hlt, hrot⟩, ?_⟩
  · rw [hrot, List.length_rotate, List.length_dropLast]
    omega
  · refine ⟨path.dropLast.getD (findMinIdx path.dropLast) "", ?_, ?_⟩
    · rw [hrot, List.rotate_eq_drop_append_take (le_of_lt hlt)]
      rw [List.getD_eq_getElem _ _ hlt]
      rw [List.head?_append_of_ne_nil _ (by
        intro e
        have := congrArg List.length e
        rw [List.length_drop] at this
        simp only [List.length_nil] at this
        omega)]
      rw [List.head?_drop, List.getElem?_eq_getElem hlt]
    · intro x hx
      rw [hrot, List.mem_rotate] at hx
      rw [strLess_false_iff]
      exact findMinIdx_le path.dropLast x hx

/-- Witness of C34: the closed path `C, A, B, C` has the canonical form `A, B, C`. -/
theorem normalizeCycle_closed_path_witness :
    normalizeCycle ["C", "A", "B", "C"] = ["A", "B", "C"] ∧
      (normalizeCycle ["C", "A", "B", "C"]).length + 1 = ["C", "A", "B", "C"].length ∧
      (∃ k, k < ["C", "A", "B", "C"].dropLast.length ∧
        normalizeCycle ["C", "A", "B", "C"] = ["C", "A", "B", "C"].dropLast.rotate k) ∧
      ∃ first, (normalizeCycle ["C", "A", "B", "C"]).head? = some first ∧
        ∀ x ∈ normalizeCycle ["C", "A", "B", "C"], strLess x first = false :=
  ⟨by decide, normalizeCycle_closed_path ["C", "A", "B", "C"] (by decide) (by decide)⟩

/-! ## The fields that a relation adds to a compiled entity -/

/-- C35: in the struct that `CompileEntity` returns, the fields after those of
the declared fields are the contributions of the relations in ascending order
of relation name. A polymorphic relation that is not owning-one, as those of
type `HasOnePoly`, `HasManyPoly` and `ForManyPoly`, contributes no field; every
other relation contributes its generated fields followed by exactly one
navigation field. -/
theorem CompileEntity_relation_contribution (entity : Entity) (r : Registry) (s : Struct)
    (hs : CompileEntity entity r = .ok s) (hnd : (keys entity.Related).Nodup) :
    ∃ fields : List Field, fields.length = entity.Fields.length ∧
      s.Fields = fields ++ (sortStrings (keys entity.Related)).flatMap
        (fun n => entityRelationFields n (mapGet entity.Related n)) ∧
      ∀ n rel, (n, rel) ∈ entity.Related →
        mapGet entity.Related n = rel ∧
        (rel.Type_ ∈ ["HasOnePoly", "HasManyPoly", "ForManyPoly"] →
          entityRelationFields n rel = []) ∧
        (IsRelationPoly rel.Type_ = true →
          (IsRelationFor rel.Type_ && IsRelationOne rel.Type_) = false →
            entityRelationFields n rel = []) ∧
        ((IsRelationPoly rel.Type_ = false ∨
            (IsRelationFor rel.Type_ && IsRelationOne rel.Type_) = true) →
          entityRelationFields n rel =
            entityGeneratedFields n rel ++ [entityNavigationField n rel]) := by
  obtain ⟨fields, hfields, hlen, -⟩ := CompileEntity_ok_fields entity r s hs
  have hpoly : ∀ (n : String) (rel : EntityRelation), IsRelationPoly rel.Type_ = true →
      (IsRelationFor rel.Type_ && IsRelationOne rel.Type_) = false →
        entityRelationFields n rel = [] := by
    intro n rel h1 h2
    simp only [entityRelationFields, h1, Bool.true_and, h2, Bool.false_eq_true, if_false,
      if_true]
  refine ⟨fields, hlen, ?_, ?_⟩
  · rw [hfields]
    unfold entityRelatedFields
    by_cases h : entity.Related.length > 0
    · simp only [h, if_true]
    · have hnil : entity.Related = [] := by
        cases hm : entity.Related with
        | nil => rfl
        | cons a l => rw [hm] at h; simp at h
      simp [hnil, keys, sortStrings]
  · intro n rel hmem
    refine ⟨mapGet_of_mem _ _ _ hnd hmem, ?_, hpoly n rel, ?_⟩
    · intro ht
      simp only [List.mem_cons, List.mem_singleton, List.not_mem_nil, or_false] at ht
      rcases ht with ht | ht | ht <;>
        exact hpoly n rel (by rw [ht]; decide) (by rw [ht]; decide)
    · intro h
      rcases h with h | h
      · simp only [entityRelationFields, h, Bool.false_and, Bool.false_eq_true, if_false]
      · cases hp : IsRelationPoly rel.Type_ with
        | false =>
          simp only [entityRelationFields, hp, Bool.false_and, Bool.false_eq_true, if_false]
        | true =>
          have h3 : (IsRelationPoly rel.Type_ && IsRelationFor rel.Type_ &&
              IsRelationOne rel.Type_) = true := by
            rw [hp, Bool.true_and]; exact h
          simp only [entityRelationFields, h3, if_true]

/-- Witness of C35: the entity `TaskView` has five relations; only `Assignee` and
`Subject` add fields. -/
theorem CompileEntity_relation_contribution_witness :
    CompileEntity exampleTaskView exampleContactRegistry =
      .ok ⟨"TaskView",
        [⟨"Title", TypeString⟩, ⟨"assignee_id", TypeString⟩,
          ⟨"assignee", .BasicType "Person" false⟩, ⟨"subject_type", TypeString⟩,
          ⟨"subject_id", TypeString⟩,
          ⟨"subject", .BasicType "Union[\x27Person\x27, \x27Contact\x27]" false⟩]⟩ ∧
    ∃ fields : List Field, fields.length = exampleTaskView.Fields.length ∧
      (⟨"TaskView",
        [⟨"Title", TypeString⟩, ⟨"assignee_id", TypeString⟩,
          ⟨"assignee", .BasicType "Person" false⟩, ⟨"subject_type", TypeString⟩,
          ⟨"subject_id", TypeString⟩,
          ⟨"subject", .BasicType "Union[\x27Person\x27, \x27Contact\x27]" false⟩]⟩ :
          Struct).Fields =
        fields ++ (sortStrings (keys exampleTaskView.Related)).flatMap
          (fun n => entityRelationFields n (mapGet exampleTaskView.Related n)) :=
  have h := CompileEntity_relation_contribution exampleTaskView exampleContactRegistry
    ⟨"TaskView",
      [⟨"Title", TypeString⟩, ⟨"assignee_id", TypeString⟩,
        ⟨"assignee", .BasicType "Person" false⟩, ⟨"subject_type", TypeString⟩,
        ⟨"subject_id", TypeString⟩,
        ⟨"subject", .BasicType "Union[\x27Person\x27, \x27Contact\x27]" false⟩]⟩
    (by decide) (by decide)
  ⟨by decide, let ⟨fields, h1, h2, _⟩ := h; ⟨fields, h1, h2⟩⟩


/-! ## `ToSnakeCase` on names made of words -/

theorem ToSnakeCase_eq_loop (s : String) :
    ToSnakeCase s = ⟨(snakeLoop none s.data).map Char.toLower⟩ := by
  unfold ToSnakeCase
  by_cases h1 : s = "ID"
  · subst h1; decide
  · by_cases h2 : s = "TaxID"
    · subst h2; decide
    · by_cases h3 : s = "ContactInfo"
      · subst h3; decide
      · simp only [h1, h2, h3, if_false]

theorem isUpperAscii_of_lower (c : Char) (h : isLowerAscii c = true) :
    isUpperAscii c = false := by
  simp only [isLowerAscii, Bool.and_eq_true, decide_eq_true_eq] at h
  cases hu : isUpperAscii c with
  | false => rfl
  | true =>
    simp only [isUpperAscii, Bool.and_eq_true, decide_eq_true_eq] at hu
    exact absurd (le_trans h.1 hu.2) (by decide)

theorem snakeLoop_lower_char (prev : Option Char) (c : Char) (rest : List Char)
    (h : isLowerAscii c = true) :
    snakeLoop prev (c :: rest) = c :: snakeLoop (some c) rest := by
  simp only [snakeLoop, isUpperAscii_of_lower c h, Bool.and_false, Bool.false_and,
    Bool.false_eq_true, if_false, List.singleton_append]

theorem snakeLoop_lower_run (ls : List Char) :
    ∀ (prev : Option Char) (rest : List Char), ls ≠ [] →
      (∀ c ∈ ls, isLowerAscii c = true) →
      ∃ p, isLowerAscii p = true ∧ snakeLoop prev (ls ++ rest) = ls ++ snakeLoop (some p) rest := by
  induction ls with
  | nil => intro _ _ h; exact absurd rfl h
  | cons c tl ih =>
    intro prev rest _ hall
    have hc := hall c (List.mem_cons_self _ _)
    cases tl with
    | nil => exact ⟨c, hc, by simpa using snakeLoop_lower_char prev c rest hc⟩
    | cons d tl2 =>
      obtain ⟨p, hp, hrun⟩ := ih (some c) rest (by simp)
        (fun x hx => hall x (List.mem_cons_of_mem _ hx))
      refine ⟨p, hp, ?_⟩
      rw [List.cons_append, snakeLoop_lower_char prev c _ hc, hrun]
      rfl

theorem isCapWord_iff (w : List Char) :
    isCapWord w = true ↔
      ∃ u ls, w = u :: ls ∧ isUpperAscii u = true ∧ ls ≠ [] ∧
        ∀ c ∈ ls, isLowerAscii c = true := by
  cases w with
  | nil => simp [isCapWord]
  | cons u ls =>
    constructor
    · intro h
      simp only [isCapWord, Bool.and_eq_true, List.all_eq_true] at h
      refine ⟨u, ls, rfl, h.1.1, ?_, h.2⟩
      intro e
      rw [e] at h
      exact absurd h.1.2 (by decide)
    · rintro ⟨u2, ls2, heq, h1, h2, h3⟩
      injection heq with e1 e2
      subst e1 e2
      simp only [isCapWord, Bool.and_eq_true, List.all_eq_true]
      refine ⟨⟨h1, ?_⟩, h3⟩
      cases ls with
      | nil => exact absurd rfl h2
      | cons a l => rfl

theorem snakeLoop_capWord_first (w rest : List Char) (hw : isCapWord w = true) :
    ∃ p, isLowerAscii p = true ∧ snakeLoop none (w ++ rest) = w ++ snakeLoop (some p) rest := by
  obtain ⟨u, ls, rfl, _, hne, hall⟩ := (isCapWord_iff w).1 hw
  obtain ⟨p, hp, hrun⟩ := snakeLoop_lower_run ls (some u) rest hne hall
  refine ⟨p, hp, ?_⟩
  rw [List.cons_append]
  simp only [snakeLoop, Option.isSome_none, Bool.false_and, Bool.false_eq_true, if_false,
    List.singleton_append, hrun, List.cons_append, List.nil_append]

theorem snakeLoop_capWord_next (w rest : List Char) (q : Char) (hq : isLowerAscii q = true)
    (hw : isCapWord w = true) :
    ∃ p, isLowerAscii p = true ∧
      snakeLoop (some q) (w ++ rest) = '_' :: w ++ snakeLoop (some p) rest := by
  obtain ⟨u, ls, rfl, hu, hne, hall⟩ := (isCapWord_iff w).1 hw
  obtain ⟨p, hp, hrun⟩ := snakeLoop_lower_run ls (some u) rest hne hall
  refine ⟨p, hp, ?_⟩
  rw [List.cons_append]
  simp only [snakeLoop, Option.isSome_some, Bool.true_and, hu, hq, Bool.true_or, if_true,
    hrun, List.cons_append, List.nil_append]

theorem snakeLoop_capWords (ws : List (List Char)) :
    ∀ q : Char, isLowerAscii q = true → (∀ w ∈ ws, isCapWord w = true) →
      snakeLoop (some q) ws.flatten = (ws.map fun w => '_' :: w).flatten := by
  induction ws with
  | nil => intro q _ _; rfl
  | cons w rest ih =>
    intro q hq hall
    obtain ⟨p, hp, hrun⟩ := snakeLoop_capWord_next w rest.flatten q hq
      (hall w (List.mem_cons_self _ _))
    rw [List.flatten_cons, hrun, ih p hp (fun x hx => hall x (List.mem_cons_of_mem _ hx))]
    simp

theorem intercalate_underscore_cons (a : List Char) (l : List (List Char)) :
    List.intercalate ['_'] (a :: l) = a ++ (l.map fun w => '_' :: w).flatten := by
  induction l generalizing a with
  | nil => simp [List.intercalate]
  | cons b rest ih =>
    have h := ih b
    simp only [List.intercalate, List.intersperse_cons_cons, List.flatten_cons,
      List.map_cons, List.singleton_append] at h ⊢
    rw [h]
    simp

theorem map_toLower_joined (l : List (List Char)) :
    ((l.map fun w => '_' :: w).flatten).map Char.toLower =
      ((l.map fun w => w.map Char.toLower).map fun w => '_' :: w).flatten := by
  induction l with
  | nil => rfl
  | cons b rest ih =>
    simp only [List.map_cons, List.flatten_cons, List.map_append, ih]
    rfl

/-- C39: on a name made of one or more capitalised ASCII words, `ToSnakeCase`
returns the words in lower case joined by single underscores; on a lower-case
word followed by capitalised words it does likewise. -/
theorem ToSnakeCase_words (ws : List (List Char)) (w0 : List Char)
    (hws : ∀ w ∈ ws, isCapWord w = true) :
    (ws ≠ [] → ToSnakeCase ⟨ws.flatten⟩ = joinLower ws) ∧
      (isLowerWord w0 = true → ToSnakeCase ⟨w0 ++ ws.flatten⟩ = joinLower (w0 :: ws)) := by
  constructor
  · intro hne
    cases ws with
    | nil => exact absurd rfl hne
    | cons w rest =>
      obtain ⟨p, hp, hrun⟩ := snakeLoop_capWord_first w rest.flatten
        (hws w (List.mem_cons_self _ _))
      rw [ToSnakeCase_eq_loop, joinLower]
      congr 1
      show (snakeLoop none (w :: rest).flatten).map Char.toLower = _
      rw [List.flatten_cons, hrun,
        snakeLoop_capWords rest p hp (fun x hx => hws x (List.mem_cons_of_mem _ hx)),
        List.map_cons, intercalate_underscore_cons, List.map_append, map_toLower_joined]
  · intro h0
    simp only [isLowerWord, Bool.and_eq_true, Bool.not_eq_true', List.isEmpty_eq_false,
      List.all_eq_true] at h0
    obtain ⟨p, hp, hrun⟩ := snakeLoop_lower_run w0 none ws.flatten (by simpa using h0.1) h0.2
    rw [ToSnakeCase_eq_loop, joinLower]
    congr 1
    show (snakeLoop none (w0 ++ ws.flatten)).map Char.toLower = _
    rw [hrun, snakeLoop_capWords ws p hp hws, List.map_cons, intercalate_underscore_cons,
      List.map_append, map_toLower_joined]

/-- Witness of C39: the words `Contact`, `Info` and the name `camelCase`. -/
theorem ToSnakeCase_words_witness :
    ToSnakeCase "ContactInfo" = "contact_info" ∧ ToSnakeCase "camelCase" = "camel_case" ∧
      ToSnakeCase ⟨["Contact".data, "Info".data].flatten⟩ =
        joinLower ["Contact".data, "Info".data] ∧
      ToSnakeCase ⟨"camel".data ++ ["Case".data].flatten⟩ =
        joinLower ["camel".data, "Case".data] :=
  ⟨by decide, by decide,
    (ToSnakeCase_words ["Contact".data, "Info".data] [] (by decide)).1 (by decide),
    (ToSnakeCase_words ["Case".data] "camel".data (by decide)).2 (by decide)⟩


/-! ## The import of `TYPE_CHECKING` -/

theorem TrackerInv.generate {r : Registry} {it : ImportTracker} (h : TrackerInv r it)
    (cb : ContentBuilder) : TrackerInv r (it.Generate cb).1 :=
  ⟨h.registry_eq, (sortStrings_perm it.typing).nodup_iff.2 h.typing_nodup, h.sqlalchemy_nodup,
    h.enums_nodup, h.models_nodup, h.enums_sound, h.models_sound,
    fun hne => (mem_sortStrings _ _).2 (h.type_checking hne)⟩

theorem runOps_inv (r : Registry) (ops : List TrackerOp) : TrackerInv r (runOps r ops) := by
  unfold runOps
  have gen : ∀ (l : List TrackerOp) (it : ImportTracker), TrackerInv r it →
      TrackerInv r (l.foldl ImportTracker.apply it) := by
    intro l
    induction l with
    | nil => intro it h; exact h
    | cons op rest ih =>
      intro it h
      refine ih _ ?_
      cases op with
      | call c => exact h.call c
      | Generate cb => exact h.generate cb
  exact gen ops _ (NewImportTracker_inv r)

/-- C40: after any sequence of operations on a new tracker, if some model import
is tracked then `TYPE_CHECKING` is among the typing imports, and `Generate` emits
the line of the typing imports, with `TYPE_CHECKING` among its names, before the
line `if TYPE_CHECKING:`. -/
theorem Generate_imports_TYPE_CHECKING (r : Registry) (ops : List TrackerOp)
    (cb : ContentBuilder) (hm : (runOps r ops).models ≠ []) :
    "TYPE_CHECKING" ∈ (runOps r ops).typing ∧
      ∃ (names pre mid post : List String),
        "TYPE_CHECKING" ∈ names ∧
        ((runOps r ops).Generate cb).2.lines =
          cb.lines ++ pre ++
            [stringsRepeat cb.indentStr cb.indentLevel ++
              ("from typing import " ++ ", ".intercalate names)] ++ mid ++
            [stringsRepeat cb.indentStr cb.indentLevel ++ "if TYPE_CHECKING:"] ++ post := by
  have hinv := runOps_inv r ops
  have hmem := hinv.type_checking hm
  have hne : (runOps r ops).typing ≠ [] := List.ne_nil_of_mem hmem
  refine ⟨hmem, sortStrings (runOps r ops).typing,
    (sortStrings (keys (runOps r ops).fromImports)).map (fun module =>
        stringsRepeat cb.indentStr cb.indentLevel ++
          ("from " ++ module ++ " import " ++
            ", ".intercalate (sortStrings (mapGet (runOps r ops).fromImports module)))) ++
      (if (runOps r ops).sqlalchemy = [] then []
        else [stringsRepeat cb.indentStr cb.indentLevel ++
          ("from sqlalchemy import " ++ ", ".intercalate (runOps r ops).sqlalchemy)]),
    (if (runOps r ops).datetime = true then
        [stringsRepeat cb.indentStr cb.indentLevel ++ "from datetime import datetime"]
      else []) ++
      (sortStrings (keys (runOps r ops).enums)).map (fun enumName =>
        stringsRepeat cb.indentStr cb.indentLevel ++
          ("from ..enums." ++ ToSnakeCase enumName ++ " import " ++ enumName)) ++ [""],
    (sortStrings (keys (runOps r ops).models)).map (fun modelName =>
      stringsRepeat cb.indentStr (cb.indentLevel + 1) ++
        ("from ." ++ ToSnakeCase modelName ++ " import " ++ modelName)),
    (mem_sortStrings _ _).2 hmem, ?_⟩
  rw [Generate_lines]
  simp only [hne, hm, if_false, List.append_assoc, List.cons_append, List.nil_append,
    List.singleton_append]


/-- Witness of C40: a model import tracked before a first `Generate`. -/
theorem Generate_imports_TYPE_CHECKING_witness :
    ((runOps exampleTrackRegistry exampleOps).Generate (NewContentBuilder "")).2.lines =
        ["from typing import List, Optional, TYPE_CHECKING", "", "if TYPE_CHECKING:",
          "    from .person import Person"] ∧
      "TYPE_CHECKING" ∈ (runOps exampleTrackRegistry exampleOps).typing :=
  ⟨by decide,
    (Generate_imports_TYPE_CHECKING exampleTrackRegistry exampleOps (NewContentBuilder "")
      (by decide)).1⟩


/-! ## Each node is expanded at most once -/

theorem dfsNeighborsLogged_erase
    (recurL : String → LoggedState → List String →
      Option (List CircularDependency × LoggedState))
    (recur : String → DfsState → List String → Option (List CircularDependency × DfsState))
    (path : List String)
    (hrec : ∀ n ls, (recurL n ls path).map eraseLog = recur n ls.st path) :
    ∀ (nbrs : List String) (ls : LoggedState) (cycles : List CircularDependency),
      (dfsNeighborsLogged recurL path nbrs ls cycles).map eraseLog =
        dfsNeighbors recur path nbrs ls.st cycles := by
  intro nbrs
  induction nbrs with
  | nil => intro ls cycles; rfl
  | cons n rest ih =>
    intro ls cycles
    simp only [dfsNeighborsLogged, dfsNeighbors]
    cases hv : ls.st.visited n with
    | false =>
      simp only [if_true]
      have h := hrec n ls
      cases hr : recurL n ls path with
      | none =>
        rw [hr] at h
        simp only [Option.map_none'] at h
        rw [← h]
        rfl
      | some o =>
        obtain ⟨found, ls'⟩ := o
        rw [hr] at h
        simp only [Option.map_some', eraseLog] at h
        rw [← h]
        exact ih ls' _
    | true =>
      simp only [Bool.true_eq_false, if_false]
      cases hs : ls.st.recStack n with
      | true =>
        simp only [if_true]
        cases cycleStart n path with
        | none => exact ih ls _
        | some i => exact ih ls _
      | false =>
        simp only [Bool.false_eq_true, if_false]
        exact ih ls _

theorem dfsDetectCyclesLogged_erase (g : Graph) :
    ∀ (fuel : Nat) (node : String) (ls : LoggedState) (path : List String),
      (dfsDetectCyclesLogged fuel g node ls path).map eraseLog =
        dfsDetectCycles fuel g node ls.st path := by
  intro fuel
  induction fuel with
  | zero => intro node ls path; rfl
  | succ fuel ih =>
    intro node ls path
    have h := dfsNeighborsLogged_erase (dfsDetectCyclesLogged fuel g)
      (dfsDetectCycles fuel g) (path ++ [node]) (fun n l => ih n l (path ++ [node]))
      (graphLookup g node)
      { st := { visited := setKey ls.st.visited node true,
                recStack := setKey ls.st.recStack node true },
        calls := ls.calls ++ [node] } []
    simp only [dfsDetectCyclesLogged, dfsDetectCycles]
    simp only at h
    rw [← h]
    cases dfsNeighborsLogged (dfsDetectCyclesLogged fuel g) (path ++ [node])
        (graphLookup g node)
        { st := { visited := setKey ls.st.visited node true,
                  recStack := setKey ls.st.recStack node true },
          calls := ls.calls ++ [node] } [] with
    | none => rfl
    | some o => rfl

theorem detectLoopLogged_erase (fuel : Nat) (g : Graph) :
    ∀ (order : List String) (ls : LoggedState) (cycles : List CircularDependency),
      (detectLoopLogged fuel g order ls cycles).map eraseLog =
        detectLoop fuel g order ls.st cycles := by
  intro order
  induction order with
  | nil => intro ls cycles; rfl
  | cons n rest ih =>
    intro ls cycles
    simp only [detectLoopLogged, detectLoop]
    cases hv : ls.st.visited n with
    | false =>
      simp only [if_true]
      have h := dfsDetectCyclesLogged_erase g fuel n ls []
      cases hr : dfsDetectCyclesLogged fuel g n ls [] with
      | none =>
        rw [hr] at h
        simp only [Option.map_none'] at h
        rw [← h]
        rfl
      | some o =>
        obtain ⟨found, ls'⟩ := o
        rw [hr] at h
        simp only [Option.map_some', eraseLog] at h
        rw [← h]
        exact ih ls' _
    | true =>
      simp only [Bool.true_eq_false, if_false]
      exact ih ls _

theorem dfsNeighborsLogged_inv
    (recurL : String → LoggedState → List String →
      Option (List CircularDependency × LoggedState))
    (path : List String)
    (hrec : ∀ n ls found ls', LogInv ls → ls.st.visited n = false →
      recurL n ls path = some (found, ls') → LogInv ls') :
    ∀ (nbrs : List String) (ls : LoggedState) (cycles out : List CircularDependency)
      (ls' : LoggedState), LogInv ls →
      dfsNeighborsLogged recurL path nbrs ls cycles = some (out, ls') → LogInv ls' := by
  intro nbrs
  induction nbrs with
  | nil =>
    intro ls cycles out ls' hI h
    simp only [dfsNeighborsLogged, Option.some.injEq, Prod.mk.injEq] at h
    rw [← h.2]
    exact hI
  | cons n rest ih =>
    intro ls cycles out ls' hI h
    simp only [dfsNeighborsLogged] at h
    cases hv : ls.st.visited n with
    | false =>
      simp only [hv, if_true] at h
      cases hr : recurL n ls path with
      | none => rw [hr] at h; cases h
      | some o =>
        obtain ⟨found, ls1⟩ := o
        rw [hr] at h
        exact ih ls1 _ out ls' (hrec n ls found ls1 hI hv hr) h
    | true =>
      simp only [hv, Bool.true_eq_false, if_false] at h
      cases hs : ls.st.recStack n with
      | true =>
        simp only [hs, if_true] at h
        cases hc : cycleStart n path with
        | none => rw [hc] at h; exact ih ls _ out ls' hI h
        | some i => rw [hc] at h; exact ih ls _ out ls' hI h
      | false =>
        simp only [hs, Bool.false_eq_true, if_false] at h
        exact ih ls _ out ls' hI h

theorem dfsDetectCyclesLogged_inv (g : Graph) :
    ∀ (fuel : Nat) (node : String) (ls : LoggedState) (path : List String)
      (out : List CircularDependency) (ls' : LoggedState),
      LogInv ls → ls.st.visited node = false →
      dfsDetectCyclesLogged fuel g node ls path = some (out, ls') → LogInv ls' := by
  intro fuel
  induction fuel with
  | zero => intro node ls path out ls' _ _ h; simp [dfsDetectCyclesLogged] at h
  | succ fuel ih =>
    intro node ls path out ls' hI hv h
    simp only [dfsDetectCyclesLogged] at h
    have h1 : LogInv
        { st := { visited := setKey ls.st.visited node true,
                  recStack := setKey ls.st.recStack node true },
          calls := ls.calls ++ [node] } := by
      refine ⟨List.Nodup.append hI.1 (List.nodup_singleton node) ?_, ?_⟩
      · intro x hx hx2
        rw [List.mem_singleton] at hx2
        subst hx2
        rw [hI.2 x hx] at hv
        cases hv
      · intro x hx
        simp only [setKey]
        by_cases hxn : x = node
        · simp [hxn]
        · rcases List.mem_append.1 hx with hx | hx
          · simp only [hxn, if_false]
            exact hI.2 x hx
          · exact absurd (List.mem_singleton.1 hx) hxn
    split at h
    · cases h
    · rename_i cycles ls2 heq
      simp only [Option.some.injEq, Prod.mk.injEq] at h
      have h2 := dfsNeighborsLogged_inv (dfsDetectCyclesLogged fuel g) (path ++ [node])
        (fun n l found l' hIl hvl hr => ih n l (path ++ [node]) found l' hIl hvl hr)
        _ _ _ _ _ h1 heq
      rw [← h.2]
      exact h2

theorem detectLoopLogged_inv (fuel : Nat) (g : Graph) :
    ∀ (order : List String) (ls : LoggedState) (cycles out : List CircularDependency)
      (ls' : LoggedState), LogInv ls →
      detectLoopLogged fuel g order ls cycles = some (out, ls') → LogInv ls' := by
  intro order
  induction order with
  | nil =>
    intro ls cycles out ls' hI h
    simp only [detectLoopLogged, Option.some.injEq, Prod.mk.injEq] at h
    rw [← h.2]
    exact hI
  | cons n rest ih =>
    intro ls cycles out ls' hI h
    simp only [detectLoopLogged] at h
    cases hv : ls.st.visited n with
    | false =>
      simp only [hv, if_true] at h
      cases hr : dfsDetectCyclesLogged fuel g n ls [] with
      | none => rw [hr] at h; cases h
      | some o =>
        obtain ⟨found, ls1⟩ := o
        rw [hr] at h
        exact ih ls1 _ out ls' (dfsDetectCyclesLogged_inv g fuel n ls [] found ls1 hI hv hr) h
    | true =>
      simp only [hv, Bool.true_eq_false, if_false] at h
      exact ih ls _ out ls' hI h


/-- C36: on every graph a call of `dfsDetectCycles` on an unvisited node of the
graph returns, whatever cycles the graph has; and a whole run of
`DetectCircularDependencies` returns having called `dfsDetectCycles` at most once
on each node: the log of the calls has no repeats, every logged node is marked
visited, and a call is made only on a node that is not yet marked. -/
theorem search_terminates_expanding_once (g : Graph) (models : List (String × Model))
    (order : List String) (hord : ∀ n ∈ order, n ∈ keys models) :
    (∀ node st path, node ∈ graphNodes g → st.visited node = false →
      ∃ out st', dfsDetectCycles (graphNodes g).length g node st path = some (out, st') ∧
        st'.visited node = true) ∧
    ∃ raw ls,
      detectLoopLogged (graphNodes (buildDependencyGraph models)).length
        (buildDependencyGraph models) order ⟨initState, []⟩ [] = some (raw, ls) ∧
      detectLoop (graphNodes (buildDependencyGraph models)).length
        (buildDependencyGraph models) order initState [] = some (raw, ls.st) ∧
      DetectCircularDependencies models order = some (dedupeCycles raw) ∧
      ls.calls.Nodup ∧ ∀ x ∈ ls.calls, ls.st.visited x = true := by
  constructor
  · intro node st path hn hv
    obtain ⟨out, st', h⟩ := dfsDetectCycles_returns g (graphNodes g).length node st path hn hv
      (by unfold unvisitedCount; exact List.length_filter_le _ _)
    exact ⟨out, st', h, (dfsDetectCycles_frame g _ node st path out st' hv h).2⟩
  · obtain ⟨raw, st', hloop, hdet⟩ := DetectCircularDependencies_returns models order hord
    have herase := detectLoopLogged_erase (graphNodes (buildDependencyGraph models)).length
      (buildDependencyGraph models) order ⟨initState, []⟩ []
    rw [show (⟨initState, []⟩ : LoggedState).st = initState from rfl, hloop] at herase
    cases hl : detectLoopLogged (graphNodes (buildDependencyGraph models)).length
        (buildDependencyGraph models) order ⟨initState, []⟩ [] with
    | none => rw [hl] at herase; cases herase
    | some o =>
      obtain ⟨raw2, ls⟩ := o
      rw [hl] at herase
      simp only [Option.map_some', eraseLog, Option.some.injEq, Prod.mk.injEq] at herase
      obtain ⟨h1, h2⟩ := herase
      subst h1
      have hinv := detectLoopLogged_inv _ _ order ⟨initState, []⟩ [] raw2 ls
        ⟨List.nodup_nil, fun x hx => by simp at hx⟩ hl
      refine ⟨raw2, ls, rfl, ?_, hdet, hinv.1, hinv.2⟩
      rw [hloop, h2]

/-- Witness of C36: on the two models that depend on each other the search makes
one call on `A` and one on `B`. -/
theorem search_terminates_expanding_once_witness :
    (detectLoopLogged (graphNodes (buildDependencyGraph exampleTwoCycle)).length
        (buildDependencyGraph exampleTwoCycle) ["A", "B"] ⟨initState, []⟩ []).map
      (fun o => o.2.calls) = some ["A", "B"] ∧
    ∃ raw ls,
      detectLoopLogged (graphNodes (buildDependencyGraph exampleTwoCycle)).length
        (buildDependencyGraph exampleTwoCycle) ["A", "B"] ⟨initState, []⟩ [] = some (raw, ls) ∧
      detectLoop (graphNodes (buildDependencyGraph exampleTwoCycle)).length
        (buildDependencyGraph exampleTwoCycle) ["A", "B"] initState [] = some (raw, ls.st) ∧
      DetectCircularDependencies exampleTwoCycle ["A", "B"] = some (dedupeCycles raw) ∧
      ls.calls.Nodup ∧ ∀ x ∈ ls.calls, ls.st.visited x = true :=
  ⟨by decide,
    (search_terminates_expanding_once (buildDependencyGraph exampleTwoCycle) exampleTwoCycle
      ["A", "B"] (by decide)).2⟩


/-! ## The recursion bound of `Sprintf` suffices -/

theorem parsenum_suffix (num : Nat) (isnum : Bool) (l : List Char) :
    (parsenum num isnum l).2 <:+ l := by
  induction l generalizing num isnum with
  | nil => exact List.suffix_refl _
  | cons c rest ih =>
    unfold parsenum
    split
    · split
      · exact List.nil_suffix
      · exact (ih _ _).trans (List.suffix_cons c rest)
    · exact List.suffix_refl _

theorem parseArgNumber_suffix (l : List Char) : (parseArgNumber l).1 <:+ l := by
  unfold parseArgNumber
  split
  · exact List.drop_suffix _ _
  · split
    · exact List.drop_suffix _ _
    · exact List.drop_suffix _ _

theorem argNumber_suffix (s : VerbState) : (argNumber s).rest <:+ s.rest := by
  unfold argNumber
  split
  · exact parseArgNumber_suffix _
  · exact List.suffix_refl _

theorem verbWidth_suffix (s : VerbState) : (verbWidth s).rest <:+ s.rest := by
  unfold verbWidth
  split
  · rename_i rest h
    rw [h]
    exact List.suffix_cons _ _
  · exact parsenum_suffix _ _ _

theorem verbPrecision_suffix (s : VerbState) : (verbPrecision s).rest <:+ s.rest := by
  unfold verbPrecision
  split
  · rename_i rest h
    rw [h]
    have h1 := argNumber_suffix
      { s with rest := rest, goodArgNum := s.goodArgNum && !s.afterIndex }
    simp only
    split
    · rename_i rest1 h2
      rw [h2] at h1
      exact ((List.suffix_cons _ _).trans h1).trans (List.suffix_cons _ _)
    · exact ((parsenum_suffix _ _ _).trans h1).trans (List.suffix_cons _ _)
  · exact List.suffix_refl _

theorem verbText_suffix (s : VerbState) : (verbText s).2 <:+ s.rest := by
  unfold verbText
  split
  · exact List.nil_suffix
  · rename_i verb rest h
    rw [h]
    split
    · exact List.suffix_cons _ _
    · split
      · exact List.suffix_cons _ _
      · exact List.suffix_cons _ _

theorem formatVerb_suffix (format : List Char) : (formatVerb format).2 <:+ format := by
  have h0 : (argNumber ⟨"", format.dropWhile isFormatFlag, false, true⟩).rest <:+ format :=
    (argNumber_suffix _).trans (List.dropWhile_suffix _)
  have h1 := ((verbPrecision_suffix _).trans (verbWidth_suffix _)).trans h0
  have h2 : ∀ s : VerbState, (if s.afterIndex then s else argNumber s).rest <:+ s.rest := by
    intro s
    split
    · exact List.suffix_refl _
    · exact argNumber_suffix s
  exact (verbText_suffix _).trans ((h2 _).trans h1)

/-- The loop of `Sprintf` gives the same text for every bound above the length of
the format: the bound that `Sprintf` passes is never used up. -/
theorem sprintfLoop_fuel (n m : Nat) (format : List Char) (out : String)
    (hn : format.length < n) (hm : format.length < m) :
    sprintfLoop n format out = sprintfLoop m format out := by
  induction n generalizing m format out with
  | zero => omega
  | succ k ih =>
    cases m with
    | zero => omega
    | succ j =>
      unfold sprintfLoop
      simp only
      split
      · rfl
      · rename_i c rest h
        have h1 : (c :: rest).length ≤ format.length := by
          rw [← h]
          exact (List.dropWhile_suffix _).length_le
        have h2 := (formatVerb_suffix rest).length_le
        simp only [List.length_cons] at h1
        exact ih j _ _ (by omega) (by omega)

/-- A text without `%` is its own format result. -/
theorem Sprintf_plain (format : String) (h : '%' ∉ format.data) : Sprintf format = format := by
  have h1 : ∀ l : List Char, '%' ∉ l → l.takeWhile (· != '%') = l ∧
      l.dropWhile (· != '%') = [] := by
    intro l hl
    induction l with
    | nil => exact ⟨rfl, rfl⟩
    | cons c rest ih =>
      have hc : (c != '%') = true := by
        simp only [bne_iff_ne, ne_eq]
        intro e
        exact hl (e ▸ List.mem_cons_self _ _)
      have := ih (fun hm => hl (List.mem_cons_of_mem _ hm))
      simp only [List.takeWhile_cons, List.dropWhile_cons, hc, if_true, this.1, this.2,
        and_self]
  obtain ⟨ht, hd⟩ := h1 format.data h
  unfold Sprintf sprintfLoop
  simp only [ht, hd]
  show "" ++ format = format
  exact String.empty_append format

/-- A `%` in a line of a block comment is read as the start of a verb. -/
theorem BlockComment_reads_verbs :
    ((NewContentBuilder "").BlockComment ["Rate% entity.", "100%", "a%%b"]).lines =
      ["\"\"\"", "Rate%!e(MISSING)ntity.", "100%!(NOVERB)", "a%b", "\"\"\""] := by
  decide

/-! ## The text of an entity and the enumeration of its relations -/

set_option maxRecDepth 100000 in
/-- C31: two enumerations of the relations of the entity `PersonView` give the
same compiled struct and two different texts: the loader methods are emitted
in the order in which the map of relations is enumerated. -/
theorem generateEntityContent_depends_on_enumeration :
    examplePersonViewSwapped.Related.Perm examplePersonView.Related ∧
      CompileEntity examplePersonView exampleContactRegistry = .ok examplePersonViewStruct ∧
      CompileEntity examplePersonViewSwapped exampleContactRegistry =
        .ok examplePersonViewStruct ∧
      (generateEntityBuilder examplePersonViewStruct examplePersonView defaultFormatConfig
          exampleContactRegistry).lines.drop 24 =
        ["",
          "    async def load_owner(self) -> Optional[\x27Owner\x27]:",
          "        \"\"\"Load related Owner entity.\"\"\"",
          "        # TODO: Implement lazy loading", "        return None", "",
          "    async def load_contact(self) -> Optional[\x27Contact\x27]:",
          "        \"\"\"Load related Contact entity.\"\"\"",
          "        # TODO: Implement lazy loading", "        return None"] ∧
      (generateEntityBuilder examplePersonViewStruct examplePersonViewSwapped
          defaultFormatConfig exampleContactRegistry).lines.drop 24 =
        ["",
          "    async def load_contact(self) -> Optional[\x27Contact\x27]:",
          "        \"\"\"Load related Contact entity.\"\"\"",
          "        # TODO: Implement lazy loading", "        return None", "",
          "    async def load_owner(self) -> Optional[\x27Owner\x27]:",
          "        \"\"\"Load related Owner entity.\"\"\"",
          "        # TODO: Implement lazy loading", "        return None"] ∧
      generateEntityContent examplePersonViewStruct examplePersonView defaultFormatConfig
          exampleContactRegistry ≠
        generateEntityContent examplePersonViewStruct examplePersonViewSwapped
          defaultFormatConfig exampleContactRegistry := by
  decide


/-! ## The columns of a generated model -/

/-- In declarative mode the column of a field whose Python name ends in `_id`
(and is longer than that) is a foreign key column, whether or not the field is
in the identifier group `primary`: the line has no `primary_key=True`. -/
theorem modelFieldLine_foreign_key (yamlModel : Model) (config : SQLAlchemyConfig)
    (r : Registry) (cb : ContentBuilder) (field : Field)
    (hdecl : config.UseDeclarative = true) (hnav : hasPrefix field.Name "_nav_" = false)
    (hfk : (hasSuffix (SanitizePythonIdentifier (ToSnakeCase field.Name)) "_id" &&
      decide ((SanitizePythonIdentifier (ToSnakeCase field.Name)).utf8ByteSize > 3)) = true) :
    modelFieldLine yamlModel config r cb field =
      cb.Line (SanitizePythonIdentifier (ToSnakeCase field.Name) ++
        " = Column(Integer, ForeignKey(\x27" ++
        ToSnakeCase (String.mk ((SanitizePythonIdentifier (ToSnakeCase field.Name)).data.take
          ((SanitizePythonIdentifier (ToSnakeCase field.Name)).data.length - 3))) ++
        ".id\x27), nullable=" ++
        nullableStr (!isPrimaryKeyField yamlModel field.Name && field.Type_.IsNullable) ++
        ")") := by
  simp only [modelFieldLine, hnav, hdecl, hfk, Bool.false_eq_true, if_false, if_true]

set_option maxRecDepth 100000 in
/-- C37: the field `UserID` is the only field of the identifier group `primary` of
the model `User`; in declarative mode its column is emitted as a foreign key
column, and no line of the generated model has `primary_key=True`. The field
`Code` of the model `Country`, primary as well, gets `primary_key=True`. -/
theorem generateModelContent_primary_key_dropped :
    isPrimaryKeyField exampleUser "UserID" = true ∧
      defaultFormatConfig.UseDeclarative = true ∧
      CompileModel exampleUser exampleEmptyRegistry = .ok exampleUserStruct ∧
      (generateModelBuilder exampleUserStruct exampleUser defaultFormatConfig
          exampleEmptyRegistry).map (fun cb => cb.lines.drop 11) =
        some ["class User(Base):", "    __tablename__ = \x27user\x27", "",
          "    \"\"\"User model.\"\"\"", "    email = Column(String, nullable=False)",
          "    user_id = Column(Integer, ForeignKey(\x27user.id\x27), nullable=False)", ""] ∧
      (generateModelBuilder exampleUserStruct exampleUser defaultFormatConfig
          exampleEmptyRegistry).map
          (fun cb => cb.lines.any fun line => stringsContains line "primary_key") =
        some false ∧
      (generateModelBuilder ⟨"Country", [⟨"Code", TypeString⟩]⟩ exampleCountry
          defaultFormatConfig exampleEmptyRegistry).map (fun cb => cb.lines.drop 11) =
        some ["class Country(Base):", "    __tablename__ = \x27country\x27", "",
          "    \"\"\"Country model.\"\"\"", "    code = Column(String, primary_key=True)", ""] := by
  decide

set_option maxRecDepth 100000 in
/-- C38: the model `Person` has the owning-one relation `ContactInfo` aliased to
`Contact`. In declarative mode the column of the generated foreign-key field
references `contactinfo.id`, while the table name generated for the target model
`Contact` is `contact` and `ToSnakeCase` of the relation name is `contact_info`.
For the relation `Company` of `Employee`, one word without alias, the column
references `company.id`. -/
theorem generateModelContent_foreign_key_table :
    CompileModel examplePerson exampleContactRegistry = .ok examplePersonStruct ∧
      CompileModel exampleContact exampleContactRegistry = .ok exampleContactStruct ∧
      generatedFields "ContactInfo" ⟨"ForOne", [], "", "Contact"⟩ =
        [⟨"contactinfoId", TypeString⟩] ∧
      (generateModelBuilder examplePersonStruct examplePerson defaultFormatConfig
          exampleContactRegistry).map (fun cb => cb.lines.drop 13) =
        some ["class Person(Base):", "    __tablename__ = \x27person\x27", "",
          "    \"\"\"Person model.\"\"\"", "    name = Column(String, nullable=False)",
          "    contactinfo_id = Column(Integer, ForeignKey(\x27contactinfo.id\x27), nullable=False)",
          "", "    contact_info = relationship(\"Contact\", back_populates=\"person\")"] ∧
      (generateModelBuilder exampleContactStruct exampleContact defaultFormatConfig
          exampleContactRegistry).map (fun cb => (cb.lines.drop 11).take 2) =
        some ["class Contact(Base):", "    __tablename__ = \x27contact\x27"] ∧
      ToSnakeCase "Contact" = "contact" ∧ ToSnakeCase "ContactInfo" = "contact_info" ∧
      CompileModel exampleEmployee exampleEmptyRegistry = .ok exampleEmployeeStruct ∧
      (generateModelBuilder exampleEmployeeStruct exampleEmployee defaultFormatConfig
          exampleEmptyRegistry).map (fun cb => (cb.lines.drop 15).take 2) =
        some ["    name = Column(String, nullable=False)",
          "    company_id = Column(Integer, ForeignKey(\x27company.id\x27), nullable=False)"] := by
  decide

end Morphe
